import Mathlib

/-!
# rp66 (Visible Envelope) layer of layered-file-protocols

A shallow embedding of `src/rp66.cpp`: the address map, the record index, the
read head and the orchestrating protocol (`seek`, `tell`, `readinto`,
`read_header_from_disk`), followed by theorems about them.

Conventions of the embedding

* `std::int64_t` values are `Int`; bytes and the 16-bit record length are `Nat`
  (the length is reduced modulo `2^16` where it is assembled from two bytes).
  The one sum an offset supplied by the caller can push out of 64 bits is the
  one of `address_map::physical` inside `rp66::seek`: `physical64` and `seek64`
  compute it in 64 bits, and agree with the exact ones where it fits.
* An iterator into the index is the position of the entry in the underlying
  vector (position 0 is the ghost).
* A C++ exception is an `error` value; the protocol state at the point of the
  throw is returned next to it.  A failed `assert` is `error.assertion`, and
  dereferencing an iterator outside the vector is `error.undefined`.
* `while (true)` loops take a fuel argument; `none` means the fuel ran out.
-/

namespace lfp

/-! ## Definitions -/

/-- Modelled from the spec: the status codes of the stream contract
(`lfp.h` is not among the sources).  `readinto` reports one of ok / incomplete /
end-of-data; the remaining codes are the ones the sources and tests name. -/
inductive lfp_status where
  | LFP_OK
  | LFP_OKINCOMPLETE
  | LFP_NOTIMPLEMENTED
  | LFP_LEAF_PROTOCOL
  | LFP_INVALID_ARGS
  | LFP_EOF
deriving DecidableEq, Repr

/-- Exceptions thrown by the layer, plus the two ways the C++ can go wrong
without throwing: a failed `assert` and undefined behaviour. -/
inductive error where
  | invalid_argument
  | invalid_args
  | runtime_error
  | io_error
  | not_implemented
  | protocol_fatal
  | protocol_failed_recovery
  | unexpected_eof
  | assertion
  | undefined
deriving DecidableEq, Repr

/-- Record header (`struct header`), augmented with its physical offset. -/
structure header where
  length : Nat
  format : Nat
  major : Nat
  offset : Int
deriving DecidableEq, Repr

/-- Number of bytes of a Visible Record Header (`header::size`). -/
def header.size : Int := 4

/-- Address translator (`class address_map`). -/
structure address_map where
  zero : Int
deriving DecidableEq, Repr

/-- Logical address of a physical address inside record number `record`. -/
def address_map.logical (m : address_map) (addr : Int) (record : Int) : Int :=
  addr - (header.size * (1 + record)) - m.zero

/-- Physical address of a logical address inside record number `record`, as the
exact sum; `physical64` below is the value the machine computes. -/
def address_map.physical (m : address_map) (addr : Int) (record : Int) : Int :=
  addr + (header.size * (1 + record)) + m.zero

/-- Base address of the map. -/
def address_map.base (m : address_map) : Int := m.zero

/-- The record index (`class record_index`): the private vector of headers,
ghost first, and the address map. -/
structure record_index where
  base : List header
  addr : address_map
deriving DecidableEq, Repr

/-- Append a header (`record_index::append`); the allocation failure of
`push_back` is not modelled. -/
def record_index.append (idx : record_index) (head : header) : record_index :=
  { idx with base := idx.base ++ [head] }

/-- Constructor `record_index::record_index(address_map)`: inserts the ghost. -/
def record_index.create (m : address_map) : record_index :=
  let ghost : header :=
    { length := header.size.toNat
      offset := m.base - header.size
      format := 0x00
      major := 255 }
  record_index.append { base := [], addr := m } ghost

/-- Iterator to the last entry, `std::prev(end())`. -/
def record_index.last (idx : record_index) : Nat := idx.base.length - 1

/-- Number of real records, `base::size() - 1`. -/
def record_index.size (idx : record_index) : Nat := idx.base.length - 1

/-- True when no real record is indexed. -/
def record_index.empty (idx : record_index) : Bool := idx.size == 0

/-- Iterator to the first real record, `base::begin() + 1`. -/
def record_index.begin (_idx : record_index) : Nat := 1

/-- Position of an iterator relative to `begin()`. -/
def record_index.index_of (idx : record_index) (itr : Nat) : Int :=
  (itr : Int) - (idx.begin : Int)

/-- Dereference an iterator. -/
def record_index.deref (idx : record_index) (itr : Nat) : Option header :=
  idx.base.get? itr

/-- Body of `record_index::contains`. -/
def record_index.contains (idx : record_index) (n : Int) : Except error Bool :=
  match idx.deref idx.last with
  | none => .error .undefined
  | some last =>
    .ok (decide (n < idx.addr.logical (last.offset + last.length) idx.size))

/-- The `while (true)` of `record_index::find`: `rest` are the entries from
`cur` on, `cur` the iterator.  Running off the vector is undefined behaviour. -/
def record_index.find_loop (idx : record_index) (n : Int) :
    List header → Nat → Except error Nat
  | [], _ => .error .undefined
  | h :: rest, cur =>
    let pos := idx.index_of cur
    let off := h.offset + h.length
    if n < idx.addr.logical off pos then .ok cur
    else record_index.find_loop idx n rest (cur + 1)

/-- Body of `record_index::find`. -/
def record_index.find (idx : record_index) (n : Int) : Except error Nat :=
  match idx.contains n with
  | .error e => .error e
  | .ok false => .error .assertion
  | .ok true => idx.find_loop n (idx.base.drop idx.begin) idx.begin

/-- The cursor (`class read_head`): an iterator into the index and the number
of bytes left in the record it points at. -/
structure read_head where
  it : Nat
  remaining : Int
deriving DecidableEq, Repr

/-- Read head on the ghost node. -/
def read_head.ghost (b : Nat) : read_head := { it := b, remaining := 0 }

/-- True if the current record is exhausted. -/
def read_head.exhausted (h : read_head) : Except error Bool :=
  if h.remaining ≥ 0 then .ok (h.remaining == 0) else .error .assertion

/-- Bytes left in the current record. -/
def read_head.bytes_left (h : read_head) : Except error Int :=
  if h.remaining ≥ 0 then .ok h.remaining else .error .assertion

/-- Overload `read_head::move(std::int64_t)`: advance within the record. -/
def read_head.move (h : read_head) (n : Int) : Except error read_head :=
  if ¬ (n ≥ 0) then .error .assertion
  else if ¬ (h.remaining ≥ 0) then .error .assertion
  else if h.remaining - n < 0 then .error .invalid_argument
  else .ok { h with remaining := h.remaining - n }

/-- Overload `read_head::move(const base_type&)`: position the head at the
start of the record `itr` points at. -/
def read_head.move_to (h : read_head) (idx : record_index) (itr : Nat) :
    Except error read_head :=
  if ¬ (h.remaining ≥ 0) then .error .assertion
  else match idx.deref itr with
    | none => .error .undefined
    | some hd => .ok { it := itr, remaining := (hd.length : Int) - header.size }

/-- Skip to the end of this record. -/
def read_head.skip (h : read_head) : Except error read_head :=
  if ¬ (h.remaining ≥ 0) then .error .assertion
  else .ok { h with remaining := 0 }

/-- A read head moved to the start of the next record. -/
def read_head.next_record (h : read_head) (idx : record_index) :
    Except error read_head :=
  if ¬ (h.remaining ≥ 0) then .error .assertion
  else h.move_to idx (h.it + 1)

/-- Physical position of the read head. -/
def read_head.tell (h : read_head) (idx : record_index) : Except error Int :=
  if ¬ (h.remaining ≥ 0) then .error .assertion
  else match idx.deref h.it with
    | none => .error .undefined
    | some hd => .ok (hd.offset + hd.length - h.remaining)

/-- Modelled from the spec: the underlying stream contract of §6
(`lfp/protocol.hpp` is not among the sources), over a state type `σ`:
`readinto` yields the bytes obtained, a status and the new stream state (the
byte count is the length of the list), `seek` and `tell` may throw. -/
structure lfp_protocol (σ : Type) where
  readinto : σ → Int → List Nat × lfp_status × σ
  eof : σ → Bool
  tell : σ → Except error Int
  seek : σ → Int → Except error σ

/-- The protocol object (`class rp66`). -/
structure rp66 (σ : Type) where
  fp : σ
  addr : address_map
  index : record_index
  current : read_head

/-- Base address of a stream, 0 when it cannot tell (`baseaddr`). -/
def baseaddr {σ : Type} (io : lfp_protocol σ) (f : σ) : Int :=
  match io.tell f with
  | .ok n => n
  | .error _ => 0

/-- Constructor `rp66::rp66(lfp_protocol*)`. -/
def rp66.create {σ : Type} (io : lfp_protocol σ) (f : σ) : rp66 σ :=
  let addr : address_map := { zero := baseaddr io f }
  let index := record_index.create addr
  { fp := f, addr := addr, index := index, current := read_head.ghost index.last }

/-- Method `rp66::eof`: delegates to the underlying stream. -/
def rp66.eof {σ : Type} (io : lfp_protocol σ) (self : rp66 σ) : Bool :=
  io.eof self.fp

/-- Method `rp66::tell`. -/
def rp66.tell {σ : Type} (self : rp66 σ) : Except error Int :=
  let pos := self.index.index_of self.current.it
  match self.current.tell self.index with
  | .error e => .error e
  | .ok t => .ok (self.addr.logical t pos)

/-- Byte `i` of the 4-byte header buffer after the stream wrote `bytes` into it
(an `unsigned char`, so reduced modulo 256; bytes the stream did not write read
as 0). -/
def header_byte (bytes : List Nat) (i : Nat) : Nat := (bytes.getD i 0) % 256

/-- Method `rp66::read_header_from_disk`.  The two length bytes are put in host
order before the `memcpy`, so the length is `256 * b[0] + b[1]` on every host. -/
def rp66.read_header_from_disk {σ : Type} (io : lfp_protocol σ) (self : rp66 σ) :
    Except error Unit × rp66 σ :=
  if self.current.it ≠ self.index.last then (.error .assertion, self)
  else match self.current.exhausted with
  | .error e => (.error e, self)
  | .ok false => (.error .assertion, self)
  | .ok true =>
    match io.readinto self.fp header.size with
    | (b, err, fp1) =>
      let self1 : rp66 σ := { self with fp := fp1 }
      let n := b.length
      match err with
      | .LFP_OK =>
        let length := (256 * header_byte b 0 + header_byte b 1) % 65536
        let format := header_byte b 2
        let major := header_byte b 3
        if format ≠ 0xFF ∨ major ≠ 1 then (.error .protocol_fatal, self1)
        else match self1.index.deref self1.index.last with
          | none => (.error .undefined, self1)
          | some last =>
            let base : Int :=
              if ¬ self1.index.empty then last.offset + last.length
              else self1.addr.base
            let head : header :=
              { length := length, format := format, major := major, offset := base }
            (.ok (), { self1 with index := self1.index.append head })
      | .LFP_OKINCOMPLETE => (.error .protocol_failed_recovery, self1)
      | .LFP_EOF =>
        if n = 0 then (.ok (), self1) else (.error .protocol_fatal, self1)
      | _ => (.error .not_implemented, self1)

/-- The `while (true)` of the private `rp66::readinto(void*, std::int64_t)`.
`dst` holds the bytes written so far, so `bytes_read` is `dst.length`. -/
def rp66.readinto_loop {σ : Type} (io : lfp_protocol σ) :
    Nat → rp66 σ → Int → List Nat → Option (Except error (List Nat) × rp66 σ)
  | 0, _, _, _ => none
  | fuel + 1, self, len, dst =>
    if rp66.eof io self then some (.ok dst, self)
    else match self.current.exhausted with
    | .error e => some (.error e, self)
    | .ok true =>
      if self.current.it = self.index.last then
        match rp66.read_header_from_disk io self with
        | (.error e, self1) => some (.error e, self1)
        | (.ok _, self1) =>
          if rp66.eof io self1 then some (.ok dst, self1)
          else match self1.current.move_to self1.index self1.index.last with
            | .error e => some (.error e, self1)
            | .ok c => rp66.readinto_loop io fuel { self1 with current := c } len dst
      else
        match self.current.next_record self.index with
        | .error e => some (.error e, self)
        | .ok next =>
          match next.tell self.index with
          | .error e => some (.error e, self)
          | .ok t =>
            match io.seek self.fp t with
            | .error e => some (.error e, self)
            | .ok fp1 =>
              match self.current.move_to self.index next.it with
              | .error e => some (.error e, { self with fp := fp1 })
              | .ok c =>
                rp66.readinto_loop io fuel { self with fp := fp1, current := c } len dst
    | .ok false =>
      match self.current.bytes_left with
      | .error e => some (.error e, self)
      | .ok left =>
        let to_read := min len left
        match io.readinto self.fp to_read with
        | (b, err, fp1) =>
          let n : Int := b.length
          let self1 : rp66 σ := { self with fp := fp1 }
          match self1.current.move n with
          | .error e => some (.error e, self1)
          | .ok c =>
            let self2 : rp66 σ := { self1 with current := c }
            let dst2 := dst ++ b
            if err = .LFP_OKINCOMPLETE then some (.ok dst2, self2)
            else match c.exhausted with
            | .error e => some (.error e, self2)
            | .ok ex =>
              if err = .LFP_EOF ∧ ex = false then some (.error .unexpected_eof, self2)
              else if err = .LFP_EOF ∧ ex = true then some (.ok dst2, self2)
              else if err ≠ .LFP_OK then some (.error .assertion, self2)
              else if n = len then some (.ok dst2, self2)
              else rp66.readinto_loop io fuel self2 (len - n) dst2

/-- The private `rp66::readinto(void*, std::int64_t)`: the bytes written. -/
def rp66.readinto_n {σ : Type} (io : lfp_protocol σ) (fuel : Nat) (self : rp66 σ)
    (len : Int) : Option (Except error (List Nat) × rp66 σ) :=
  match self.current.bytes_left with
  | .error e => some (.error e, self)
  | .ok _ => rp66.readinto_loop io fuel self len []

/-- The public `rp66::readinto(void*, std::int64_t, std::int64_t*)`: the bytes
written (their number is `*bytes_read`) and the status. -/
def rp66.readinto {σ : Type} (io : lfp_protocol σ) (fuel : Nat) (self : rp66 σ)
    (len : Int) : Option (Except error (List Nat × lfp_status) × rp66 σ) :=
  match rp66.readinto_n io fuel self len with
  | none => none
  | some (.error e, self1) => some (.error e, self1)
  | some (.ok dst, self1) =>
    let n : Int := dst.length
    if ¬ (n ≤ len) then some (.error .assertion, self1)
    else if n = len then some (.ok (dst, .LFP_OK), self1)
    else if rp66.eof io self1 then some (.ok (dst, .LFP_EOF), self1)
    else some (.ok (dst, .LFP_OKINCOMPLETE), self1)

/-- The `while (true)` of `rp66::seek`, entered with the cursor on the last
indexed record. -/
def rp66.seek_loop {σ : Type} (io : lfp_protocol σ) :
    Nat → rp66 σ → Int → Option (Except error Unit × rp66 σ)
  | 0, _, _ => none
  | fuel + 1, self, n =>
    match self.index.deref self.index.last with
    | none => some (.error .undefined, self)
    | some last =>
      let pos := self.index.index_of self.index.last
      let real_offset := self.addr.physical n pos
      let end_ := last.offset + last.length
      if real_offset < end_ then
        match io.seek self.fp real_offset with
        | .error e => some (.error e, self)
        | .ok fp1 =>
          let self1 : rp66 σ := { self with fp := fp1 }
          match self1.current.tell self1.index with
          | .error e => some (.error e, self1)
          | .ok t =>
            match self1.current.move (real_offset - t) with
            | .error e => some (.error e, self1)
            | .ok c => some (.ok (), { self1 with current := c })
      else if real_offset = end_ then
        match io.seek self.fp end_ with
        | .error e => some (.error e, self)
        | .ok fp1 =>
          let self1 : rp66 σ := { self with fp := fp1 }
          match self1.current.skip with
          | .error e => some (.error e, self1)
          | .ok c => some (.ok (), { self1 with current := c })
      else
        match self.current.skip with
        | .error e => some (.error e, self)
        | .ok c =>
          let self1 : rp66 σ := { self with current := c }
          match io.seek self1.fp end_ with
          | .error e => some (.error e, self1)
          | .ok fp1 =>
            match rp66.read_header_from_disk io { self1 with fp := fp1 } with
            | (.error e, self2) => some (.error e, self2)
            | (.ok _, self2) =>
              if rp66.eof io self2 then some (.ok (), self2)
              else match self2.current.move_to self2.index self2.index.last with
                | .error e => some (.error e, self2)
                | .ok c2 => rp66.seek_loop io fuel { self2 with current := c2 } n

/-- Method `rp66::seek`. -/
def rp66.seek {σ : Type} (io : lfp_protocol σ) (fuel : Nat) (self : rp66 σ) (n : Int) :
    Option (Except error Unit × rp66 σ) :=
  match self.index.contains n with
  | .error e => some (.error e, self)
  | .ok true =>
    match self.index.find n with
    | .error e => some (.error e, self)
    | .ok next =>
      let pos := self.index.index_of next
      let real_offset := self.addr.physical n pos
      match io.seek self.fp real_offset with
      | .error e => some (.error e, self)
      | .ok fp1 =>
        let self1 : rp66 σ := { self with fp := fp1 }
        match self1.current.move_to self1.index next with
        | .error e => some (.error e, self1)
        | .ok c =>
          let self2 : rp66 σ := { self1 with current := c }
          match self2.current.tell self2.index with
          | .error e => some (.error e, self2)
          | .ok t =>
            match self2.current.move (real_offset - t) with
            | .error e => some (.error e, self2)
            | .ok c2 => some (.ok (), { self2 with current := c2 })
  | .ok false =>
    match self.current.move_to self.index self.index.last with
    | .error e => some (.error e, self)
    | .ok c => rp66.seek_loop io fuel { self with current := c } n

/-- The value an exact integer takes when it is stored in a `std::int64_t`
(two's complement): the identity on `-2^63 ≤ x < 2^63`. -/
def int64 (x : Int) : Int :=
  (x + 9223372036854775808) % 18446744073709551616 - 9223372036854775808

/-- The address `address_map::physical` returns on the machine: the sum is
computed in a `std::int64_t`.  Where the exact sum does not fit, the C++ is
undefined (signed overflow) and the compiled code wraps, which is the value
taken here. -/
def address_map.physical64 (m : address_map) (addr : Int) (record : Int) : Int :=
  int64 (m.physical addr record)

/-- The `while (true)` of `rp66::seek` with the translation of the caller's
offset computed in 64 bits (`physical64`); otherwise as `rp66.seek_loop`. -/
def rp66.seek64_loop {σ : Type} (io : lfp_protocol σ) :
    Nat → rp66 σ → Int → Option (Except error Unit × rp66 σ)
  | 0, _, _ => none
  | fuel + 1, self, n =>
    match self.index.deref self.index.last with
    | none => some (.error .undefined, self)
    | some last =>
      let pos := self.index.index_of self.index.last
      let real_offset := self.addr.physical64 n pos
      let end_ := last.offset + last.length
      if real_offset < end_ then
        match io.seek self.fp real_offset with
        | .error e => some (.error e, self)
        | .ok fp1 =>
          let self1 : rp66 σ := { self with fp := fp1 }
          match self1.current.tell self1.index with
          | .error e => some (.error e, self1)
          | .ok t =>
            match self1.current.move (real_offset - t) with
            | .error e => some (.error e, self1)
            | .ok c => some (.ok (), { self1 with current := c })
      else if real_offset = end_ then
        match io.seek self.fp end_ with
        | .error e => some (.error e, self)
        | .ok fp1 =>
          let self1 : rp66 σ := { self with fp := fp1 }
          match self1.current.skip with
          | .error e => some (.error e, self1)
          | .ok c => some (.ok (), { self1 with current := c })
      else
        match self.current.skip with
        | .error e => some (.error e, self)
        | .ok c =>
          let self1 : rp66 σ := { self with current := c }
          match io.seek self1.fp end_ with
          | .error e => some (.error e, self1)
          | .ok fp1 =>
            match rp66.read_header_from_disk io { self1 with fp := fp1 } with
            | (.error e, self2) => some (.error e, self2)
            | (.ok _, self2) =>
              if rp66.eof io self2 then some (.ok (), self2)
              else match self2.current.move_to self2.index self2.index.last with
                | .error e => some (.error e, self2)
                | .ok c2 => rp66.seek64_loop io fuel { self2 with current := c2 } n

/-- Method `rp66::seek` with the translation of the caller's offset computed in
64 bits (`physical64`).  The caller's `n` enters no other sum of the method; the
remaining sums are over offsets inside the stream.  It returns what `rp66.seek`
returns whenever every address translated fits a `std::int64_t`. -/
def rp66.seek64 {σ : Type} (io : lfp_protocol σ) (fuel : Nat) (self : rp66 σ) (n : Int) :
    Option (Except error Unit × rp66 σ) :=
  match self.index.contains n with
  | .error e => some (.error e, self)
  | .ok true =>
    match self.index.find n with
    | .error e => some (.error e, self)
    | .ok next =>
      let pos := self.index.index_of next
      let real_offset := self.addr.physical64 n pos
      match io.seek self.fp real_offset with
      | .error e => some (.error e, self)
      | .ok fp1 =>
        let self1 : rp66 σ := { self with fp := fp1 }
        match self1.current.move_to self1.index next with
        | .error e => some (.error e, self1)
        | .ok c =>
          let self2 : rp66 σ := { self1 with current := c }
          match self2.current.tell self2.index with
          | .error e => some (.error e, self2)
          | .ok t =>
            match self2.current.move (real_offset - t) with
            | .error e => some (.error e, self2)
            | .ok c2 => some (.ok (), { self2 with current := c2 })
  | .ok false =>
    match self.current.move_to self.index self.index.last with
    | .error e => some (.error e, self)
    | .ok c => rp66.seek64_loop io fuel { self with current := c } n

/-- Modelled from the spec: the physical byte stream under the layer (the
`cfile` of the tests; its source is not among the sources): a finite byte
sequence, a position and the end-of-file indicator of C stdio.  A read yields
the bytes available up to the length asked; the indicator is set only by a read
that asks for more than is there and is cleared by a seek. -/
structure cfile where
  data : List Nat
  pos : Nat
  eofbit : Bool
deriving DecidableEq, Repr

/-- Modelled from the spec: `readinto` of the stream contract for `cfile`,
status ok when the length asked was obtained and end-of-data otherwise. -/
def cfile.readinto (f : cfile) (len : Int) : List Nat × lfp_status × cfile :=
  let b := (f.data.drop f.pos).take len.toNat
  if (b.length : Int) = len then (b, .LFP_OK, { f with pos := f.pos + b.length })
  else (b, .LFP_EOF, { f with pos := f.pos + b.length, eofbit := true })

/-- Modelled from the spec: `seek` of the stream contract for `cfile`; a
negative offset is refused. -/
def cfile.seek (f : cfile) (n : Int) : Except error cfile :=
  if n < 0 then .error .io_error
  else .ok { f with pos := n.toNat, eofbit := false }

/-- Modelled from the spec: the stream contract of §6 instantiated for
`cfile`. -/
def cfile.io : lfp_protocol cfile where
  readinto := cfile.readinto
  eof := fun f => f.eofbit
  tell := fun f => .ok (f.pos : Int)
  seek := cfile.seek

/-- A well-formed record on disk: the 4-byte header (length most significant
byte first, then the tag 0xFF 0x01) followed by the payload. -/
def encode (p : List Nat) : List Nat :=
  [(p.length + 4) / 256, (p.length + 4) % 256, 0xFF, 0x01] ++ p

/-- The physical stream made of the contiguous records with payloads `rs`. -/
def stream : List (List Nat) → List Nat
  | [] => []
  | p :: rs => encode p ++ stream rs

/-- The logical stream: the payloads, headers removed. -/
def payload : List (List Nat) → List Nat
  | [] => []
  | p :: rs => p ++ payload rs

/-- Record lengths that fit the 16-bit length field. -/
def wellformed (rs : List (List Nat)) : Prop := ∀ p ∈ rs, p.length + 4 < 65536

/-- A protocol freshly attached to a `cfile` holding `pre` (bytes before the
position of attachment) followed by the records `rs`. -/
def attach (pre : List Nat) (rs : List (List Nat)) : rp66 cfile :=
  rp66.create cfile.io { data := pre ++ stream rs, pos := pre.length, eofbit := false }

/-! ### Description of the states the protocol reaches over a stream of records

The functions below are not part of the program: they name, for a stream of
records with payloads `rs` written after `zero` bytes, the header, the physical
end and the logical end of the entry at each position of the index vector. -/

/-- Payload length of the entry at vector position `it` (0 for the ghost and
past the last record). -/
def plen (rs : List (List Nat)) : Nat → Nat
  | 0 => 0
  | j + 1 => (rs.getD j []).length

/-- Physical end, relative to the base address, of the entry at position `it`. -/
def pend (rs : List (List Nat)) : Nat → Nat
  | 0 => 0
  | j + 1 => pend rs j + 4 + plen rs (j + 1)

/-- Logical end of the entry at position `it`. -/
def lend (rs : List (List Nat)) : Nat → Nat
  | 0 => 0
  | j + 1 => lend rs j + plen rs (j + 1)

/-- The index entry at position `it`: the ghost, or the header of record
`it - 1`. -/
def hdr (z : Nat) (rs : List (List Nat)) : Nat → header
  | 0 => { length := 4, format := 0x00, major := 255, offset := (z : Int) - 4 }
  | j + 1 =>
    { length := plen rs (j + 1) + 4, format := 0xFF, major := 1,
      offset := (z : Int) + pend rs j }

/-- The index holding the ghost and the first `k` records. -/
def cindex (z : Nat) (rs : List (List Nat)) (k : Nat) : record_index :=
  { base := (List.range' 0 (k + 1)).map (hdr z rs), addr := { zero := (z : Int) } }

/-- The protocol state with `k` records indexed, the cursor at vector position
`it` with `r` bytes left, the stream at `pos` with end-of-file indicator `e`. -/
def conc (pre : List Nat) (rs : List (List Nat)) (k it r pos : Nat) (e : Bool) :
    rp66 cfile :=
  { fp := { data := pre ++ stream rs, pos := pos, eofbit := e }
    addr := { zero := (pre.length : Int) }
    index := cindex pre.length rs k
    current := { it := it, remaining := (r : Int) } }

/-- A state in which the stream position agrees with the cursor. -/
def sync (pre : List Nat) (rs : List (List Nat)) (k it r : Nat) (e : Bool) :
    rp66 cfile :=
  conc pre rs k it r (pre.length + pend rs it - r) e

/-- The states reached over the records `rs`, with their logical position `t`:
the first `k` records are indexed, the cursor is inside an indexed entry, the
stream position agrees with it, and the end-of-file indicator is set only with
the cursor exhausted at the last record of the stream. -/
def Inv (pre : List Nat) (rs : List (List Nat)) (t : Nat) (st : rp66 cfile) : Prop :=
  ∃ k it r e, st = sync pre rs k it r e ∧ it ≤ k ∧ k ≤ rs.length ∧ r ≤ plen rs it ∧
    t + r = lend rs it ∧ (e = true → it = rs.length ∧ k = rs.length ∧ r = 0)

/-- The targets `seek` handles in state `st`: the logical offsets that lie more
than 4 bytes before the logical end of the last indexed record (the ones
`contains` accepts), or at or after the logical start of that record. -/
def seekable (rs : List (List Nat)) (st : rp66 cfile) (n : Nat) : Prop :=
  n + 4 < lend rs st.index.size ∨ lend rs (st.index.size - 1) ≤ n

/-- States reachable from a fresh attachment by calls of `seek` (offset `≥ 0`)
and `readinto` (length `≥ 0`) that return normally. -/
inductive Reachable (pre : List Nat) (rs : List (List Nat)) : rp66 cfile → Prop
  | attach : Reachable pre rs (attach pre rs)
  | seek {st st1 : rp66 cfile} (fuel : Nat) (n : Int) : Reachable pre rs st → 0 ≤ n →
      rp66.seek cfile.io fuel st n = some (.ok (), st1) → Reachable pre rs st1
  | readinto {st st1 : rp66 cfile} (fuel : Nat) (len : Int) (out : List Nat × lfp_status) :
      Reachable pre rs st → 0 ≤ len →
      rp66.readinto cfile.io fuel st len = some (.ok out, st1) → Reachable pre rs st1

/-- The reading scenario of the round-trip property: call the public `readinto`
with chunk size `c` until it reports end-of-data (at most `calls` times) and
concatenate what the calls return. -/
def read_all {σ : Type} (io : lfp_protocol σ) (fuel : Nat) (c : Int) :
    Nat → rp66 σ → Option (Except error (List Nat))
  | 0, _ => none
  | calls + 1, st =>
    match rp66.readinto io fuel st c with
    | none => none
    | some (.error e, _) => some (.error e)
    | some (.ok (b, status), st1) =>
      if status = .LFP_EOF then some (.ok b)
      else match read_all io fuel c calls st1 with
        | none => none
        | some (.error e) => some (.error e)
        | some (.ok rest) => some (.ok (b ++ rest))

/-- The record (counted from 0) whose payload holds logical byte `n`. -/
def record_of : List (List Nat) → Nat → Nat
  | [], _ => 0
  | p :: rs, n => if n < p.length then 0 else record_of rs (n - p.length) + 1

/-- Modelled from the spec: the public entry point `lfp_seek` (`lfp.cpp` is not
among the sources; `test/cfile.cpp` exercises it).  A negative offset is an
invalid-argument error, reported before the protocol is touched; any other
offset is handed to the protocol's `seek`. -/
def lfp_seek {σ : Type} (io : lfp_protocol σ) (fuel : Nat) (self : rp66 σ) (n : Int) :
    Option (Except error Unit × rp66 σ) :=
  if n < 0 then some (.error .invalid_args, self)
  else rp66.seek io fuel self n

/-! ### What holds of the index and the cursor over any stream -/

/-- Every pair of adjacent entries of `l` satisfies `R`. -/
def adjacent (R : header → header → Prop) (l : List header) : Prop :=
  ∀ i a b, l[i]? = some a → l[i + 1]? = some b → R a b

/-- The index and cursor of a protocol with base offset `z`: the map keeps `z`,
the first entry (the ghost) ends at `z`, adjacent entries are contiguous and
strictly increasing by offset, and the cursor points at an entry and has no more
bytes left than that entry's payload. -/
def index_ok (z : Int) (idx : record_index) (addr : address_map) (cur : read_head) : Prop :=
  addr.zero = z ∧
  (∃ g, idx.base[0]? = some g ∧ g.offset + (g.length : Int) = z) ∧
  adjacent (fun a b => a.offset + (a.length : Int) = b.offset) idx.base ∧
  adjacent (fun a b => a.offset < b.offset) idx.base ∧
  ∃ hd, idx.deref cur.it = some hd ∧ cur.remaining ≤ (hd.length : Int) - header.size

/-- The ways the protocol moves its cursor: one of the two `move` overloads or
`skip`. -/
def cursor_step (idx : record_index) (c c1 : read_head) : Prop :=
  (∃ n, c.move n = .ok c1) ∨ (∃ j, c.move_to idx j = .ok c1) ∨ c.skip = .ok c1

/-- States reached from construction over a stream `f` of any content by calls
of `seek` and `readinto` with any argument, whether they return or raise. -/
inductive Reached {σ : Type} (io : lfp_protocol σ) (f : σ) : rp66 σ → Prop
  | create : Reached io f (rp66.create io f)
  | seek {st st1 : rp66 σ} (fuel : Nat) (n : Int) (res : Except error Unit) :
      Reached io f st → rp66.seek io fuel st n = some (res, st1) → Reached io f st1
  | readinto {st st1 : rp66 σ} (fuel : Nat) (len : Int)
      (res : Except error (List Nat × lfp_status)) :
      Reached io f st → rp66.readinto io fuel st len = some (res, st1) → Reached io f st1

/-! ## Theorems -/

/-! ### One call of `read_header_from_disk` and one iteration of the read loop -/

theorem exhausted_zero (h : read_head) (hz : h.remaining = 0) : h.exhausted = .ok true := by
  simp [read_head.exhausted, hz]

theorem rhfd_eof {σ : Type} (io : lfp_protocol σ) (self : rp66 σ) (b : List Nat) (fp1 : σ)
    (hcur : self.current.it = self.index.last) (hex : self.current.remaining = 0)
    (hrd : io.readinto self.fp header.size = (b, .LFP_EOF, fp1)) :
    rp66.read_header_from_disk io self =
      (if b.length = 0 then .ok () else .error .protocol_fatal, { self with fp := fp1 }) := by
  unfold rp66.read_header_from_disk
  simp only [hcur, ne_eq, not_true_eq_false, if_false, exhausted_zero _ hex, hrd]
  split <;> rfl

theorem rhfd_ok {σ : Type} (io : lfp_protocol σ) (self : rp66 σ) (b : List Nat) (fp1 : σ)
    (hcur : self.current.it = self.index.last) (hex : self.current.remaining = 0)
    (hrd : io.readinto self.fp header.size = (b, .LFP_OK, fp1)) 
    (hbad : ¬ (header_byte b 2 = 0xFF ∧ header_byte b 3 = 1)) :
    rp66.read_header_from_disk io self = (.error .protocol_fatal, { self with fp := fp1 }) := by
  unfold rp66.read_header_from_disk
  simp only [hcur, ne_eq, not_true_eq_false, if_false, exhausted_zero _ hex, hrd]
  rw [if_pos]
  by_contra hc
  apply hbad
  constructor
  · by_contra h1; exact hc (Or.inl h1)
  · by_contra h1; exact hc (Or.inr h1)

theorem rhfd_index {σ : Type} (io : lfp_protocol σ) (self : rp66 σ) :
    (rp66.read_header_from_disk io self).2.index = self.index ∨
    ∃ head, (rp66.read_header_from_disk io self).2.index = self.index.append head ∧
      head.format = 0xFF ∧ head.major = 1 ∧
      (rp66.read_header_from_disk io self).1 = .ok () ∧
      (io.readinto self.fp header.size).2.1 = .LFP_OK ∧
      header_byte (io.readinto self.fp header.size).1 2 = 0xFF ∧
      header_byte (io.readinto self.fp header.size).1 3 = 1 := by
  unfold rp66.read_header_from_disk
  split
  · left; rfl
  · split
    · left; rfl
    · left; rfl
    · rcases hrd : io.readinto self.fp header.size with ⟨b, err, fp1⟩
      cases err
      case LFP_OK =>
        by_cases hg : header_byte b 2 ≠ 0xFF ∨ header_byte b 3 ≠ 1
        · left; simp only [if_pos hg]
        · simp only [if_neg hg]
          push_neg at hg
          cases hl : record_index.deref self.index self.index.last with
          | none => left; simp [hl]
          | some last =>
            right
            simp only [hl]
            exact ⟨_, rfl, hg.1, hg.2, trivial, trivial, hg.1, hg.2⟩
      case LFP_EOF => left; simp only; split <;> rfl
      all_goals (left; rfl)

theorem exhausted_pos (h : read_head) (hz : 0 < h.remaining) : h.exhausted = .ok false := by
  have h1 : h.remaining ≥ 0 := le_of_lt hz
  have h2 : h.remaining ≠ 0 := ne_of_gt hz
  simp [read_head.exhausted, h1, h2]

theorem bytes_left_nonneg (h : read_head) (hz : 0 ≤ h.remaining) :
    h.bytes_left = .ok h.remaining := by
  simp [read_head.bytes_left, hz]

/-- One iteration of the read loop whose underlying read reports end-of-data. -/
theorem readinto_loop_eof {σ : Type} (io : lfp_protocol σ) (fuel : Nat) (self : rp66 σ)
    (len : Int) (dst b : List Nat) (fp1 : σ)
    (hne : rp66.eof io self = false) (hrem : 0 < self.current.remaining)
    (hrd : io.readinto self.fp (min len self.current.remaining) = (b, .LFP_EOF, fp1))
    (hle : (b.length : Int) ≤ self.current.remaining) :
    rp66.readinto_loop io (fuel + 1) self len dst =
      some (if (b.length : Int) < self.current.remaining then .error .unexpected_eof
            else .ok (dst ++ b),
        { self with fp := fp1,
                    current := { self.current with
                      remaining := self.current.remaining - b.length } }) := by
  have hmv : self.current.move (b.length : Int) =
      .ok { self.current with remaining := self.current.remaining - b.length } := by
    unfold read_head.move
    have h1 : (b.length : Int) ≥ 0 := Int.natCast_nonneg _
    have h2 : self.current.remaining ≥ 0 := le_of_lt hrem
    have h3 : ¬ (self.current.remaining - (b.length : Int) < 0) := by omega
    simp [h1, h2, h3]
  unfold rp66.readinto_loop
  simp only [hne, exhausted_pos _ hrem, bytes_left_nonneg _ (le_of_lt hrem), hrd, hmv]
  by_cases hlt : (b.length : Int) < self.current.remaining
  · have hp : (0 : Int) < self.current.remaining - b.length := by omega
    have he := exhausted_pos { it := self.current.it, remaining := self.current.remaining - b.length } hp
    simp [he, hlt]
  · have hz : self.current.remaining - (b.length : Int) = 0 := by omega
    simp [read_head.exhausted, hz, hlt]

theorem readinto_loop_length {σ : Type} (io : lfp_protocol σ)
    (hio : ∀ s l, 0 ≤ l → ((io.readinto s l).1.length : Int) ≤ l)
    (fuel : Nat) : ∀ (self : rp66 σ) (len : Int) (dst out : List Nat) (s1 : rp66 σ),
    0 ≤ len → rp66.readinto_loop io fuel self len dst = some (.ok out, s1) →
    (out.length : Int) ≤ dst.length + len := by
  induction fuel with
  | zero => intro self len dst out s1 _ h; simp [rp66.readinto_loop] at h
  | succ f ih =>
    intro self len dst out s1 hlen h
    unfold rp66.readinto_loop at h
    split at h
    · simp only [Option.some.injEq, Prod.mk.injEq, Except.ok.injEq] at h
      rw [← h.1]; omega
    · split at h
      · simp at h
      · split at h
        · split at h
          · simp at h
          · split at h
            · simp only [Option.some.injEq, Prod.mk.injEq, Except.ok.injEq] at h
              rw [← h.1]; omega
            · split at h
              · simp at h
              · exact ih _ _ _ _ _ hlen h
        · split at h
          · simp at h
          · split at h
            · simp at h
            · split at h
              · simp at h
              · split at h
                · simp at h
                · exact ih _ _ _ _ _ hlen h
      · split at h
        · simp at h
        · rename_i left hleft
          have hl0 : 0 ≤ left := by
            unfold read_head.bytes_left at hleft
            split at hleft
            · simp only [Except.ok.injEq] at hleft; omega
            · simp at hleft
          rcases hrd : io.readinto self.fp (min len left) with ⟨b, err, fp1⟩
          have hb := hio self.fp (min len left) (le_min hlen hl0)
          rw [hrd] at hb
          simp only [hrd] at hb h
          have hb2 : (b.length : Int) ≤ len := le_trans hb (min_le_left _ _)
          split at h
          · simp at h
          · split at h
            · simp only [Option.some.injEq, Prod.mk.injEq, Except.ok.injEq] at h
              rw [← h.1]; simp only [List.length_append, Nat.cast_add]; omega
            · split at h
              · simp at h
              · split at h
                · simp at h
                · split at h
                  · simp only [Option.some.injEq, Prod.mk.injEq, Except.ok.injEq] at h
                    rw [← h.1]; simp only [List.length_append, Nat.cast_add]; omega
                  · split at h
                    · simp at h
                    · split at h
                      · simp only [Option.some.injEq, Prod.mk.injEq, Except.ok.injEq] at h
                        rw [← h.1]; simp only [List.length_append, Nat.cast_add]; omega
                      · have := ih _ _ _ _ _ (by omega) h
                        simp only [List.length_append, Nat.cast_add] at this
                        omega

/-! ### Bytes of a stream of records -/

theorem pend_eq_lend (rs : List (List Nat)) (j : Nat) : pend rs j = lend rs j + 4 * j := by
  induction j with
  | zero => rfl
  | succ j ih => simp only [pend, lend, ih]; omega

theorem lend_mono (rs : List (List Nat)) (j : Nat) : lend rs j ≤ lend rs (j + 1) := by
  simp only [lend]; omega

theorem lend_le_of_le (rs : List (List Nat)) {i j : Nat} (h : i ≤ j) : lend rs i ≤ lend rs j := by
  induction h with
  | refl => exact le_refl _
  | step _ ih => exact le_trans ih (lend_mono rs _)

theorem plen_succ_of_lt (rs : List (List Nat)) {j : Nat} (h : j < rs.length) :
    plen rs (j + 1) = (rs[j]).length := by
  simp [plen, List.getD_eq_getElem?_getD, List.getElem?_eq_getElem h]

theorem plen_succ_of_ge (rs : List (List Nat)) {j : Nat} (h : rs.length ≤ j) :
    plen rs (j + 1) = 0 := by
  simp [plen, List.getD_eq_getElem?_getD, List.getElem?_eq_none h]

theorem encode_length (p : List Nat) : (encode p).length = 4 + p.length := by
  simp [encode]; omega

theorem stream_drop_pend (rs : List (List Nat)) (k : Nat) (hk : k ≤ rs.length) :
    (stream rs).drop (pend rs k) = stream (rs.drop k) := by
  induction k with
  | zero => rfl
  | succ k ih =>
    have hlt : k < rs.length := hk
    have h1 := ih (le_of_lt hlt)
    simp only [pend]
    rw [show pend rs k + 4 + plen rs (k + 1) = pend rs k + (4 + plen rs (k + 1)) by omega,
      ← List.drop_drop, h1, List.drop_eq_getElem_cons hlt, plen_succ_of_lt rs hlt]
    simp only [stream]
    rw [← encode_length, List.drop_left]

theorem payload_drop_lend (rs : List (List Nat)) (k : Nat) (hk : k ≤ rs.length) :
    (payload rs).drop (lend rs k) = payload (rs.drop k) := by
  induction k with
  | zero => rfl
  | succ k ih =>
    have hlt : k < rs.length := hk
    have h1 := ih (le_of_lt hlt)
    simp only [lend]
    rw [← List.drop_drop, h1, List.drop_eq_getElem_cons hlt, plen_succ_of_lt rs hlt]
    simp only [payload]
    rw [List.drop_left]

theorem lend_cons (p : List Nat) (rs : List (List Nat)) (j : Nat) :
    lend (p :: rs) (j + 1) = p.length + lend rs j := by
  induction j with
  | zero => simp [lend, plen]
  | succ j ih => rw [lend, ih]; simp [lend, plen]; omega

theorem payload_length (rs : List (List Nat)) : (payload rs).length = lend rs rs.length := by
  induction rs with
  | nil => rfl
  | cons p rs ih => simp [payload, lend_cons, ih]

/-- Bytes of a payload read: `m` bytes at offset `i` of record `j`. -/
theorem stream_take_drop (rs : List (List Nat)) (j i m : Nat) (hj : j < rs.length)
    (him : i + m ≤ (rs[j]).length) :
    ((stream rs).drop (pend rs j + 4 + i)).take m = ((rs[j]).drop i).take m := by
  rw [show pend rs j + 4 + i = pend rs j + (4 + i) by omega, ← List.drop_drop,
    stream_drop_pend rs j (le_of_lt hj), List.drop_eq_getElem_cons hj]
  simp only [stream, encode, List.cons_append, List.nil_append]
  rw [show 4 + i = i + 1 + 1 + 1 + 1 by omega]
  simp only [List.drop_succ_cons]
  rw [List.drop_append_of_le_length (by omega), List.take_append_of_le_length]
  rw [List.length_drop]; omega

theorem payload_take_drop (rs : List (List Nat)) (j i m : Nat) (hj : j < rs.length)
    (him : i + m ≤ (rs[j]).length) :
    ((payload rs).drop (lend rs j + i)).take m = ((rs[j]).drop i).take m := by
  rw [← List.drop_drop, payload_drop_lend rs j (le_of_lt hj), List.drop_eq_getElem_cons hj]
  simp only [payload]
  rw [List.drop_append_of_le_length (by omega), List.take_append_of_le_length]
  rw [List.length_drop]; omega

/-- A read of `m ≤ r` bytes with `r` bytes left in the entry at `it` yields the
next `m` bytes of the logical stream. -/
theorem read_payload (pre : List Nat) (rs : List (List Nat)) (it r m : Nat)
    (hit : it ≤ rs.length) (hr : r ≤ plen rs it) (hm : m ≤ r) :
    ((pre ++ stream rs).drop (pre.length + pend rs it - r)).take m
      = ((payload rs).drop (lend rs it - r)).take m ∧
    (((payload rs).drop (lend rs it - r)).take m).length = m := by
  cases it with
  | zero =>
    simp only [plen] at hr
    have : m = 0 := by omega
    subst this
    simp
  | succ j =>
    have hj : j < rs.length := hit
    rw [plen_succ_of_lt rs hj] at hr
    have e1 : pre.length + pend rs (j + 1) - r = pre.length + (pend rs j + 4 + ((rs[j]).length - r)) := by
      simp only [pend, plen_succ_of_lt rs hj]; omega
    have e2 : lend rs (j + 1) - r = lend rs j + ((rs[j]).length - r) := by
      simp only [lend, plen_succ_of_lt rs hj]; omega
    rw [e1, e2, List.drop_append, stream_take_drop rs j _ m hj (by omega),
      payload_take_drop rs j _ m hj (by omega)]
    refine ⟨rfl, ?_⟩
    rw [List.length_take, List.length_drop]; omega

/-- The four header bytes of record `k`. -/
theorem read_header_bytes (pre : List Nat) (rs : List (List Nat)) (k : Nat)
    (hk : k < rs.length) :
    ((pre ++ stream rs).drop (pre.length + pend rs k)).take 4
      = [(plen rs (k + 1) + 4) / 256, (plen rs (k + 1) + 4) % 256, 0xFF, 0x01] := by
  rw [List.drop_append, stream_drop_pend rs k (le_of_lt hk), List.drop_eq_getElem_cons hk,
    plen_succ_of_lt rs hk]
  simp [stream, encode]

theorem read_header_end (pre : List Nat) (rs : List (List Nat)) :
    (pre ++ stream rs).drop (pre.length + pend rs rs.length) = [] := by
  rw [List.drop_append, stream_drop_pend rs _ (le_refl _), List.drop_length]
  rfl

/-! ### The index and the stream of a state over records -/

theorem cindex_last (z : Nat) (rs : List (List Nat)) (k : Nat) : (cindex z rs k).last = k := by
  simp [cindex, record_index.last]

theorem cindex_size (z : Nat) (rs : List (List Nat)) (k : Nat) : (cindex z rs k).size = k := by
  simp [cindex, record_index.size]

theorem cindex_deref (z : Nat) (rs : List (List Nat)) (k j : Nat) (hj : j ≤ k) :
    (cindex z rs k).deref j = some (hdr z rs j) := by
  simp only [cindex, record_index.deref, List.get?_eq_getElem?, List.getElem?_map]
  rw [List.getElem?_range' 0 1 (by omega : j < k + 1)]
  simp

theorem cindex_append (z : Nat) (rs : List (List Nat)) (k : Nat) :
    (cindex z rs k).append (hdr z rs (k + 1)) = cindex z rs (k + 1) := by
  simp [cindex, record_index.append, List.range'_concat 0 (k + 1)]

theorem hdr_end (z : Nat) (rs : List (List Nat)) (j : Nat) :
    (hdr z rs j).offset + ((hdr z rs j).length : Int) = (z : Int) + pend rs j := by
  cases j with
  | zero => simp [hdr, pend]
  | succ j => simp only [hdr, pend]; push_cast; omega

theorem hdr_length (z : Nat) (rs : List (List Nat)) (j : Nat) :
    (hdr z rs j).length = plen rs j + 4 := by
  cases j with
  | zero => simp [hdr, plen]
  | succ j => simp [hdr]

theorem wellformed_plen (rs : List (List Nat)) (hwf : wellformed rs) (j : Nat) :
    plen rs j + 4 < 65536 := by
  cases j with
  | zero => simp [plen]
  | succ j =>
    by_cases hj : j < rs.length
    · rw [plen_succ_of_lt rs hj]
      exact hwf _ (List.getElem_mem _)
    · rw [plen_succ_of_ge rs (not_lt.mp hj)]; omega

theorem cfile_readinto_ok (data : List Nat) (pos : Nat) (e : Bool) (len : Int) (b : List Nat)
    (hb : (data.drop pos).take len.toNat = b) (hl : (b.length : Int) = len) :
    cfile.readinto { data := data, pos := pos, eofbit := e } len
      = (b, .LFP_OK, { data := data, pos := pos + b.length, eofbit := e }) := by
  unfold cfile.readinto
  simp only [hb, hl, if_true]

theorem cfile_readinto_eof (data : List Nat) (pos : Nat) (e : Bool) (len : Int) (b : List Nat)
    (hb : (data.drop pos).take len.toNat = b) (hl : (b.length : Int) ≠ len) :
    cfile.readinto { data := data, pos := pos, eofbit := e } len
      = (b, .LFP_EOF, { data := data, pos := pos + b.length, eofbit := true }) := by
  unfold cfile.readinto
  simp only [hb, hl, if_false]

theorem cfile_read_header (pre : List Nat) (rs : List (List Nat)) (k : Nat) (e : Bool)
    (hk : k < rs.length) :
    cfile.readinto { data := pre ++ stream rs, pos := pre.length + pend rs k, eofbit := e } 4
      = ([(plen rs (k + 1) + 4) / 256, (plen rs (k + 1) + 4) % 256, 0xFF, 0x01], .LFP_OK,
         { data := pre ++ stream rs, pos := pre.length + pend rs k + 4, eofbit := e }) :=
  cfile_readinto_ok _ _ _ 4 _ (read_header_bytes pre rs k hk) rfl

theorem cfile_read_end (pre : List Nat) (rs : List (List Nat)) (e : Bool) (len : Int)
    (hlen : 0 < len) :
    cfile.readinto { data := pre ++ stream rs, pos := pre.length + pend rs rs.length, eofbit := e } len
      = ([], .LFP_EOF,
         { data := pre ++ stream rs, pos := pre.length + pend rs rs.length, eofbit := true }) := by
  have h := cfile_readinto_eof (pre ++ stream rs) (pre.length + pend rs rs.length) e len []
    (by rw [read_header_end]; simp) (by simp; omega)
  simpa using h

/-- Offset given to a newly parsed header when `k` records are indexed. -/
theorem next_offset (z : Nat) (rs : List (List Nat)) (k : Nat) :
    (if ¬ (cindex z rs k).empty = true then
        (hdr z rs k).offset + ((hdr z rs k).length : Int)
      else (address_map.mk (z : Int)).base) = (z : Int) + pend rs k := by
  rw [hdr_end]
  split
  · rfl
  · rename_i hne
    simp only [record_index.empty, cindex_size, beq_iff_eq, not_not] at hne
    subst hne
    simp [address_map.base, pend]

/-- Parsing the header of record `k` when `k` records are indexed. -/
theorem rhfd_conc_lt (pre : List Nat) (rs : List (List Nat)) (hwf : wellformed rs)
    (k : Nat) (e : Bool) (hk : k < rs.length) :
    rp66.read_header_from_disk cfile.io (conc pre rs k k 0 (pre.length + pend rs k) e)
      = (.ok (), conc pre rs (k + 1) k 0 (pre.length + pend rs k + 4) e) := by
  have hwfk := wellformed_plen rs hwf (k + 1)
  have hrd : cfile.io.readinto (conc pre rs k k 0 (pre.length + pend rs k) e).fp header.size
      = _ := cfile_read_header pre rs k e hk
  have hb2 : header_byte [(plen rs (k + 1) + 4) / 256, (plen rs (k + 1) + 4) % 256, 0xFF, 0x01] 2 = 255 := by
    simp [header_byte]
  have hb3 : header_byte [(plen rs (k + 1) + 4) / 256, (plen rs (k + 1) + 4) % 256, 0xFF, 0x01] 3 = 1 := by
    simp [header_byte]
  have hb0 : header_byte [(plen rs (k + 1) + 4) / 256, (plen rs (k + 1) + 4) % 256, 0xFF, 0x01] 0 = (plen rs (k + 1) + 4) / 256 := by
    simp only [header_byte, List.getD_cons_zero]; omega
  have hb1 : header_byte [(plen rs (k + 1) + 4) / 256, (plen rs (k + 1) + 4) % 256, 0xFF, 0x01] 1 = (plen rs (k + 1) + 4) % 256 := by
    simp only [header_byte, List.getD_cons_succ, List.getD_cons_zero]; omega
  have hlen : (256 * ((plen rs (k + 1) + 4) / 256) + (plen rs (k + 1) + 4) % 256) % 65536 = plen rs (k + 1) + 4 := by
    omega
  unfold rp66.read_header_from_disk
  rw [hrd]
  simp only [conc, cindex_last, ne_eq, not_true_eq_false, if_false, read_head.exhausted,
    Nat.cast_zero, ge_iff_le, le_refl, if_true, beq_self_eq_true,
    hb0, hb1, hb2, hb3, hlen, or_self, cindex_deref _ rs k k (le_refl k), next_offset]
  rw [← cindex_append]
  simp [hdr]

/-- Parsing a header at the end of the stream. -/
theorem rhfd_conc_end (pre : List Nat) (rs : List (List Nat)) (e : Bool) :
    rp66.read_header_from_disk cfile.io
        (conc pre rs rs.length rs.length 0 (pre.length + pend rs rs.length) e)
      = (.ok (), conc pre rs rs.length rs.length 0 (pre.length + pend rs rs.length) true) := by
  have hrd : cfile.io.readinto
      (conc pre rs rs.length rs.length 0 (pre.length + pend rs rs.length) e).fp header.size
      = _ := cfile_read_end pre rs e 4 (by decide)
  unfold rp66.read_header_from_disk
  rw [hrd]
  simp [conc, cindex_last, read_head.exhausted]

/-! ### The cursor of a state over records -/

theorem move_to_cindex (z : Nat) (rs : List (List Nat)) (k j : Nat) (c : read_head)
    (hc : 0 ≤ c.remaining) (hj : j ≤ k) :
    c.move_to (cindex z rs k) j = .ok { it := j, remaining := (plen rs j : Int) } := by
  unfold read_head.move_to
  have : ¬ ¬ (c.remaining ≥ 0) := not_not.mpr hc
  simp only [this, if_false, cindex_deref z rs k j hj, hdr_length, header.size]
  congr 2
  push_cast; omega

theorem tell_cindex (z : Nat) (rs : List (List Nat)) (k it r : Nat) (hit : it ≤ k) :
    read_head.tell { it := it, remaining := (r : Int) } (cindex z rs k)
      = .ok ((z : Int) + pend rs it - r) := by
  unfold read_head.tell
  simp [cindex_deref z rs k it hit, hdr_end]

theorem sync_zero_eq (pre : List Nat) (rs : List (List Nat)) (k it : Nat) (e : Bool) :
    sync pre rs k it 0 e = conc pre rs k it 0 (pre.length + pend rs it) e := rfl

theorem Inv_sync (pre : List Nat) (rs : List (List Nat)) (k it r : Nat) (e : Bool) (t : Nat)
    (h1 : it ≤ k) (h2 : k ≤ rs.length) (h3 : r ≤ plen rs it) (h4 : t + r = lend rs it)
    (h5 : e = true → it = rs.length ∧ k = rs.length ∧ r = 0) :
    Inv pre rs t (sync pre rs k it r e) :=
  ⟨k, it, r, e, rfl, h1, h2, h3, h4, h5⟩

theorem lend_le_total (rs : List (List Nat)) {j : Nat} (hj : j ≤ rs.length) :
    lend rs j ≤ (payload rs).length := by
  rw [payload_length]; exact lend_le_of_le rs hj

/-- The read loop from a state over well-formed records: it returns the next
`len` bytes of the logical stream (fewer at the end of the stream, and then the
end-of-file indicator is set). -/
theorem readinto_loop_sync (pre : List Nat) (rs : List (List Nat)) (hwf : wellformed rs)
    (fuel : Nat) : ∀ (k it r : Nat) (e : Bool) (t : Nat) (len : Int) (dst : List Nat),
    it ≤ k → k ≤ rs.length → r ≤ plen rs it → t + r = lend rs it →
    (e = true → it = rs.length ∧ k = rs.length ∧ r = 0) → 0 ≤ len →
    2 * (rs.length - it) + (if r = 0 then 0 else 1) < fuel →
    ∃ st1, rp66.readinto_loop cfile.io fuel (sync pre rs k it r e) len dst
        = some (.ok (dst ++ ((payload rs).drop t).take len.toNat), st1) ∧
      Inv pre rs (min (t + len.toNat) (payload rs).length) st1 ∧
      ((payload rs).length < t + len.toNat → st1.fp.eofbit = true) := by
  induction fuel with
  | zero => intro k it r e t len dst _ _ _ _ _ _ hf; omega
  | succ f ih =>
    intro k it r e t len dst h1 h2 h3 h4 h5 hlen hf
    have hL := payload_length rs
    have hitN : lend rs it ≤ (payload rs).length := lend_le_total rs (le_trans h1 h2)
    unfold rp66.readinto_loop
    cases e with
    | true =>
      obtain ⟨e1, e2, e3⟩ := h5 rfl
      subst e3
      have ht : t = (payload rs).length := by rw [hL, ← e1]; omega
      refine ⟨sync pre rs k it 0 true, ?_, ?_, ?_⟩
      · have : rp66.eof cfile.io (sync pre rs k it 0 true) = true := rfl
        simp only [this, if_true]
        rw [List.drop_eq_nil_of_le (by omega)]
        simp
      · exact Inv_sync pre rs k it 0 true _ h1 h2 h3 (by omega) (fun _ => ⟨e1, e2, rfl⟩)
      · intro _; rfl
    | false =>
      have hne : rp66.eof cfile.io (sync pre rs k it r false) = false := rfl
      simp only [hne, Bool.false_eq_true, if_false]
      by_cases hr : r = 0
      · subst hr
        have hex : (sync pre rs k it 0 false).current.exhausted = .ok true :=
          exhausted_zero _ rfl
        have hit : (sync pre rs k it 0 false).current.it = it := rfl
        have hlast : (sync pre rs k it 0 false).index.last = k := cindex_last _ _ _
        simp only [hex, hit, hlast]
        by_cases hik : it = k
        · subst hik
          simp only [if_true]
          by_cases hkN : it = rs.length
          · subst hkN
            rw [sync_zero_eq, rhfd_conc_end]
            have : rp66.eof cfile.io
                (conc pre rs rs.length rs.length 0 (pre.length + pend rs rs.length) true) = true := rfl
            simp only [this, if_true]
            refine ⟨sync pre rs rs.length rs.length 0 true, ?_, ?_, ?_⟩
            · rw [List.drop_eq_nil_of_le (by omega)]; simp; rfl
            · exact Inv_sync pre rs _ _ 0 true _ (le_refl _) (le_refl _) (Nat.zero_le _)
                (by omega) (fun _ => ⟨rfl, rfl, rfl⟩)
            · intro _; rfl
          · have hlt : it < rs.length := lt_of_le_of_ne h2 hkN
            rw [sync_zero_eq, rhfd_conc_lt pre rs hwf it false hlt]
            have : rp66.eof cfile.io
                (conc pre rs (it + 1) it 0 (pre.length + pend rs it + 4) false) = false := rfl
            simp only [this, Bool.false_eq_true, if_false]
            have hmv : (conc pre rs (it + 1) it 0 (pre.length + pend rs it + 4) false).current.move_to
                (conc pre rs (it + 1) it 0 (pre.length + pend rs it + 4) false).index
                (conc pre rs (it + 1) it 0 (pre.length + pend rs it + 4) false).index.last
                = .ok { it := it + 1, remaining := (plen rs (it + 1) : Int) } := by
              have hl : (conc pre rs (it + 1) it 0 (pre.length + pend rs it + 4) false).index.last
                  = it + 1 := cindex_last _ _ _
              rw [hl]
              exact move_to_cindex _ rs (it + 1) (it + 1) _ (le_refl _) (le_refl _)
            simp only [hmv]
            have hst : ({ (conc pre rs (it + 1) it 0 (pre.length + pend rs it + 4) false) with
                current := { it := it + 1, remaining := (plen rs (it + 1) : Int) } } : rp66 cfile)
                = sync pre rs (it + 1) (it + 1) (plen rs (it + 1)) false := by
              simp only [sync, conc, pend]
              congr 2
              omega
            rw [hst]
            have := ih (it + 1) (it + 1) (plen rs (it + 1)) false t len dst (le_refl _) hlt
              (le_refl _) (by simp only [lend]; omega) (by intro h; cases h) hlen
              (by split <;> omega)
            exact this
        · have hlt : it < k := lt_of_le_of_ne h1 hik
          simp only [if_neg hik]
          have hnr : (sync pre rs k it 0 false).current.next_record (sync pre rs k it 0 false).index
              = .ok { it := it + 1, remaining := (plen rs (it + 1) : Int) } := by
            unfold read_head.next_record
            have h0 : ¬ ¬ ((sync pre rs k it 0 false).current.remaining ≥ 0) :=
              not_not.mpr (le_refl _)
            simp only [h0, if_false]
            exact move_to_cindex _ rs k (it + 1) _ (le_refl _) hlt
          have htl : read_head.tell { it := it + 1, remaining := (plen rs (it + 1) : Int) }
              (sync pre rs k it 0 false).index
              = .ok ((pre.length : Int) + pend rs (it + 1) - plen rs (it + 1)) :=
            tell_cindex _ rs k (it + 1) _ hlt
          have hsk : cfile.io.seek (sync pre rs k it 0 false).fp
              ((pre.length : Int) + pend rs (it + 1) - plen rs (it + 1))
              = .ok { data := pre ++ stream rs, pos := pre.length + pend rs it + 4,
                      eofbit := false } := by
            show cfile.seek _ _ = _
            unfold cfile.seek
            have : ¬ ((pre.length : Int) + pend rs (it + 1) - plen rs (it + 1) < 0) := by
              simp only [pend]; push_cast; omega
            simp only [this, if_false, sync, conc]
            congr 2
            simp only [pend]; push_cast; omega
          have hmv : (sync pre rs k it 0 false).current.move_to (sync pre rs k it 0 false).index
              (it + 1) = .ok { it := it + 1, remaining := (plen rs (it + 1) : Int) } :=
            move_to_cindex _ rs k (it + 1) _ (le_refl _) hlt
          simp only [hnr, htl, hsk, hmv]
          have hst : ({ (sync pre rs k it 0 false) with
              fp := { data := pre ++ stream rs, pos := pre.length + pend rs it + 4,
                      eofbit := false },
              current := { it := it + 1, remaining := (plen rs (it + 1) : Int) } } : rp66 cfile)
              = sync pre rs k (it + 1) (plen rs (it + 1)) false := by
            simp only [sync, conc, pend]
            congr 2
            omega
          rw [hst]
          exact ih k (it + 1) (plen rs (it + 1)) false t len dst hlt h2
            (le_refl _) (by simp only [lend]; omega) (by intro h; cases h) hlen
            (by split <;> omega)
      · have hrpos : 0 < r := Nat.pos_of_ne_zero hr
        have hitk : it ≤ rs.length := le_trans h1 h2
        obtain ⟨l, rfl⟩ := Int.eq_ofNat_of_zero_le hlen
        simp only [Int.toNat_ofNat] at *
        have hex : (sync pre rs k it r false).current.exhausted = .ok false :=
          exhausted_pos _ (by show (0 : Int) < (r : Int); omega)
        have hbl : (sync pre rs k it r false).current.bytes_left = .ok (r : Int) :=
          bytes_left_nonneg _ (by show (0 : Int) ≤ (r : Int); omega)
        have hmin : min (l : Int) (r : Int) = ((min l r : Nat) : Int) := by omega
        obtain ⟨hb1, hb2⟩ := read_payload pre rs it r (min l r) hitk h3 (Nat.min_le_right _ _)
        have ht : lend rs it - r = t := by omega
        rw [ht] at hb1 hb2
        have hrd : cfile.io.readinto (sync pre rs k it r false).fp (min (l : Int) (r : Int))
            = (((payload rs).drop t).take (min l r), .LFP_OK,
               { data := pre ++ stream rs,
                 pos := pre.length + pend rs it - r + (((payload rs).drop t).take (min l r)).length,
                 eofbit := false }) := by
          rw [hmin]
          exact cfile_readinto_ok _ _ _ _ _ (by rw [Int.toNat_ofNat]; exact hb1)
            (by rw [hb2])
        simp only [hex, hbl, hrd, hb2]
        have hmv : read_head.move (sync pre rs k it r false).current ((min l r : Nat) : Int)
            = .ok { it := it, remaining := ((r - min l r : Nat) : Int) } := by
          unfold read_head.move
          have e1 : ¬ ¬ (((min l r : Nat) : Int) ≥ 0) := not_not.mpr (Int.natCast_nonneg _)
          have e2 : ¬ ¬ ((sync pre rs k it r false).current.remaining ≥ 0) :=
            not_not.mpr (by show (0 : Int) ≤ (r : Int); omega)
          have e3 : ¬ ((sync pre rs k it r false).current.remaining - ((min l r : Nat) : Int) < 0) := by
            show ¬ ((r : Int) - ((min l r : Nat) : Int) < 0); omega
          simp only [e1, e2, e3, if_false]
          congr 2
          show (r : Int) - ((min l r : Nat) : Int) = _
          omega
        simp only [hmv]
        have hst : ({ (sync pre rs k it r false) with
            fp := { data := pre ++ stream rs, pos := pre.length + pend rs it - r + min l r,
                    eofbit := false },
            current := { it := it, remaining := ((r - min l r : Nat) : Int) } } : rp66 cfile)
            = sync pre rs k it (r - min l r) false := by
          have hp := pend_eq_lend rs it
          simp only [sync, conc]
          congr 2
          omega
        rw [hst]
        obtain ⟨ex, hexh⟩ : ∃ ex, read_head.exhausted
            { it := it, remaining := ((r - min l r : Nat) : Int) } = .ok ex :=
          ⟨((r - min l r : Nat) : Int) == 0, by
            unfold read_head.exhausted; simp only [ge_iff_le, Int.natCast_nonneg, if_true]⟩
        simp only [hexh, reduceCtorEq, false_and, if_false, ne_eq, not_true_eq_false]
        by_cases hlr : l ≤ r
        · have hm : min l r = l := Nat.min_eq_left hlr
          simp only [hm, if_true]
          refine ⟨sync pre rs k it (r - l) false, rfl, ?_, ?_⟩
          · rw [Nat.min_eq_left (by omega)]
            exact Inv_sync pre rs k it (r - l) false _ h1 h2 (by omega) (by omega)
              (by intro h; cases h)
          · intro h; omega
        · have hm : min l r = r := Nat.min_eq_right (by omega)
          have hne2 : ¬ ((r : Int) = (l : Int)) := by omega
          simp only [hm, hne2, if_false, Nat.sub_self]
          have hsub : (l : Int) - (r : Int) = ((l - r : Nat) : Int) := by omega
          rw [hsub]
          obtain ⟨st1, hs1, hs2, hs3⟩ := ih k it 0 false (t + r) ((l - r : Nat) : Int)
            (dst ++ ((payload rs).drop t).take r) h1 h2 (Nat.zero_le _) (by omega)
            (by intro h; cases h) (Int.natCast_nonneg _) (by simp only [if_true]; split at hf <;> omega)
          simp only [Int.toNat_ofNat] at hs1 hs2 hs3
          refine ⟨st1, ?_, ?_, ?_⟩
          · rw [hs1]
            congr 3
            rw [List.append_assoc]
            congr 1
            have : l = r + (l - r) := by omega
            conv_rhs => rw [this, List.take_add, List.drop_drop]
          · have : t + r + (l - r) = t + l := by omega
            rw [this] at hs2; exact hs2
          · intro h; apply hs3; omega

/-! ### More fuel does not change a result -/

set_option maxHeartbeats 1000000 in
theorem readinto_loop_mono {σ : Type} (io : lfp_protocol σ) (fuel : Nat) :
    ∀ (self : rp66 σ) (len : Int) (dst : List Nat) (res : Except error (List Nat) × rp66 σ),
    rp66.readinto_loop io fuel self len dst = some res →
    rp66.readinto_loop io (fuel + 1) self len dst = some res := by
  induction fuel with
  | zero => intro self len dst res h; simp [rp66.readinto_loop] at h
  | succ f ih =>
    intro self len dst res h
    unfold rp66.readinto_loop at h ⊢
    split at h
    · simp_all
    · rename_i hne
      rw [if_neg hne]
      split at h
      · simp_all
      · rename_i hex
        split at h
        · rename_i hlast
          rw [if_pos hlast]
          split at h
          · simp_all
          · rename_i heq
            split at h
            · simp_all
            · rename_i hne2
              rw [if_neg hne2]
              split at h
              · simp_all
              · rename_i hmv
                exact ih _ _ _ _ h
        · rename_i hlast
          rw [if_neg hlast]
          split at h
          · simp_all
          · rename_i h1
            split at h
            · simp_all
            · rename_i h2
              split at h
              · simp_all
              · rename_i h3
                split at h
                · simp_all
                · rename_i h4
                  exact ih _ _ _ _ h
      · rename_i hex
        split at h
        · simp_all
        · rename_i hbl
          rename_i left
          rcases hrd : io.readinto self.fp (min len left) with ⟨b, err, fp1⟩
          simp only [hrd] at h ⊢
          split at h
          · simp_all
          · rename_i hmv
            split at h
            · simp_all
            · rename_i hinc
              rw [if_neg hinc]
              split at h
              · simp_all
              · rename_i hx
                split at h
                · simp_all
                · rename_i c1
                  rw [if_neg c1]
                  split at h
                  · simp_all
                  · rename_i c2
                    rw [if_neg c2]
                    split at h
                    · simp_all
                    · rename_i c3
                      rw [if_neg c3]
                      split at h
                      · simp_all
                      · rename_i c4
                        rw [if_neg c4]
                        exact ih _ _ _ _ h

theorem readinto_loop_mono_le {σ : Type} (io : lfp_protocol σ) {fuel fuel1 : Nat}
    (hle : fuel ≤ fuel1) (self : rp66 σ) (len : Int) (dst : List Nat)
    (res : Except error (List Nat) × rp66 σ)
    (h : rp66.readinto_loop io fuel self len dst = some res) :
    rp66.readinto_loop io fuel1 self len dst = some res := by
  induction hle with
  | refl => exact h
  | step _ ih => exact readinto_loop_mono io _ _ _ _ _ ih

theorem readinto_n_mono_le {σ : Type} (io : lfp_protocol σ) {fuel fuel1 : Nat}
    (hle : fuel ≤ fuel1) (self : rp66 σ) (len : Int)
    (res : Except error (List Nat) × rp66 σ)
    (h : rp66.readinto_n io fuel self len = some res) :
    rp66.readinto_n io fuel1 self len = some res := by
  unfold rp66.readinto_n at h ⊢
  cases hb : self.current.bytes_left with
  | error e => rw [hb] at h; exact h
  | ok v =>
    rw [hb] at h
    exact readinto_loop_mono_le io hle _ _ _ _ h

theorem readinto_mono_le {σ : Type} (io : lfp_protocol σ) {fuel fuel1 : Nat}
    (hle : fuel ≤ fuel1) (self : rp66 σ) (len : Int)
    (res : Except error (List Nat × lfp_status) × rp66 σ)
    (h : rp66.readinto io fuel self len = some res) :
    rp66.readinto io fuel1 self len = some res := by
  unfold rp66.readinto at h ⊢
  cases hr : rp66.readinto_n io fuel self len with
  | none => rw [hr] at h; simp at h
  | some r =>
    rw [readinto_n_mono_le io hle _ _ _ hr]
    rw [hr] at h
    exact h

set_option maxHeartbeats 1000000 in
theorem seek_loop_mono {σ : Type} (io : lfp_protocol σ) (fuel : Nat) :
    ∀ (self : rp66 σ) (n : Int) (res : Except error Unit × rp66 σ),
    rp66.seek_loop io fuel self n = some res →
    rp66.seek_loop io (fuel + 1) self n = some res := by
  induction fuel with
  | zero => intro self n res h; simp [rp66.seek_loop] at h
  | succ f ih =>
    intro self n res h
    unfold rp66.seek_loop at h ⊢
    split at h
    · simp_all
    · simp only at h ⊢
      split at h
      · rename_i c1
        rw [if_pos c1]
        exact h
      · rename_i c1
        rw [if_neg c1]
        split at h
        · rename_i c2
          rw [if_pos c2]
          exact h
        · rename_i c2
          rw [if_neg c2]
          split at h
          · simp_all
          · split at h
            · simp_all
            · split at h
              · simp_all
              · split at h
                · rename_i c3
                  rw [if_pos c3]; exact h
                · rename_i c3
                  rw [if_neg c3]
                  split at h
                  · simp_all
                  · exact ih _ _ _ h

theorem seek_loop_mono_le {σ : Type} (io : lfp_protocol σ) {fuel fuel1 : Nat}
    (hle : fuel ≤ fuel1) (self : rp66 σ) (n : Int) (res : Except error Unit × rp66 σ)
    (h : rp66.seek_loop io fuel self n = some res) :
    rp66.seek_loop io fuel1 self n = some res := by
  induction hle with
  | refl => exact h
  | step _ ih => exact seek_loop_mono io _ _ _ _ ih

theorem seek_mono_le {σ : Type} (io : lfp_protocol σ) {fuel fuel1 : Nat}
    (hle : fuel ≤ fuel1) (self : rp66 σ) (n : Int) (res : Except error Unit × rp66 σ)
    (h : rp66.seek io fuel self n = some res) :
    rp66.seek io fuel1 self n = some res := by
  unfold rp66.seek at h ⊢
  split at h
  · exact h
  · exact h
  · split at h
    · exact h
    · exact seek_loop_mono_le io hle _ _ _ h

/-! ### `contains`, `find` and `seek` over records -/

theorem logical_end (z : Nat) (rs : List (List Nat)) (j : Nat) (p : Int) :
    (address_map.mk (z : Int)).logical ((hdr z rs j).offset + ((hdr z rs j).length : Int)) p
      = (lend rs j : Int) + 4 * j - 4 * (1 + p) := by
  have := pend_eq_lend rs j
  rw [hdr_end]
  simp only [address_map.logical, header.size]
  omega

theorem contains_cindex (z : Nat) (rs : List (List Nat)) (k : Nat) (n : Int) :
    (cindex z rs k).contains n = .ok (decide (n < (lend rs k : Int) - 4)) := by
  unfold record_index.contains
  rw [cindex_last, cindex_deref z rs k k (le_refl _), cindex_size]
  have h := logical_end z rs k (k : Int)
  simp only [cindex] at h ⊢
  simp only [h]
  congr 1
  rw [decide_eq_decide]
  constructor <;> intro <;> omega

theorem find_loop_cindex (z : Nat) (rs : List (List Nat)) (k : Nat) (n : Nat) (m : Nat) :
    ∀ c, 1 ≤ c → lend rs (c - 1) ≤ n → n < lend rs (c + m - 1) →
    ∃ j, (cindex z rs k).find_loop (n : Int) ((List.range' c m).map (hdr z rs)) c = .ok j ∧
      c ≤ j ∧ j < c + m ∧ lend rs (j - 1) ≤ n ∧ n < lend rs j := by
  induction m with
  | zero => intro c _ h1 h2; simp only [Nat.add_zero] at h2; omega
  | succ m ih =>
    intro c hc h1 h2
    simp only [List.range'_succ, List.map_cons, record_index.find_loop]
    have hl := logical_end z rs c ((cindex z rs k).index_of c)
    have hio : (cindex z rs k).index_of c = (c : Int) - 1 := by
      simp [record_index.index_of, record_index.begin]
    rw [hio] at hl
    have hl2 : (cindex z rs k).addr.logical ((hdr z rs c).offset + ((hdr z rs c).length : Int)) ((c : Int) - 1)
        = (lend rs c : Int) := by
      have : (cindex z rs k).addr = address_map.mk (z : Int) := rfl
      rw [this, hl]; omega
    rw [hio, hl2]
    by_cases hn : n < lend rs c
    · have : (n : Int) < (lend rs c : Int) := by omega
      simp only [this, if_true]
      exact ⟨c, rfl, le_refl _, by omega, h1, hn⟩
    · have : ¬ ((n : Int) < (lend rs c : Int)) := by omega
      simp only [this, if_false]
      obtain ⟨j, hj1, hj2, hj3, hj4, hj5⟩ := ih (c + 1) (by omega)
        (by simp only [Nat.add_sub_cancel]; omega)
        (by rw [show c + 1 + m - 1 = c + (m + 1) - 1 by omega]; exact h2)
      exact ⟨j, hj1, by omega, by omega, hj4, hj5⟩

theorem find_cindex (z : Nat) (rs : List (List Nat)) (k : Nat) (n : Nat)
    (hn : n + 4 < lend rs k) :
    ∃ j, (cindex z rs k).find (n : Int) = .ok j ∧ 1 ≤ j ∧ j ≤ k ∧
      lend rs (j - 1) ≤ n ∧ n < lend rs j := by
  unfold record_index.find
  rw [contains_cindex]
  have h1 : ((n : Int) < (lend rs k : Int) - 4) := by omega
  simp only [h1, decide_True]
  have hk : 1 ≤ k := by
    rcases Nat.eq_zero_or_pos k with h | h
    · subst h; simp [lend] at hn
    · exact h
  have hb : (cindex z rs k).base.drop (cindex z rs k).begin
      = (List.range' 1 k).map (hdr z rs) := by
    simp [cindex, record_index.begin, List.range'_succ]
  rw [hb]
  obtain ⟨j, hj1, hj2, hj3, hj4, hj5⟩ := find_loop_cindex z rs k n k 1 (le_refl _)
    (by simp [lend]) (by rw [show 1 + k - 1 = k by omega]; omega)
  exact ⟨j, hj1, hj2, by omega, hj4, hj5⟩

theorem cfile_seek_nat (f : cfile) (p : Nat) :
    cfile.io.seek f (p : Int) = .ok { data := f.data, pos := p, eofbit := false } := by
  show cfile.seek f (p : Int) = _
  unfold cfile.seek
  have : ¬ ((p : Int) < 0) := by omega
  simp only [this, if_false, Int.toNat_ofNat]

theorem move_nat (it r m : Nat) (hm : m ≤ r) :
    read_head.move { it := it, remaining := (r : Int) } (m : Int)
      = .ok { it := it, remaining := ((r - m : Nat) : Int) } := by
  unfold read_head.move
  have e1 : ¬ ¬ ((m : Int) ≥ 0) := not_not.mpr (Int.natCast_nonneg _)
  have e2 : ¬ ¬ ((r : Int) ≥ 0) := not_not.mpr (Int.natCast_nonneg _)
  have e3 : ¬ ((r : Int) - (m : Int) < 0) := by omega
  simp only [e1, e2, e3, if_false]
  congr 2
  omega

theorem skip_nat (it r : Nat) :
    read_head.skip { it := it, remaining := (r : Int) } = .ok { it := it, remaining := ((0 : Nat) : Int) } := by
  unfold read_head.skip
  have e2 : ¬ ¬ ((r : Int) ≥ 0) := not_not.mpr (Int.natCast_nonneg _)
  simp only [e2, if_false]
  rfl

theorem lend_pred (rs : List (List Nat)) (k : Nat) :
    lend rs (k - 1) + plen rs k = lend rs k := by
  cases k with
  | zero => simp [lend, plen]
  | succ k => simp [lend]

theorem seekable_sync (pre : List Nat) (rs : List (List Nat)) (k it r : Nat) (e : Bool)
    (n : Nat) (h : n + 4 < lend rs k ∨ lend rs (k - 1) ≤ n) :
    seekable rs (sync pre rs k it r e) n := by
  unfold seekable
  have hsz : (sync pre rs k it r e).index.size = k := cindex_size _ _ _
  rw [hsz]; exact h

/-- The seek loop, entered with the cursor at the start of the last indexed
record `k` and a target `n` not before the logical start of that record. -/
theorem seek_loop_conc (pre : List Nat) (rs : List (List Nat)) (hwf : wellformed rs)
    (n : Nat) (fuel : Nat) : ∀ (k pos : Nat) (e : Bool),
    k ≤ rs.length → lend rs k ≤ n + plen rs k → rs.length - k < fuel →
    ∃ st1, rp66.seek_loop cfile.io fuel (conc pre rs k k (plen rs k) pos e) (n : Int)
        = some (.ok (), st1) ∧
      Inv pre rs (min n (payload rs).length) st1 ∧
      ((payload rs).length < n → st1 = sync pre rs rs.length rs.length 0 true) ∧
      (n ≤ (payload rs).length → st1.fp.eofbit = false) ∧ seekable rs st1 n := by
  induction fuel with
  | zero => intro k pos e _ _ hf; omega
  | succ f ih =>
    intro k pos e hk hns hf
    have hL := payload_length rs
    have hkL : lend rs k ≤ (payload rs).length := lend_le_total rs hk
    have hpl := pend_eq_lend rs k
    have hpr := lend_pred rs k
    unfold rp66.seek_loop
    have hlast : (conc pre rs k k (plen rs k) pos e).index.last = k := cindex_last _ _ _
    have hder : (conc pre rs k k (plen rs k) pos e).index.deref k = some (hdr pre.length rs k) :=
      cindex_deref _ _ _ _ (le_refl _)
    have hro : (conc pre rs k k (plen rs k) pos e).addr.physical (n : Int)
        ((conc pre rs k k (plen rs k) pos e).index.index_of k) = ((n + 4 * k + pre.length : Nat) : Int) := by
      simp only [conc, address_map.physical, record_index.index_of, record_index.begin, header.size]
      push_cast; omega
    have hend : (hdr pre.length rs k).offset + ((hdr pre.length rs k).length : Int)
        = ((pre.length + pend rs k : Nat) : Int) := by
      rw [hdr_end]; push_cast; rfl
    simp only [hlast, hder, hro, hend]
    by_cases c1 : n < lend rs k
    · have c1' : ((n + 4 * k + pre.length : Nat) : Int) < ((pre.length + pend rs k : Nat) : Int) := by
        omega
      rw [if_pos c1', cfile_seek_nat]
      have htl : read_head.tell (conc pre rs k k (plen rs k) pos e).current
          (conc pre rs k k (plen rs k) pos e).index
          = .ok ((pre.length : Int) + pend rs k - plen rs k) := tell_cindex _ rs k k _ (le_refl _)
      simp only [htl]
      have hd : ((n + 4 * k + pre.length : Nat) : Int) - ((pre.length : Int) + pend rs k - plen rs k)
          = ((n + plen rs k - lend rs k : Nat) : Int) := by omega
      rw [hd]
      have hmv := move_nat k (plen rs k) (n + plen rs k - lend rs k) (by omega)
      have hcur : (conc pre rs k k (plen rs k) pos e).current
          = { it := k, remaining := (plen rs k : Int) } := rfl
      rw [hcur, hmv]
      refine ⟨sync pre rs k k (lend rs k - n) false, ?_, ?_, ?_, ?_, ?_⟩
      · simp only [sync, conc]
        have q1 : n + 4 * k + pre.length = pre.length + pend rs k - (lend rs k - n) := by omega
        have q2 : plen rs k - (n + plen rs k - lend rs k) = lend rs k - n := by omega
        rw [q1, q2]
      · rw [Nat.min_eq_left (by omega)]
        exact Inv_sync pre rs k k _ false n (le_refl _) hk (by omega) (by omega)
          (by intro h; cases h)
      · intro h; omega
      · intro _; rfl
      · exact seekable_sync pre rs k k _ false n (Or.inr (by omega))
    · have c1' : ¬ (((n + 4 * k + pre.length : Nat) : Int) < ((pre.length + pend rs k : Nat) : Int)) := by
        omega
      rw [if_neg c1']
      by_cases c2 : n = lend rs k
      · have c2' : ((n + 4 * k + pre.length : Nat) : Int) = ((pre.length + pend rs k : Nat) : Int) := by
          omega
        rw [if_pos c2', cfile_seek_nat]
        have hcur : (conc pre rs k k (plen rs k) pos e).current
            = { it := k, remaining := (plen rs k : Int) } := rfl
        simp only [hcur, skip_nat]
        refine ⟨sync pre rs k k 0 false, rfl, ?_, ?_, ?_, ?_⟩
        · rw [Nat.min_eq_left (by omega)]
          exact Inv_sync pre rs k k _ false n (le_refl _) hk (Nat.zero_le _) (by omega)
            (by intro h; cases h)
        · intro h; omega
        · intro _; rfl
        · exact seekable_sync pre rs k k _ false n (Or.inr (by omega))
      · have c2' : ¬ (((n + 4 * k + pre.length : Nat) : Int) = ((pre.length + pend rs k : Nat) : Int)) := by
          omega
        rw [if_neg c2']
        have hcur : (conc pre rs k k (plen rs k) pos e).current
            = { it := k, remaining := (plen rs k : Int) } := rfl
        simp only [hcur, skip_nat, cfile_seek_nat]
        have hst : ({ fp := { data := (conc pre rs k k (plen rs k) pos e).fp.data,
                              pos := pre.length + pend rs k, eofbit := false },
                      addr := (conc pre rs k k (plen rs k) pos e).addr,
                      index := (conc pre rs k k (plen rs k) pos e).index,
                      current := { it := k, remaining := ((0 : Nat) : Int) } } : rp66 cfile)
            = conc pre rs k k 0 (pre.length + pend rs k) false := rfl
        rw [hst]
        by_cases hkN : k = rs.length
        · subst hkN
          rw [rhfd_conc_end]
          have : rp66.eof cfile.io
              (conc pre rs rs.length rs.length 0 (pre.length + pend rs rs.length) true) = true := rfl
          simp only [this, if_true]
          refine ⟨sync pre rs rs.length rs.length 0 true, rfl, ?_, ?_, ?_, ?_⟩
          · rw [Nat.min_eq_right (by omega)]
            exact Inv_sync pre rs _ _ 0 true _ (le_refl _) (le_refl _) (Nat.zero_le _)
              (by omega) (fun _ => ⟨rfl, rfl, rfl⟩)
          · intro _; rfl
          · intro h; omega
          · exact seekable_sync pre rs _ _ _ true n (Or.inr (by omega))
        · have hlt : k < rs.length := lt_of_le_of_ne hk hkN
          rw [rhfd_conc_lt pre rs hwf k false hlt]
          have : rp66.eof cfile.io
              (conc pre rs (k + 1) k 0 (pre.length + pend rs k + 4) false) = false := rfl
          simp only [this, Bool.false_eq_true, if_false]
          have hmv : (conc pre rs (k + 1) k 0 (pre.length + pend rs k + 4) false).current.move_to
              (conc pre rs (k + 1) k 0 (pre.length + pend rs k + 4) false).index
              (conc pre rs (k + 1) k 0 (pre.length + pend rs k + 4) false).index.last
              = .ok { it := k + 1, remaining := (plen rs (k + 1) : Int) } := by
            have hl : (conc pre rs (k + 1) k 0 (pre.length + pend rs k + 4) false).index.last
                = k + 1 := cindex_last _ _ _
            rw [hl]
            exact move_to_cindex _ rs (k + 1) (k + 1) _ (le_refl _) (le_refl _)
          simp only [hmv]
          exact ih (k + 1) (pre.length + pend rs k + 4) false hlt
            (by simp only [lend]; omega) (by omega)

/-- A seek to a target it handles, from a state over well-formed records. -/
theorem seek_Inv (pre : List Nat) (rs : List (List Nat)) (hwf : wellformed rs)
    (t : Nat) (st : rp66 cfile) (hinv : Inv pre rs t st) (n : Nat) (hs : seekable rs st n)
    (fuel : Nat) (hf : rs.length + 1 ≤ fuel) :
    ∃ st1, rp66.seek cfile.io fuel st (n : Int) = some (.ok (), st1) ∧
      Inv pre rs (min n (payload rs).length) st1 ∧
      ((payload rs).length < n → st1 = sync pre rs rs.length rs.length 0 true) ∧
      (n ≤ (payload rs).length → st1.fp.eofbit = false) ∧ seekable rs st1 n := by
  obtain ⟨k, it, r, e, rfl, h1, h2, h3, h4, h5⟩ := hinv
  have hsz : (sync pre rs k it r e).index.size = k := cindex_size _ _ _
  unfold seekable at hs
  rw [hsz] at hs
  have hkL : lend rs k ≤ (payload rs).length := lend_le_total rs h2
  unfold rp66.seek
  have hc : (sync pre rs k it r e).index.contains (n : Int)
      = .ok (decide ((n : Int) < (lend rs k : Int) - 4)) := contains_cindex _ _ _ _
  rw [hc]
  by_cases hfast : n + 4 < lend rs k
  · have : ((n : Int) < (lend rs k : Int) - 4) := by omega
    simp only [this, decide_True]
    obtain ⟨j, hj1, hj2, hj3, hj4, hj5⟩ := find_cindex pre.length rs k n hfast
    have hfind : (sync pre rs k it r e).index.find (n : Int) = .ok j := hj1
    have hpl := pend_eq_lend rs j
    have hpr := lend_pred rs j
    have hro : (sync pre rs k it r e).addr.physical (n : Int)
        ((sync pre rs k it r e).index.index_of j) = ((n + 4 * j + pre.length : Nat) : Int) := by
      simp only [sync, conc, address_map.physical, record_index.index_of, record_index.begin,
        header.size]
      push_cast; omega
    simp only [hfind, hro, cfile_seek_nat]
    have hmv : (sync pre rs k it r e).current.move_to (sync pre rs k it r e).index j
        = .ok { it := j, remaining := (plen rs j : Int) } :=
      move_to_cindex _ rs k j _ (by show (0 : Int) ≤ (r : Int); omega) hj3
    simp only [hmv]
    have htl : read_head.tell { it := j, remaining := (plen rs j : Int) }
        (sync pre rs k it r e).index = .ok ((pre.length : Int) + pend rs j - plen rs j) :=
      tell_cindex _ rs k j _ hj3
    simp only [htl]
    have hd : ((n + 4 * j + pre.length : Nat) : Int) - ((pre.length : Int) + pend rs j - plen rs j)
        = ((n + plen rs j - lend rs j : Nat) : Int) := by omega
    rw [hd, move_nat j (plen rs j) (n + plen rs j - lend rs j) (by omega)]
    refine ⟨sync pre rs k j (lend rs j - n) false, ?_, ?_, ?_, ?_, ?_⟩
    · simp only [sync, conc]
      have q1 : n + 4 * j + pre.length = pre.length + pend rs j - (lend rs j - n) := by omega
      have q2 : plen rs j - (n + plen rs j - lend rs j) = lend rs j - n := by omega
      rw [q1, q2]
    · rw [Nat.min_eq_left (by omega)]
      exact Inv_sync pre rs k j _ false n hj3 h2 (by omega) (by omega) (by intro h; cases h)
    · intro h; omega
    · intro _; rfl
    · exact seekable_sync pre rs k j _ false n (Or.inl hfast)
  · have : ¬ ((n : Int) < (lend rs k : Int) - 4) := by omega
    simp only [this, decide_False]
    have hl : (sync pre rs k it r e).index.last = k := cindex_last _ _ _
    have hmv : (sync pre rs k it r e).current.move_to (sync pre rs k it r e).index k
        = .ok { it := k, remaining := (plen rs k : Int) } :=
      move_to_cindex _ rs k k _ (by show (0 : Int) ≤ (r : Int); omega) (le_refl _)
    simp only [hl, hmv]
    have hpr := lend_pred rs k
    exact seek_loop_conc pre rs hwf n fuel k (pre.length + pend rs it - r) e h2 (by omega)
      (by omega)

/-- A seek to a target it does not handle trips the assertion of
`read_head::move`. -/
theorem seek_slip (pre : List Nat) (rs : List (List Nat))
    (t : Nat) (st : rp66 cfile) (hinv : Inv pre rs t st) (n : Nat) (hs : ¬ seekable rs st n)
    (fuel : Nat) (res : Except error Unit × rp66 cfile)
    (h : rp66.seek cfile.io fuel st (n : Int) = some res) : res.1 = .error .assertion := by
  obtain ⟨k, it, r, e, rfl, h1, h2, h3, h4, h5⟩ := hinv
  have hsz : (sync pre rs k it r e).index.size = k := cindex_size _ _ _
  unfold seekable at hs
  rw [hsz] at hs
  push_neg at hs
  obtain ⟨hs1, hs2⟩ := hs
  have hpr := lend_pred rs k
  have hpl := pend_eq_lend rs k
  unfold rp66.seek at h
  have hc : (sync pre rs k it r e).index.contains (n : Int)
      = .ok (decide ((n : Int) < (lend rs k : Int) - 4)) := contains_cindex _ _ _ _
  rw [hc] at h
  have : ¬ ((n : Int) < (lend rs k : Int) - 4) := by omega
  simp only [this, decide_False] at h
  have hl : (sync pre rs k it r e).index.last = k := cindex_last _ _ _
  have hmv : (sync pre rs k it r e).current.move_to (sync pre rs k it r e).index k
      = .ok { it := k, remaining := (plen rs k : Int) } :=
    move_to_cindex _ rs k k _ (by show (0 : Int) ≤ (r : Int); omega) (le_refl _)
  simp only [hl, hmv] at h
  cases fuel with
  | zero => simp [rp66.seek_loop] at h
  | succ f =>
    unfold rp66.seek_loop at h
    have hder : (cindex pre.length rs k).deref k = some (hdr pre.length rs k) :=
      cindex_deref _ _ _ _ (le_refl _)
    have hro : (address_map.mk (pre.length : Int)).physical (n : Int)
        ((cindex pre.length rs k).index_of k) = ((n + 4 * k + pre.length : Nat) : Int) := by
      simp only [address_map.physical, record_index.index_of, record_index.begin, header.size]
      push_cast; omega
    have hend : (hdr pre.length rs k).offset + ((hdr pre.length rs k).length : Int)
        = ((pre.length + pend rs k : Nat) : Int) := by
      rw [hdr_end]; push_cast; rfl
    have c1' : ((n + 4 * k + pre.length : Nat) : Int) < ((pre.length + pend rs k : Nat) : Int) := by
      omega
    have htl : read_head.tell { it := k, remaining := (plen rs k : Int) }
        (cindex pre.length rs k)
        = .ok ((pre.length : Int) + pend rs k - plen rs k) := tell_cindex _ rs k k _ (le_refl _)
    have hmv2 : read_head.move { it := k, remaining := (plen rs k : Int) }
        (((n + 4 * k + pre.length : Nat) : Int) - ((pre.length : Int) + pend rs k - plen rs k))
        = .error .assertion := by
      unfold read_head.move
      have : ¬ (((n + 4 * k + pre.length : Nat) : Int) - ((pre.length : Int) + pend rs k - plen rs k) ≥ 0) := by
        omega
      simp only [this, not_false_eq_true, if_true]
    simp only [sync, conc, cindex_last, hder, hro, hend, c1', if_true, cfile_seek_nat, htl,
      hmv2, Option.some.injEq] at h
    rw [← h]

/-! ### The invariant of the reachable states -/

theorem attach_eq (pre : List Nat) (rs : List (List Nat)) :
    attach pre rs = sync pre rs 0 0 0 false := by
  simp [attach, rp66.create, baseaddr, cfile.io, record_index.create, record_index.append,
    address_map.base, header.size, read_head.ghost, record_index.last, sync, conc, cindex,
    hdr, pend, List.range'_succ]

theorem attach_Inv (pre : List Nat) (rs : List (List Nat)) : Inv pre rs 0 (attach pre rs) := by
  rw [attach_eq]
  exact Inv_sync pre rs 0 0 0 false 0 (le_refl _) (Nat.zero_le _) (Nat.zero_le _) rfl
    (by intro h; cases h)

theorem tell_Inv (pre : List Nat) (rs : List (List Nat)) (t : Nat) (st : rp66 cfile)
    (hinv : Inv pre rs t st) : rp66.tell st = .ok (t : Int) := by
  obtain ⟨k, it, r, e, rfl, h1, h2, h3, h4, h5⟩ := hinv
  unfold rp66.tell
  have htl : (sync pre rs k it r e).current.tell (sync pre rs k it r e).index
      = .ok ((pre.length : Int) + pend rs it - r) := tell_cindex _ rs k it r h1
  rw [htl]
  have hpl := pend_eq_lend rs it
  simp only [sync, conc, address_map.logical, record_index.index_of, record_index.begin,
    header.size]
  congr 1
  push_cast
  omega

/-- One public `readinto` from a state over well-formed records. -/
theorem readinto_Inv (pre : List Nat) (rs : List (List Nat)) (hwf : wellformed rs)
    (t : Nat) (st : rp66 cfile) (hinv : Inv pre rs t st) (len : Nat)
    (fuel : Nat) (hf : 2 * rs.length + 2 ≤ fuel) :
    ∃ st1, rp66.readinto cfile.io fuel st (len : Int)
        = some (.ok (((payload rs).drop t).take len,
            if t + len ≤ (payload rs).length then .LFP_OK else .LFP_EOF), st1) ∧
      Inv pre rs (min (t + len) (payload rs).length) st1 := by
  obtain ⟨k, it, r, e, rfl, h1, h2, h3, h4, h5⟩ := hinv
  have hitL : lend rs it ≤ (payload rs).length := lend_le_total rs (le_trans h1 h2)
  obtain ⟨st1, hs1, hs2, hs3⟩ := readinto_loop_sync pre rs hwf fuel k it r e t (len : Int) []
    h1 h2 h3 h4 h5 (Int.natCast_nonneg _) (by split <;> omega)
  simp only [Int.toNat_ofNat, List.nil_append] at hs1 hs2 hs3
  refine ⟨st1, ?_, hs2⟩
  unfold rp66.readinto rp66.readinto_n
  have hbl : (sync pre rs k it r e).current.bytes_left = .ok (r : Int) :=
    bytes_left_nonneg _ (by show (0 : Int) ≤ (r : Int); omega)
  simp only [hbl, hs1]
  have hlen : (((payload rs).drop t).take len).length = min len ((payload rs).length - t) := by
    rw [List.length_take, List.length_drop]
  rw [hlen]
  by_cases hc : t + len ≤ (payload rs).length
  · have e1 : min len ((payload rs).length - t) = len := by omega
    simp [e1, hc]
  · have e1 : min len ((payload rs).length - t) = (payload rs).length - t := by omega
    have e2 : ¬ (((payload rs).length - t : Nat) : Int) = (len : Int) := by omega
    have e3 : ((((payload rs).length - t : Nat) : Int) ≤ (len : Int)) := by omega
    have e4 : rp66.eof cfile.io st1 = true := hs3 (by omega)
    simp [e1, hc, e2, e3, e4]

theorem reachable_Inv (pre : List Nat) (rs : List (List Nat)) (hwf : wellformed rs)
    (st : rp66 cfile) (h : Reachable pre rs st) : ∃ t, Inv pre rs t st := by
  induction h with
  | attach => exact ⟨0, attach_Inv pre rs⟩
  | @seek st0 st1 fuel n _ hn hseek ih =>
    obtain ⟨t, hinv⟩ := ih
    obtain ⟨m, rfl⟩ := Int.eq_ofNat_of_zero_le hn
    by_cases hs : seekable rs st0 m
    · obtain ⟨st2, h1, h2, _, _⟩ :=
        seek_Inv pre rs hwf t st0 hinv m hs (max fuel (rs.length + 1)) (le_max_right _ _)
      have h3 := seek_mono_le cfile.io (le_max_left fuel (rs.length + 1)) _ _ _ hseek
      rw [h1] at h3
      simp only [Option.some.injEq, Prod.mk.injEq, true_and] at h3
      subst h3
      exact ⟨_, h2⟩
    · have := seek_slip pre rs t st0 hinv m hs fuel _ hseek
      simp at this
  | @readinto st0 st1 fuel len out _ hlen hread ih =>
    obtain ⟨t, hinv⟩ := ih
    obtain ⟨m, rfl⟩ := Int.eq_ofNat_of_zero_le hlen
    obtain ⟨st2, h1, h2⟩ :=
      readinto_Inv pre rs hwf t st0 hinv m (max fuel (2 * rs.length + 2)) (le_max_right _ _)
    have h3 := readinto_mono_le cfile.io (le_max_left fuel (2 * rs.length + 2)) _ _ _ hread
    rw [h1] at h3
    simp only [Option.some.injEq, Prod.mk.injEq] at h3
    obtain ⟨_, h4⟩ := h3
    subst h4
    exact ⟨_, h2⟩

/-! ### Reading the whole stream -/

theorem read_all_Inv (pre : List Nat) (rs : List (List Nat)) (hwf : wellformed rs)
    (c : Nat) (hc : 0 < c) (fuel : Nat) (hf : 2 * rs.length + 2 ≤ fuel) (calls : Nat) :
    ∀ (t : Nat) (st : rp66 cfile), Inv pre rs t st → t ≤ (payload rs).length →
    (payload rs).length - t < calls →
    read_all cfile.io fuel (c : Int) calls st = some (.ok ((payload rs).drop t)) := by
  induction calls with
  | zero => intro t st _ _ h; omega
  | succ m ih =>
    intro t st hinv ht hcalls
    obtain ⟨st1, h1, h2⟩ := readinto_Inv pre rs hwf t st hinv c fuel hf
    unfold read_all
    rw [h1]
    by_cases hle : t + c ≤ (payload rs).length
    · simp only [hle, if_true, reduceCtorEq, if_false]
      rw [Nat.min_eq_left hle] at h2
      rw [ih (t + c) st1 h2 hle (by omega)]
      simp only
      congr 2
      rw [← List.drop_drop]
      exact List.take_append_drop c _
    · simp only [hle, if_false, if_true]
      congr 2
      apply List.take_of_length_le
      rw [List.length_drop]; omega

/-! ### Helpers for the claims -/

theorem cfile_readinto_le (s : cfile) (l : Int) (hl : 0 ≤ l) :
    (((cfile.io.readinto s l).1.length : Nat) : Int) ≤ l := by
  show ((cfile.readinto s l).1.length : Int) ≤ l
  have h : (((s.data.drop s.pos).take l.toNat).length : Int) ≤ l := by
    rw [List.length_take]
    omega
  have h1 : (cfile.readinto s l).1 = (s.data.drop s.pos).take l.toNat := by
    unfold cfile.readinto
    by_cases hc : (((s.data.drop s.pos).take l.toNat).length : Int) = l
    · simp only [hc, if_true]
    · simp only [hc, if_false]
  rw [h1]; exact h

theorem seekable_total (pre : List Nat) (rs : List (List Nat)) (t : Nat) (st : rp66 cfile)
    (hinv : Inv pre rs t st) (n : Nat) (hn : (payload rs).length ≤ n) : seekable rs st n := by
  obtain ⟨k, it, r, e, rfl, h1, h2, h3, h4, h5⟩ := hinv
  right
  have hsz : (sync pre rs k it r e).index.size = k := cindex_size _ _ _
  rw [hsz]
  exact le_trans (lend_le_total rs (le_trans (Nat.sub_le _ _) h2)) hn

theorem record_of_eq (rs : List (List Nat)) : ∀ (it r n : Nat), 0 < r → r ≤ plen rs it →
    n + r = lend rs it → record_of rs n + 1 = it := by
  induction rs with
  | nil =>
    intro it r n hr hp _
    cases it with
    | zero => simp [plen] at hp; omega
    | succ j => simp [plen] at hp; omega
  | cons p rs ih =>
    intro it r n hr hp hl
    cases it with
    | zero => simp [plen] at hp; omega
    | succ j =>
      rw [lend_cons] at hl
      cases j with
      | zero =>
        simp only [plen, List.getD_cons_zero] at hp
        simp only [lend, Nat.add_zero] at hl
        have : n < p.length := by omega
        simp [record_of, this]
      | succ j =>
        have hp2 : plen (p :: rs) (j + 1 + 1) = plen rs (j + 1) := by simp [plen]
        rw [hp2] at hp
        have hle : plen rs (j + 1) ≤ lend rs (j + 1) := by simp only [lend]; omega
        have : ¬ n < p.length := by omega
        simp only [record_of, this, if_false]
        have := ih (j + 1) r (n - p.length) hr hp (by omega)
        omega

theorem take_one_drop (l : List Nat) (n : Nat) (hn : n < l.length) :
    (l.drop n).take 1 = [l.get ⟨n, hn⟩] := by
  rw [List.drop_eq_getElem_cons hn]
  rfl

/-! ### What one call of `read_header_from_disk` does to the state -/

/-- A header with a good tag, read in full, is appended with the offset the
source computes for it. -/
theorem rhfd_good {σ : Type} (io : lfp_protocol σ) (self : rp66 σ) (b : List Nat) (fp1 : σ)
    (last : header)
    (hcur : self.current.it = self.index.last) (hex : self.current.remaining = 0)
    (hrd : io.readinto self.fp header.size = (b, .LFP_OK, fp1))
    (h2 : header_byte b 2 = 0xFF) (h3 : header_byte b 3 = 1)
    (hlast : self.index.deref self.index.last = some last) :
    rp66.read_header_from_disk io self =
      (.ok (), { self with
        fp := fp1
        index := self.index.append
          { length := (256 * header_byte b 0 + header_byte b 1) % 65536
            format := header_byte b 2
            major := header_byte b 3
            offset := if ¬ self.index.empty then last.offset + last.length
                      else self.addr.base } }) := by
  unfold rp66.read_header_from_disk
  simp only [hcur, ne_eq, not_true_eq_false, if_false, exhausted_zero _ hex, hrd, h2, h3,
    or_self, hlast]

/-- Every outcome of `read_header_from_disk`: the state changes at most in its
stream, or (cursor exhausted at the last entry) one header is appended whose
offset is the end of the last entry, or the base when no real record is
indexed. -/
theorem rhfd_cases {σ : Type} (io : lfp_protocol σ) (self : rp66 σ) :
    (∃ res fp1, rp66.read_header_from_disk io self = (res, { self with fp := fp1 })) ∨
    (∃ fp1 last head, self.index.deref self.index.last = some last ∧
      self.current.it = self.index.last ∧ self.current.remaining = 0 ∧
      head.offset = (if ¬ self.index.empty then last.offset + last.length
                     else self.addr.base) ∧
      rp66.read_header_from_disk io self =
        (.ok (), { self with fp := fp1, index := self.index.append head })) := by
  unfold rp66.read_header_from_disk
  by_cases hcur : self.current.it = self.index.last
  · have hn : ¬ (self.current.it ≠ self.index.last) := not_not.mpr hcur
    rw [if_neg hn]
    cases hexh : self.current.exhausted with
    | error e => left; exact ⟨_, self.fp, rfl⟩
    | ok ex =>
      cases ex with
      | false => left; exact ⟨_, self.fp, rfl⟩
      | true =>
        have hex : self.current.remaining = 0 := by
          unfold read_head.exhausted at hexh
          split at hexh
          · simp only [Except.ok.injEq, beq_iff_eq] at hexh; exact hexh
          · simp at hexh
        rcases hrd : io.readinto self.fp header.size with ⟨b, err, fp1⟩
        cases err with
        | LFP_OK =>
          by_cases hg : header_byte b 2 ≠ 0xFF ∨ header_byte b 3 ≠ 1
          · left; simp only [if_pos hg]; exact ⟨_, fp1, rfl⟩
          · simp only [if_neg hg]
            cases hl : record_index.deref self.index self.index.last with
            | none => left; exact ⟨_, fp1, rfl⟩
            | some last =>
              right
              exact ⟨fp1, last, _, rfl, hcur, hex, rfl, rfl⟩
        | LFP_EOF =>
          left; simp only
          split
          · exact ⟨_, fp1, rfl⟩
          · exact ⟨_, fp1, rfl⟩
        | _ => left; exact ⟨_, fp1, rfl⟩
  · rw [if_pos hcur]
    left; exact ⟨_, self.fp, rfl⟩

/-! ### Properties kept by every call, over any stream -/

set_option maxHeartbeats 1000000 in
/-- A property of the state that survives a change of the stream, a cursor
move and `read_header_from_disk` survives the read loop, however it ends. -/
theorem readinto_loop_keeps {σ : Type} (io : lfp_protocol σ) (P : rp66 σ → Prop)
    (hfp : ∀ s fp1, P s → P { s with fp := fp1 })
    (hcur : ∀ s c1, P s → cursor_step s.index s.current c1 → P { s with current := c1 })
    (hrh : ∀ s, P s → P (rp66.read_header_from_disk io s).2)
    (fuel : Nat) : ∀ (self : rp66 σ) (len : Int) (dst : List Nat)
    (res : Except error (List Nat) × rp66 σ), P self →
    rp66.readinto_loop io fuel self len dst = some res → P res.2 := by
  induction fuel with
  | zero => intro self len dst res _ h; simp [rp66.readinto_loop] at h
  | succ f ih =>
    intro self len dst res hP h
    unfold rp66.readinto_loop at h
    split at h
    · cases h; exact hP
    · split at h
      · cases h; exact hP
      · split at h
        · have hP1 := hrh self hP
          split at h
          · rename_i heq
            rw [heq] at hP1
            cases h; exact hP1
          · rename_i heq
            rw [heq] at hP1
            split at h
            · cases h; exact hP1
            · split at h
              · cases h; exact hP1
              · rename_i hmv
                exact ih _ _ _ _ (hcur _ _ hP1 (Or.inr (Or.inl ⟨_, hmv⟩))) h
        · split at h
          · cases h; exact hP
          · split at h
            · cases h; exact hP
            · split at h
              · cases h; exact hP
              · rename_i fp1 _
                split at h
                · cases h; exact hfp _ _ hP
                · rename_i hmv
                  exact ih _ _ _ _
                    (hcur { self with fp := fp1 } _ (hfp _ fp1 hP) (Or.inr (Or.inl ⟨_, hmv⟩))) h
      · split at h
        · cases h; exact hP
        · rename_i left hbl
          rcases hrd : io.readinto self.fp (min len left) with ⟨b, err, fp1⟩
          simp only [hrd] at h
          have hP1 : P { self with fp := fp1 } := hfp _ _ hP
          split at h
          · cases h; exact hP1
          · rename_i hmv
            have hP2 := hcur { self with fp := fp1 } _ hP1 (Or.inl ⟨_, hmv⟩)
            split at h
            · cases h; exact hP2
            · split at h
              · cases h; exact hP2
              · split at h
                · cases h; exact hP2
                · split at h
                  · cases h; exact hP2
                  · split at h
                    · cases h; exact hP2
                    · split at h
                      · cases h; exact hP2
                      · exact ih _ _ _ _ hP2 h

theorem readinto_keeps {σ : Type} (io : lfp_protocol σ) (P : rp66 σ → Prop)
    (hfp : ∀ s fp1, P s → P { s with fp := fp1 })
    (hcur : ∀ s c1, P s → cursor_step s.index s.current c1 → P { s with current := c1 })
    (hrh : ∀ s, P s → P (rp66.read_header_from_disk io s).2)
    (fuel : Nat) (self : rp66 σ) (len : Int)
    (res : Except error (List Nat × lfp_status) × rp66 σ) (hP : P self)
    (h : rp66.readinto io fuel self len = some res) : P res.2 := by
  unfold rp66.readinto at h
  cases hr : rp66.readinto_n io fuel self len with
  | none => rw [hr] at h; simp at h
  | some r =>
    obtain ⟨x, s1⟩ := r
    have hP1 : P s1 := by
      unfold rp66.readinto_n at hr
      split at hr
      · cases hr; exact hP
      · exact readinto_loop_keeps io P hfp hcur hrh fuel _ _ _ _ hP hr
    rw [hr] at h
    cases x with
    | error e => cases h; exact hP1
    | ok dst =>
      simp only at h
      split at h
      · cases h; exact hP1
      · split at h
        · cases h; exact hP1
        · split at h
          · cases h; exact hP1
          · cases h; exact hP1

set_option maxHeartbeats 1000000 in
theorem seek_loop_keeps {σ : Type} (io : lfp_protocol σ) (P : rp66 σ → Prop)
    (hfp : ∀ s fp1, P s → P { s with fp := fp1 })
    (hcur : ∀ s c1, P s → cursor_step s.index s.current c1 → P { s with current := c1 })
    (hrh : ∀ s, P s → P (rp66.read_header_from_disk io s).2)
    (fuel : Nat) : ∀ (self : rp66 σ) (n : Int) (res : Except error Unit × rp66 σ), P self →
    rp66.seek_loop io fuel self n = some res → P res.2 := by
  induction fuel with
  | zero => intro self n res _ h; simp [rp66.seek_loop] at h
  | succ f ih =>
    intro self n res hP h
    unfold rp66.seek_loop at h
    split at h
    · cases h; exact hP
    · simp only at h
      split at h
      · split at h
        · cases h; exact hP
        · rename_i fp1 _
          have hP1 : P { self with fp := fp1 } := hfp _ _ hP
          split at h
          · cases h; exact hP1
          · split at h
            · cases h; exact hP1
            · rename_i hmv
              cases h
              exact hcur { self with fp := fp1 } _ hP1 (Or.inl ⟨_, hmv⟩)
      · split at h
        · split at h
          · cases h; exact hP
          · rename_i fp1 _
            have hP1 : P { self with fp := fp1 } := hfp _ _ hP
            split at h
            · cases h; exact hP1
            · rename_i hsk
              cases h
              exact hcur { self with fp := fp1 } _ hP1 (Or.inr (Or.inr hsk))
        · split at h
          · cases h; exact hP
          · rename_i c hsk
            have hP1 : P { self with current := c } := hcur _ _ hP (Or.inr (Or.inr hsk))
            split at h
            · cases h; exact hP1
            · rename_i fp1 _
              have hP2 := hrh _ (hfp { self with current := c } fp1 hP1)
              split at h
              · rename_i heq
                rw [heq] at hP2
                cases h; exact hP2
              · rename_i heq
                rw [heq] at hP2
                split at h
                · cases h; exact hP2
                · split at h
                  · cases h; exact hP2
                  · rename_i hmv
                    exact ih _ _ _ (hcur _ _ hP2 (Or.inr (Or.inl ⟨_, hmv⟩))) h

theorem seek_keeps {σ : Type} (io : lfp_protocol σ) (P : rp66 σ → Prop)
    (hfp : ∀ s fp1, P s → P { s with fp := fp1 })
    (hcur : ∀ s c1, P s → cursor_step s.index s.current c1 → P { s with current := c1 })
    (hrh : ∀ s, P s → P (rp66.read_header_from_disk io s).2)
    (fuel : Nat) (self : rp66 σ) (n : Int) (res : Except error Unit × rp66 σ) (hP : P self)
    (h : rp66.seek io fuel self n = some res) : P res.2 := by
  unfold rp66.seek at h
  split at h
  · cases h; exact hP
  · split at h
    · cases h; exact hP
    · simp only at h
      split at h
      · cases h; exact hP
      · rename_i fp1 _
        have hP1 : P { self with fp := fp1 } := hfp _ _ hP
        split at h
        · cases h; exact hP1
        · rename_i c hmv
          have hP2 := hcur { self with fp := fp1 } _ hP1 (Or.inr (Or.inl ⟨_, hmv⟩))
          split at h
          · cases h; exact hP2
          · split at h
            · cases h; exact hP2
            · rename_i hmv2
              cases h
              exact hcur _ _ hP2 (Or.inl ⟨_, hmv2⟩)
  · split at h
    · cases h; exact hP
    · rename_i hmv
      exact seek_loop_keeps io P hfp hcur hrh fuel _ _ _
        (hcur _ _ hP (Or.inr (Or.inl ⟨_, hmv⟩))) h

theorem adjacent_append (R : header → header → Prop) (l : List header) (x : header)
    (hl : adjacent R l) (hx : ∀ a, l[l.length - 1]? = some a → R a x) :
    adjacent R (l ++ [x]) := by
  intro i a b ha hb
  by_cases h1 : i + 1 < l.length
  · rw [List.getElem?_append_left (by omega)] at ha
    rw [List.getElem?_append_left h1] at hb
    exact hl i a b ha hb
  · by_cases h2 : i + 1 = l.length
    · rw [List.getElem?_append_left (by omega)] at ha
      rw [List.getElem?_append_right (by omega)] at hb
      have : i + 1 - l.length = 0 := by omega
      rw [this] at hb
      simp only [List.getElem?_cons_zero, Option.some.injEq] at hb
      subst hb
      apply hx
      have : l.length - 1 = i := by omega
      rw [this]; exact ha
    · rw [List.getElem?_append_right (by omega)] at hb
      have : i + 1 - l.length = (i - l.length) + 1 := by omega
      rw [this] at hb
      simp at hb

theorem index_ok_cursor (z : Int) (idx : record_index) (addr : address_map) (c c1 : read_head)
    (h : index_ok z idx addr c) (hs : cursor_step idx c c1) : index_ok z idx addr c1 := by
  obtain ⟨h1, h2, h3, h4, hd, h5, h6⟩ := h
  refine ⟨h1, h2, h3, h4, ?_⟩
  rcases hs with ⟨n, hm⟩ | ⟨j, hm⟩ | hm
  · unfold read_head.move at hm
    split at hm
    · simp at hm
    · split at hm
      · simp at hm
      · split at hm
        · simp at hm
        · simp only [Except.ok.injEq] at hm
          subst hm
          exact ⟨hd, h5, by show c.remaining - n ≤ _; omega⟩
  · unfold read_head.move_to at hm
    split at hm
    · simp at hm
    · split at hm
      · simp at hm
      · rename_i hd1 hder
        simp only [Except.ok.injEq] at hm
        subst hm
        exact ⟨hd1, hder, le_refl _⟩
  · unfold read_head.skip at hm
    split at hm
    · simp at hm
    · rename_i hge
      simp only [Except.ok.injEq] at hm
      subst hm
      exact ⟨hd, h5, by show (0 : Int) ≤ _; omega⟩

theorem index_ok_rhfd {σ : Type} (io : lfp_protocol σ) (z : Int) (s : rp66 σ)
    (h : index_ok z s.index s.addr s.current) :
    index_ok z (rp66.read_header_from_disk io s).2.index
      (rp66.read_header_from_disk io s).2.addr (rp66.read_header_from_disk io s).2.current := by
  rcases rhfd_cases io s with ⟨res, fp1, he⟩ | ⟨fp1, last, head, hlast, hcur, hex, hoff, he⟩
  · rw [he]; exact h
  · rw [he]
    obtain ⟨h1, ⟨g, hg1, hg2⟩, h3, h4, hd, h5, h6⟩ := h
    have hdl : hd = last := by
      rw [hcur, hlast] at h5
      exact (Option.some.inj h5).symm
    subst hdl
    have hlen : (4 : Int) ≤ (hd.length : Int) := by
      rw [hex] at h6
      simp only [header.size] at h6
      omega
    have hlast2 : s.index.base[s.index.base.length - 1]? = some hd := by
      simpa [record_index.deref, record_index.last] using hlast
    have hend : hd.offset + (hd.length : Int) = head.offset := by
      rw [hoff]
      by_cases hem : s.index.empty = true
      · have hn : ¬ ¬ s.index.empty = true := not_not.mpr hem
        rw [if_neg hn]
        simp only [record_index.empty, record_index.size, beq_iff_eq] at hem
        rw [hem, hg1] at hlast2
        have : g = hd := Option.some.inj hlast2
        subst this
        rw [hg2]
        simp only [address_map.base, h1]
      · rw [if_pos hem]
    have hpos : 0 < s.index.base.length := by
      by_contra hc
      have : s.index.base = [] := List.length_eq_zero.mp (by omega)
      rw [this] at hg1
      simp at hg1
    refine ⟨h1, ⟨g, ?_, hg2⟩, ?_, ?_, hd, ?_, h6⟩
    · show (s.index.base ++ [head])[0]? = some g
      rw [List.getElem?_append_left hpos]; exact hg1
    · show adjacent _ (s.index.base ++ [head])
      apply adjacent_append _ _ _ h3
      intro a ha
      rw [hlast2] at ha
      have : hd = a := Option.some.inj ha
      subst this
      exact hend
    · show adjacent _ (s.index.base ++ [head])
      apply adjacent_append _ _ _ h4
      intro a ha
      rw [hlast2] at ha
      have : hd = a := Option.some.inj ha
      subst this
      omega
    · show record_index.deref (s.index.append head) s.current.it = some hd
      have h7 : s.index.base[s.current.it]? = some hd := by
        simpa [record_index.deref] using h5
      have hlt : s.current.it < s.index.base.length := by
        by_contra hc
        rw [List.getElem?_eq_none (by omega)] at h7
        simp at h7
      simp only [record_index.deref, record_index.append, List.get?_eq_getElem?]
      rw [List.getElem?_append_left hlt]; exact h7

theorem index_ok_create {σ : Type} (io : lfp_protocol σ) (f : σ) :
    index_ok (baseaddr io f) (rp66.create io f).index (rp66.create io f).addr
      (rp66.create io f).current := by
  refine ⟨rfl, ⟨_, rfl, ?_⟩, ?_, ?_, ⟨_, rfl, ?_⟩⟩
  · show baseaddr io f - header.size + ((header.size.toNat : Nat) : Int) = baseaddr io f
    simp only [header.size]
    omega
  · intro i a b ha hb
    have : (rp66.create io f).index.base.length = 1 := rfl
    rw [List.getElem?_eq_none (by omega)] at hb
    cases hb
  · intro i a b ha hb
    have : (rp66.create io f).index.base.length = 1 := rfl
    rw [List.getElem?_eq_none (by omega)] at hb
    cases hb
  · show (0 : Int) ≤ ((header.size.toNat : Nat) : Int) - header.size
    simp only [header.size]
    omega

/-- In every state reached over any stream, the index and cursor are as
`index_ok` says. -/
theorem reached_ok {σ : Type} (io : lfp_protocol σ) (f : σ) (st : rp66 σ)
    (h : Reached io f st) : index_ok (baseaddr io f) st.index st.addr st.current := by
  induction h with
  | create => exact index_ok_create io f
  | @seek st0 st1 fuel n res _ hseek ih =>
    exact seek_keeps io (fun s => index_ok (baseaddr io f) s.index s.addr s.current)
      (fun _ _ hp => hp) (fun _ _ hp hs => index_ok_cursor _ _ _ _ _ hp hs)
      (fun s hp => index_ok_rhfd io _ s hp) fuel st0 n (res, st1) ih hseek
  | @readinto st0 st1 fuel len res _ hread ih =>
    exact readinto_keeps io (fun s => index_ok (baseaddr io f) s.index s.addr s.current)
      (fun _ _ hp => hp) (fun _ _ hp hs => index_ok_cursor _ _ _ _ _ hp hs)
      (fun s hp => index_ok_rhfd io _ s hp) fuel st0 len (res, st1) ih hread

/-- The state a seek leaves when it trips the assertion of `read_head::move`:
the stream moved to the target's would-be offset, the cursor at the start of the
last indexed record. -/
theorem seek_slip_state (pre : List Nat) (rs : List (List Nat)) (k it r pos : Nat) (e : Bool)
    (n : Nat) (hs1 : lend rs k ≤ n + 4) (hs2 : n < lend rs (k - 1)) (fuel : Nat) :
    rp66.seek cfile.io (fuel + 1) (conc pre rs k it r pos e) (n : Int)
      = some (.error .assertion,
          conc pre rs k k (plen rs k) (n + 4 * k + pre.length) false) := by
  have hpr := lend_pred rs k
  have hpl := pend_eq_lend rs k
  unfold rp66.seek
  have hc : (conc pre rs k it r pos e).index.contains (n : Int)
      = .ok (decide ((n : Int) < (lend rs k : Int) - 4)) := contains_cindex _ _ _ _
  rw [hc]
  have : ¬ ((n : Int) < (lend rs k : Int) - 4) := by omega
  simp only [this, decide_False]
  have hl : (conc pre rs k it r pos e).index.last = k := cindex_last _ _ _
  have hmv : (conc pre rs k it r pos e).current.move_to (conc pre rs k it r pos e).index k
      = .ok { it := k, remaining := (plen rs k : Int) } :=
    move_to_cindex _ rs k k _ (by show (0 : Int) ≤ (r : Int); omega) (le_refl _)
  simp only [hl, hmv]
  unfold rp66.seek_loop
  have hder : (cindex pre.length rs k).deref k = some (hdr pre.length rs k) :=
    cindex_deref _ _ _ _ (le_refl _)
  have hro : (address_map.mk (pre.length : Int)).physical (n : Int)
      ((cindex pre.length rs k).index_of k) = ((n + 4 * k + pre.length : Nat) : Int) := by
    simp only [address_map.physical, record_index.index_of, record_index.begin, header.size]
    push_cast; omega
  have hend : (hdr pre.length rs k).offset + ((hdr pre.length rs k).length : Int)
      = ((pre.length + pend rs k : Nat) : Int) := by
    rw [hdr_end]; push_cast; rfl
  have c1' : ((n + 4 * k + pre.length : Nat) : Int) < ((pre.length + pend rs k : Nat) : Int) := by
    omega
  have htl : read_head.tell { it := k, remaining := (plen rs k : Int) }
      (cindex pre.length rs k)
      = .ok ((pre.length : Int) + pend rs k - plen rs k) := tell_cindex _ rs k k _ (le_refl _)
  have hmv2 : read_head.move { it := k, remaining := (plen rs k : Int) }
      (((n + 4 * k + pre.length : Nat) : Int) - ((pre.length : Int) + pend rs k - plen rs k))
      = .error .assertion := by
    unfold read_head.move
    have : ¬ (((n + 4 * k + pre.length : Nat) : Int) - ((pre.length : Int) + pend rs k - plen rs k) ≥ 0) := by
      omega
    simp only [this, not_false_eq_true, if_true]
  simp only [conc, cindex_last, hder, hro, hend, c1', if_true, cfile_seek_nat, htl, hmv2]

/-- A public `readinto` that returns normally wrote no more than was asked. -/
theorem readinto_ok_le {σ : Type} (io : lfp_protocol σ) (fuel : Nat) (self : rp66 σ)
    (len : Int) (out : List Nat) (status : lfp_status) (st1 : rp66 σ)
    (h : rp66.readinto io fuel self len = some (.ok (out, status), st1)) :
    (out.length : Int) ≤ len := by
  unfold rp66.readinto at h
  cases hr : rp66.readinto_n io fuel self len with
  | none => rw [hr] at h; simp at h
  | some r =>
    obtain ⟨x, s1⟩ := r
    rw [hr] at h
    cases x with
    | error e => simp at h
    | ok dst =>
      simp only at h
      by_cases hle : (dst.length : Int) ≤ len
      · have hn : ¬ ¬ ((dst.length : Int) ≤ len) := not_not.mpr hle
        rw [if_neg hn] at h
        split at h
        · simp only [Option.some.injEq, Prod.mk.injEq, Except.ok.injEq] at h
          obtain ⟨⟨rfl, _⟩, _⟩ := h; exact hle
        · split at h
          · simp only [Option.some.injEq, Prod.mk.injEq, Except.ok.injEq] at h
            obtain ⟨⟨rfl, _⟩, _⟩ := h; exact hle
          · simp only [Option.some.injEq, Prod.mk.injEq, Except.ok.injEq] at h
            obtain ⟨⟨rfl, _⟩, _⟩ := h; exact hle
      · rw [if_pos hle] at h
        simp at h

/-- A `readinto` that returns normally from a state over well-formed records
advances the logical position by the number of bytes it returns. -/
theorem readinto_tell_Inv (pre : List Nat) (rs : List (List Nat)) (hwf : wellformed rs)
    (t : Nat) (st : rp66 cfile) (hinv : Inv pre rs t st) (len : Int) (fuel : Nat)
    (out : List Nat) (status : lfp_status) (st1 : rp66 cfile)
    (h : rp66.readinto cfile.io fuel st len = some (.ok (out, status), st1)) :
    rp66.tell st = .ok (t : Int) ∧ rp66.tell st1 = .ok ((t : Int) + out.length) := by
  have hle := readinto_ok_le cfile.io fuel st len out status st1 h
  obtain ⟨m, rfl⟩ := Int.eq_ofNat_of_zero_le (by omega : 0 ≤ len)
  obtain ⟨st2, h1, h2⟩ :=
    readinto_Inv pre rs hwf t st hinv m (max fuel (2 * rs.length + 2)) (le_max_right _ _)
  have h3 := readinto_mono_le cfile.io (le_max_left fuel (2 * rs.length + 2)) _ _ _ h
  rw [h1] at h3
  simp only [Option.some.injEq, Prod.mk.injEq, Except.ok.injEq] at h3
  obtain ⟨⟨rfl, _⟩, rfl⟩ := h3
  refine ⟨tell_Inv pre rs t st hinv, ?_⟩
  rw [tell_Inv pre rs _ _ h2]
  congr 1
  have htL : t ≤ (payload rs).length := by
    obtain ⟨k, it, r, e, _, q1, q2, _, q4, _⟩ := hinv
    have := lend_le_total rs (le_trans q1 q2)
    omega
  rw [List.length_take, List.length_drop]
  omega

/-- The cursor of a state over well-formed records stays inside the payload of
the entry it points at. -/
theorem cursor_Inv (pre : List Nat) (rs : List (List Nat)) (t : Nat) (st : rp66 cfile)
    (hinv : Inv pre rs t st) :
    ∃ hd, st.index.deref st.current.it = some hd ∧ 0 ≤ st.current.remaining ∧
      st.current.remaining ≤ (hd.length : Int) - header.size := by
  obtain ⟨k, it, r, e, rfl, h1, h2, h3, h4, h5⟩ := hinv
  refine ⟨hdr pre.length rs it, cindex_deref _ rs k it h1, ?_, ?_⟩
  · show (0 : Int) ≤ (r : Int); omega
  · show (r : Int) ≤ ((hdr pre.length rs it).length : Int) - header.size
    rw [hdr_length]; simp only [header.size]; push_cast; omega

/-! ### `find` over any index -/

/-- The scan of `find` over the entries `l` that start at iterator `cur`: if some
entry's logical end exceeds `n`, the scan stops at the first such entry. -/
theorem find_loop_first (idx : record_index) (n : Int) :
    ∀ (l : List header) (cur : Nat),
    (∃ i h, l[i]? = some h ∧
      n < idx.addr.logical (h.offset + h.length) (idx.index_of (cur + i))) →
    ∃ j h, l[j]? = some h ∧ idx.find_loop n l cur = .ok (cur + j) ∧
      n < idx.addr.logical (h.offset + h.length) (idx.index_of (cur + j)) ∧
      ∀ i h1, i < j → l[i]? = some h1 →
        ¬ n < idx.addr.logical (h1.offset + h1.length) (idx.index_of (cur + i)) := by
  intro l
  induction l with
  | nil => intro cur ⟨i, h, hi, _⟩; simp at hi
  | cons a l ih =>
    intro cur hex
    by_cases ha : n < idx.addr.logical (a.offset + a.length) (idx.index_of cur)
    · refine ⟨0, a, List.getElem?_cons_zero, ?_, ha, ?_⟩
      · simp only [record_index.find_loop, ha, if_true, Nat.add_zero]
      · intro i h1 hi; omega
    · obtain ⟨i, h, hi, hn⟩ := hex
      cases i with
      | zero =>
        simp only [List.getElem?_cons_zero, Option.some.injEq] at hi
        subst hi
        exact absurd hn ha
      | succ i =>
        simp only [List.getElem?_cons_succ] at hi
        have hn2 : n < idx.addr.logical (h.offset + h.length) (idx.index_of (cur + 1 + i)) := by
          rw [show cur + 1 + i = cur + (i + 1) by omega]; exact hn
        obtain ⟨j, hj, hj1, hj2, hj3, hj4⟩ := ih (cur + 1) ⟨i, h, hi, hn2⟩
        refine ⟨j + 1, hj, ?_, ?_, ?_, ?_⟩
        · simp only [List.getElem?_cons_succ]; exact hj1
        · simp only [record_index.find_loop, ha, if_false]
          rw [hj2]; congr 1; omega
        · rw [show cur + (j + 1) = cur + 1 + j by omega]; exact hj3
        · intro i1 h1 hi1 hg
          cases i1 with
          | zero =>
            simp only [List.getElem?_cons_zero, Option.some.injEq] at hg
            subst hg
            exact ha
          | succ i1 =>
            simp only [List.getElem?_cons_succ] at hg
            rw [show cur + (i1 + 1) = cur + 1 + i1 by omega]
            exact hj4 i1 h1 (by omega) hg

/-- The result of `find` over an index that starts with the ghost and is
contiguous, for a target `n ≥ 0` that `contains` accepts: `find` returns a real
record at or before the last entry, whose logical range holds `n`, and no real
record before it has a logical end above `n`. -/
theorem find_general (idx : record_index) (n : Int) (g : header)
    (hg0 : idx.base[0]? = some g) (hg : g.offset + (g.length : Int) = idx.addr.zero)
    (hc : adjacent (fun a b => a.offset + (a.length : Int) = b.offset) idx.base)
    (hn : 0 ≤ n) (hcont : idx.contains n = .ok true) :
    ∃ cur h, idx.find n = .ok cur ∧ idx.begin ≤ cur ∧ cur ≤ idx.last ∧
      idx.deref cur = some h ∧
      idx.addr.logical (h.offset + header.size) (idx.index_of cur) ≤ n ∧
      n < idx.addr.logical (h.offset + h.length) (idx.index_of cur) ∧
      ∀ c h1, idx.begin ≤ c → c < cur → idx.deref c = some h1 →
        ¬ n < idx.addr.logical (h1.offset + h1.length) (idx.index_of c) := by
  obtain ⟨rest, hbase⟩ : ∃ rest, idx.base = g :: rest := by
    cases hb : idx.base with
    | nil => rw [hb] at hg0; simp at hg0
    | cons a rest =>
      rw [hb] at hg0
      simp only [List.getElem?_cons_zero, Option.some.injEq] at hg0
      exact ⟨rest, by rw [hg0]⟩
  have hlen : idx.base.length = rest.length + 1 := by rw [hbase]; rfl
  have hderef : ∀ i, idx.deref (1 + i) = rest[i]? := by
    intro i
    simp only [record_index.deref, List.get?_eq_getElem?, hbase]
    rw [show 1 + i = i + 1 by omega, List.getElem?_cons_succ]
  have hlog : ∀ (x p : Int), idx.addr.logical x p = x - 4 * (1 + p) - idx.addr.zero := by
    intro x p; simp [address_map.logical, header.size]
  have hio : ∀ c : Nat, idx.index_of c = (c : Int) - 1 := by
    intro c; simp [record_index.index_of, record_index.begin]
  -- what `contains` says
  have hlast : ∃ last, idx.deref idx.last = some last ∧
      n < idx.addr.logical (last.offset + last.length) idx.size := by
    unfold record_index.contains at hcont
    split at hcont
    · simp at hcont
    · rename_i last hl
      simp only [Except.ok.injEq, decide_eq_true_eq] at hcont
      exact ⟨last, hl, hcont⟩
  obtain ⟨last, hl1, hl2⟩ := hlast
  have hsz : idx.size = rest.length := by simp [record_index.size, hlen]
  have hla : idx.last = rest.length := by simp [record_index.last, hlen]
  rw [hsz, hlog] at hl2
  rw [hla] at hl1
  have hpos : 0 < rest.length := by
    by_contra h0
    have h00 : rest.length = 0 := by omega
    rw [h00] at hl1 hl2
    simp only [record_index.deref, List.get?_eq_getElem?] at hl1
    rw [hg0] at hl1
    have : g = last := Option.some.inj hl1
    subst this
    simp only [Nat.cast_zero] at hl2
    omega
  have hl3 : rest[rest.length - 1]? = some last := by
    rw [← hderef, show 1 + (rest.length - 1) = rest.length by omega]; exact hl1
  have hex : ∃ i h, rest[i]? = some h ∧
      n < idx.addr.logical (h.offset + h.length) (idx.index_of (1 + i)) := by
    refine ⟨rest.length - 1, last, hl3, ?_⟩
    rw [hlog, hio]
    have : (((1 + (rest.length - 1) : Nat)) : Int) = (rest.length : Int) := by omega
    rw [this]; omega
  obtain ⟨j, h, hj1, hj2, hj3, hj4⟩ := find_loop_first idx n rest 1 hex
  have hjlt : j < rest.length := by
    by_contra hc2
    rw [List.getElem?_eq_none (by omega)] at hj1
    simp at hj1
  have hfind : idx.find n = .ok (1 + j) := by
    unfold record_index.find
    rw [hcont]
    simp only
    have : idx.base.drop idx.begin = rest := by simp [record_index.begin, hbase]
    rw [this]
    exact hj2
  refine ⟨1 + j, h, hfind, ?_, ?_, ?_, ?_, hj3, ?_⟩
  · simp [record_index.begin]
  · rw [hla]; omega
  · rw [hderef]; exact hj1
  · rw [hlog, hio]
    simp only [header.size]
    cases j with
    | zero =>
      have hb1 : idx.base[0 + 1]? = some h := by
        rw [hbase, List.getElem?_cons_succ]; exact hj1
      have := hc 0 g h hg0 hb1
      simp only at this
      push_cast
      omega
    | succ j1 =>
      obtain ⟨a, ha⟩ : ∃ a, rest[j1]? = some a := by
        have : j1 < rest.length := by omega
        exact ⟨rest[j1], List.getElem?_eq_getElem this⟩
      have hna := hj4 j1 a (by omega) ha
      rw [hlog, hio] at hna
      have hb0 : idx.base[j1 + 1]? = some a := by
        rw [hbase, List.getElem?_cons_succ]; exact ha
      have hb1 : idx.base[j1 + 1 + 1]? = some h := by
        rw [hbase, List.getElem?_cons_succ]; exact hj1
      have := hc (j1 + 1) a h hb0 hb1
      simp only at this
      push_cast at hna ⊢
      omega
  · intro c h1 hc1 hc2 hd1
    simp only [record_index.begin] at hc1
    obtain ⟨i, rfl⟩ : ∃ i, c = 1 + i := ⟨c - 1, by omega⟩
    rw [hderef] at hd1
    exact hj4 i h1 (by omega) hd1

/-! ### The index only grows -/

theorem grows_rhfd {σ : Type} (io : lfp_protocol σ) (idx0 : record_index) (s : rp66 σ)
    (h : idx0.base <+: s.index.base ∧ s.index.addr = idx0.addr) :
    idx0.base <+: (rp66.read_header_from_disk io s).2.index.base ∧
      (rp66.read_header_from_disk io s).2.index.addr = idx0.addr := by
  rcases rhfd_cases io s with ⟨res, fp1, he⟩ | ⟨fp1, last, head, _, _, _, _, he⟩
  · rw [he]; exact h
  · rw [he]
    obtain ⟨t, ht⟩ := h.1
    refine ⟨⟨t ++ [head], ?_⟩, h.2⟩
    show idx0.base ++ (t ++ [head]) = s.index.base ++ [head]
    rw [← List.append_assoc, ht]

theorem seek_grows {σ : Type} (io : lfp_protocol σ) (fuel : Nat) (st : rp66 σ) (n : Int)
    (res : Except error Unit) (st1 : rp66 σ)
    (h : rp66.seek io fuel st n = some (res, st1)) :
    st.index.base <+: st1.index.base ∧ st1.index.addr = st.index.addr :=
  seek_keeps io (fun s => st.index.base <+: s.index.base ∧ s.index.addr = st.index.addr)
    (fun _ _ hp => hp) (fun _ _ hp _ => hp) (fun s hp => grows_rhfd io st.index s hp)
    fuel st n (res, st1) ⟨⟨[], List.append_nil _⟩, rfl⟩ h

theorem readinto_grows {σ : Type} (io : lfp_protocol σ) (fuel : Nat) (st : rp66 σ) (len : Int)
    (res : Except error (List Nat × lfp_status)) (st1 : rp66 σ)
    (h : rp66.readinto io fuel st len = some (res, st1)) :
    st.index.base <+: st1.index.base ∧ st1.index.addr = st.index.addr :=
  readinto_keeps io (fun s => st.index.base <+: s.index.base ∧ s.index.addr = st.index.addr)
    (fun _ _ hp => hp) (fun _ _ hp _ => hp) (fun s hp => grows_rhfd io st.index s hp)
    fuel st len (res, st1) ⟨⟨[], List.append_nil _⟩, rfl⟩ h

/-- In a contiguous index whose entries have a declared length `≥ 4`, the
logical start of every entry after `cur` is at or above the logical end of
`cur`. -/
theorem start_after (idx : record_index) (cur : Nat) (h : header)
    (hc : adjacent (fun a b => a.offset + (a.length : Int) = b.offset) idx.base)
    (hlen : ∀ x ∈ idx.base, 4 ≤ x.length) (hcur : idx.deref cur = some h) :
    ∀ (d : Nat) (h1 : header), idx.deref (cur + 1 + d) = some h1 →
      idx.addr.logical (h.offset + h.length) (idx.index_of cur)
        ≤ idx.addr.logical (h1.offset + header.size) (idx.index_of (cur + 1 + d)) := by
  have hlog : ∀ (x p : Int), idx.addr.logical x p = x - 4 * (1 + p) - idx.addr.zero := by
    intro x p; simp [address_map.logical, header.size]
  have hio : ∀ c : Nat, idx.index_of c = (c : Int) - 1 := by
    intro c; simp [record_index.index_of, record_index.begin]
  simp only [record_index.deref, List.get?_eq_getElem?] at hcur ⊢
  intro d
  induction d with
  | zero =>
    intro h1 hd
    have := hc cur h h1 hcur hd
    simp only at this
    rw [hlog, hlog, hio, hio]
    simp only [header.size, Nat.add_zero]
    push_cast
    omega
  | succ d ih =>
    intro h1 hd
    obtain ⟨a, ha⟩ : ∃ a, idx.base[cur + 1 + d]? = some a := by
      have hlt : cur + 1 + (d + 1) < idx.base.length := by
        by_contra hcon
        rw [List.getElem?_eq_none (by omega)] at hd
        simp at hd
      exact ⟨idx.base[cur + 1 + d], List.getElem?_eq_getElem (by omega)⟩
    have h4 : 4 ≤ a.length := hlen a (List.getElem?_mem ha)
    have hca := hc (cur + 1 + d) a h1 ha hd
    have hia := ih a ha
    simp only at hca
    rw [hlog, hlog, hio, hio] at hia
    rw [hlog, hlog, hio, hio]
    simp only [header.size] at hia ⊢
    push_cast at hia ⊢
    omega

/-- Cursor positions on both sides of a record boundary: exhausted at entry `i`
and moved to the start of entry `i + 1`, when the two entries are contiguous and
the successor declares a length of at least 4. -/
theorem boundary_tell (idx : record_index) (m : address_map) (i : Nat) (a b : header)
    (hab : a.offset + (a.length : Int) = b.offset)
    (ha : idx.deref i = some a) (hb : idx.deref (i + 1) = some b) (hlen : 4 ≤ b.length) :
    read_head.tell ⟨i, 0⟩ idx = .ok (a.offset + a.length) ∧
    read_head.next_record ⟨i, 0⟩ idx = .ok ⟨i + 1, (b.length : Int) - 4⟩ ∧
    read_head.tell ⟨i + 1, (b.length : Int) - 4⟩ idx = .ok (b.offset + 4) ∧
    m.logical (a.offset + a.length) (idx.index_of i)
      = m.logical (b.offset + 4) (idx.index_of i + 1) ∧
    idx.index_of (i + 1) = idx.index_of i + 1 := by
  refine ⟨?_, ?_, ?_, ?_, ?_⟩
  · simp [read_head.tell, ha]
  · simp [read_head.next_record, read_head.move_to, hb, header.size]
  · have h4 : ¬ (b.length < 4) := by omega
    simp only [read_head.tell, hb, ge_iff_le, sub_nonneg, Nat.ofNat_le_cast, not_le, h4, if_false]
    congr 1
    omega
  · simp only [address_map.logical, header.size]
    omega
  · simp only [record_index.index_of]
    push_cast
    omega

/-- A freshly constructed protocol reports `tell() == 0`. -/
theorem tell_create {σ : Type} (io : lfp_protocol σ) (f : σ) :
    rp66.tell (rp66.create io f) = .ok 0 := by
  simp [rp66.tell, rp66.create, record_index.create, record_index.append, read_head.ghost,
    read_head.tell, record_index.deref, record_index.last, record_index.index_of,
    record_index.begin, address_map.logical, address_map.base, header.size]

theorem int64_eq (x : Int) (h1 : -9223372036854775808 ≤ x) (h2 : x < 9223372036854775808) :
    int64 x = x := by
  unfold int64
  omega

theorem rhfd_addr {σ : Type} (io : lfp_protocol σ) (s : rp66 σ) :
    (rp66.read_header_from_disk io s).2.addr = s.addr := by
  rcases rhfd_cases io s with ⟨res, fp1, he⟩ | ⟨fp1, last, head, _, _, _, _, he⟩
  · rw [he]
  · rw [he]

theorem rhfd_length {σ : Type} (io : lfp_protocol σ) (s : rp66 σ) :
    s.index.base.length ≤ (rp66.read_header_from_disk io s).2.index.base.length := by
  rcases rhfd_cases io s with ⟨res, fp1, he⟩ | ⟨fp1, last, head, _, _, _, _, he⟩
  · rw [he]
  · rw [he]
    simp [record_index.append]

theorem seek_loop_length {σ : Type} (io : lfp_protocol σ) (fuel : Nat) (self : rp66 σ) (n : Int)
    (res : Except error Unit × rp66 σ) (h : rp66.seek_loop io fuel self n = some res) :
    self.index.base.length ≤ res.2.index.base.length ∧ res.2.addr = self.addr :=
  seek_loop_keeps io
    (fun s => self.index.base.length ≤ s.index.base.length ∧ s.addr = self.addr)
    (fun _ _ hp => hp) (fun _ _ hp _ => hp)
    (fun s hp => ⟨le_trans hp.1 (rhfd_length io s), (rhfd_addr io s).trans hp.2⟩)
    fuel self n res ⟨le_refl _, rfl⟩ h

theorem physical64_eq (m : address_map) (n : Int) (it K : Nat) (idx : record_index)
    (hn : 0 ≤ n) (hz : 0 ≤ m.zero) (hit : it ≤ K)
    (hK : n + 4 * (K : Int) + m.zero < 9223372036854775808) :
    m.physical64 n (idx.index_of it) = m.physical n (idx.index_of it) := by
  unfold address_map.physical64
  apply int64_eq
  · simp only [address_map.physical, record_index.index_of, record_index.begin, header.size]
    push_cast
    omega
  · simp only [address_map.physical, record_index.index_of, record_index.begin, header.size]
    push_cast
    omega

set_option maxHeartbeats 1000000 in
theorem seek64_loop_eq {σ : Type} (io : lfp_protocol σ) (fuel : Nat) :
    ∀ (self : rp66 σ) (n : Int) (res : Except error Unit × rp66 σ),
    rp66.seek_loop io fuel self n = some res → 0 ≤ n → 0 ≤ self.addr.zero →
    n + 4 * (res.2.index.size : Int) + self.addr.zero < 9223372036854775808 →
    rp66.seek64_loop io fuel self n = some res := by
  induction fuel with
  | zero => intro self n res h; simp [rp66.seek_loop] at h
  | succ f ih =>
    intro self n res h hn hz hK
    have hgrow := (seek_loop_length io _ self n res h).1
    have hfit : self.addr.physical64 n (self.index.index_of self.index.last)
        = self.addr.physical n (self.index.index_of self.index.last) :=
      physical64_eq self.addr n self.index.last res.2.index.size self.index hn hz
        (by simp only [record_index.last, record_index.size]; omega) hK
    unfold rp66.seek_loop at h
    unfold rp66.seek64_loop
    split at h
    · simp_all
    · simp only at h ⊢
      rw [hfit]
      split at h
      · rename_i c1
        rw [if_pos c1]
        exact h
      · rename_i c1
        rw [if_neg c1]
        split at h
        · rename_i c2
          rw [if_pos c2]
          exact h
        · rename_i c2
          rw [if_neg c2]
          split at h
          · simp_all
          · split at h
            · simp_all
            · split at h
              · simp_all
              · rename_i self2 heq
                have hadd : self.addr = self2.addr := by
                  have h1 := congrArg (fun p => p.2.addr) heq
                  simp only at h1
                  rw [rhfd_addr] at h1
                  exact h1
                split at h
                · rename_i c3
                  rw [if_pos c3]; exact h
                · rename_i c3
                  rw [if_neg c3]
                  split at h
                  · simp_all
                  · refine ih _ _ _ h hn ?_ ?_
                    · show 0 ≤ self2.addr.zero
                      rw [← hadd]; exact hz
                    · show n + 4 * (res.2.index.size : Int) + self2.addr.zero < _
                      rw [← hadd]; exact hK

theorem find_loop_range (idx : record_index) (n : Int) :
    ∀ (l : List header) (cur c : Nat), idx.find_loop n l cur = .ok c →
      cur ≤ c ∧ c < cur + l.length := by
  intro l
  induction l with
  | nil => intro cur c h; simp [record_index.find_loop] at h
  | cons a l ih =>
    intro cur c h
    unfold record_index.find_loop at h
    simp only at h
    split at h
    · simp only [Except.ok.injEq] at h
      subst h
      simp
    · have := ih _ _ h
      simp only [List.length_cons]
      omega

theorem find_le_last (idx : record_index) (n : Int) (next : Nat) (h : idx.find n = .ok next) :
    next ≤ idx.last := by
  unfold record_index.find at h
  split at h
  · simp at h
  · simp at h
  · have := find_loop_range idx n _ _ _ h
    simp only [record_index.begin, List.length_drop] at this
    simp only [record_index.last]
    omega

theorem seek64_eq {σ : Type} (io : lfp_protocol σ) (fuel : Nat) (self : rp66 σ) (n : Int)
    (res : Except error Unit × rp66 σ) (h : rp66.seek io fuel self n = some res)
    (hn : 0 ≤ n) (hz : 0 ≤ self.addr.zero)
    (hK : n + 4 * (res.2.index.size : Int) + self.addr.zero < 9223372036854775808) :
    rp66.seek64 io fuel self n = some res := by
  have hgrow : self.index.base.length ≤ res.2.index.base.length := by
    obtain ⟨⟨t, ht⟩, _⟩ := seek_grows io fuel self n res.1 res.2 h
    rw [← ht, List.length_append]
    omega
  unfold rp66.seek at h
  unfold rp66.seek64
  split at h
  · simp_all
  · split at h
    · simp_all
    · rename_i next hfind
      simp only at h ⊢
      have hfit : self.addr.physical64 n (self.index.index_of next)
          = self.addr.physical n (self.index.index_of next) :=
        physical64_eq self.addr n next res.2.index.size self.index hn hz
          (by have := find_le_last _ _ _ hfind
              simp only [record_index.last, record_index.size] at this ⊢; omega) hK
      rw [hfit]
      exact h
  · split at h
    · simp_all
    · exact seek64_loop_eq io fuel _ n res h hn hz hK

/-- Over well-formed records whose last physical address fits 64 bits, the
64-bit `seek` does what `seek_Inv` says of the exact one. -/
theorem seek64_Inv (pre : List Nat) (rs : List (List Nat)) (hwf : wellformed rs)
    (t : Nat) (st : rp66 cfile) (hinv : Inv pre rs t st) (n : Nat) (hs : seekable rs st n)
    (hfit : (n : Int) + 4 * (rs.length : Int) + (pre.length : Int) ≤ 9223372036854775807)
    (fuel : Nat) (hf : rs.length + 1 ≤ fuel) :
    ∃ st1, rp66.seek64 cfile.io fuel st (n : Int) = some (.ok (), st1) ∧
      rp66.seek cfile.io fuel st (n : Int) = some (.ok (), st1) ∧
      Inv pre rs (min n (payload rs).length) st1 ∧ seekable rs st1 n := by
  have hz : st.addr.zero = (pre.length : Int) := by
    obtain ⟨k, it, r, e, h, _⟩ := hinv
    rw [h]; rfl
  obtain ⟨st1, h1, h2, _, _, h3⟩ := seek_Inv pre rs hwf t st hinv n hs fuel hf
  have hsz : st1.index.size ≤ rs.length := by
    obtain ⟨k, it, r, e, h, _, hk, _⟩ := h2
    rw [h]
    have : (sync pre rs k it r e).index.size = k := cindex_size _ _ _
    omega
  refine ⟨st1, ?_, h1, h2, h3⟩
  refine seek64_eq cfile.io fuel st _ _ h1 (by omega) (by rw [hz]; omega) ?_
  show (n : Int) + 4 * (st1.index.size : Int) + st.addr.zero < 9223372036854775808
  rw [hz]
  omega

/-- Seeking twice to a target that `seek` handles: both calls return and leave
`tell()` at the target, or at the end of the data for a target beyond it. -/
theorem seek_twice_seekable (pre : List Nat) (rs : List (List Nat)) (hwf : wellformed rs)
    (t : Nat) (st : rp66 cfile) (hinv : Inv pre rs t st) (n : Nat) (hs : seekable rs st n)
    (hfit : (n : Int) + 4 * (rs.length : Int) + (pre.length : Int) ≤ 9223372036854775807)
    (fuel : Nat) (hf : rs.length + 1 ≤ fuel) :
    ∃ st1 st2, rp66.seek64 cfile.io fuel st (n : Int) = some (.ok (), st1) ∧
      rp66.seek64 cfile.io fuel st1 (n : Int) = some (.ok (), st2) ∧
      rp66.tell st1 = .ok ((min n (payload rs).length : Nat) : Int) ∧
      rp66.tell st2 = rp66.tell st1 := by
  obtain ⟨st1, h1, _, h2, h3⟩ := seek64_Inv pre rs hwf t st hinv n hs hfit fuel hf
  obtain ⟨st2, h4, _, h5, _⟩ := seek64_Inv pre rs hwf _ st1 h2 n h3 hfit fuel hf
  refine ⟨st1, st2, h1, h4, tell_Inv pre rs _ st1 h2, ?_⟩
  rw [tell_Inv pre rs _ st1 h2, tell_Inv pre rs _ st2 h5]

/-! ## The claims -/

/-- C1: over a stream of contiguous well-formed records followed by end of
stream, a freshly attached protocol read with repeated `readinto(buf, c)` until
end-of-data is reported returns, concatenated, exactly the payload bytes of the
records in order with every header removed, for every chunk size `c > 0` (so the
result does not depend on `c`); enough fuel and enough calls give the result. -/
theorem roundtrip_read_all (pre : List Nat) (rs : List (List Nat)) (hwf : wellformed rs)
    (c : Nat) (hc : 0 < c) (fuel calls : Nat) (hf : 2 * rs.length + 2 ≤ fuel)
    (hcalls : (payload rs).length < calls) :
    read_all cfile.io fuel (c : Int) calls (attach pre rs) = some (.ok (payload rs)) :=
  read_all_Inv pre rs hwf c hc fuel hf calls 0 (attach pre rs) (attach_Inv pre rs)
    (Nat.zero_le _) (by omega)

/-- C1 witness: records with payloads of 3, 0 and 2 bytes read in chunks of 1
byte and in one chunk of 100 bytes. -/
theorem roundtrip_read_all_witness :
    read_all cfile.io 8 (1 : Nat) 6 (attach [] [[7, 8, 9], [], [5, 6]]) = some (.ok [7, 8, 9, 5, 6])
    ∧ read_all cfile.io 8 (100 : Nat) 6 (attach [] [[7, 8, 9], [], [5, 6]])
      = some (.ok [7, 8, 9, 5, 6]) :=
  ⟨roundtrip_read_all [] [[7, 8, 9], [], [5, 6]] (by simp [wellformed]) 1 (by decide) 8 6
      (by decide) (by decide),
   roundtrip_read_all [] [[7, 8, 9], [], [5, 6]] (by simp [wellformed]) 100 (by decide) 8 6
      (by decide) (by decide)⟩

/-- C2 (failing input): records with payloads of 8 and 2 bytes; after
`readinto(buf, 10)` has indexed both records (logical end of the last one: 10),
`seek(7)` trips the assertion `n >= 0` of `read_head::move` instead of
completing, whatever the fuel. -/
theorem seek_inside_index_fails :
    ∃ st st1 last,
      rp66.readinto cfile.io 6 (attach [] [[1, 2, 3, 4, 5, 6, 7, 8], [9, 10]]) 10
        = some (.ok ([1, 2, 3, 4, 5, 6, 7, 8, 9, 10], .LFP_OK), st) ∧
      st.index.deref st.index.last = some last ∧
      (7 : Int) < st.addr.logical (last.offset + last.length) (st.index.index_of st.index.last) ∧
      rp66.seek cfile.io 6 st 7 = some (.error .assertion, st1) ∧
      ∀ fuel res, rp66.seek cfile.io fuel st 7 = some res → res.1 = .error .assertion :=
  ⟨sync [] [[1, 2, 3, 4, 5, 6, 7, 8], [9, 10]] 2 2 0 false, _, _, by rfl, by rfl, by decide,
    by rfl,
    fun fuel res h =>
      seek_slip [] [[1, 2, 3, 4, 5, 6, 7, 8], [9, 10]] 10 _
        (Inv_sync [] _ 2 2 0 false 10 (by decide) (by decide) (by decide) (by decide)
          (by decide))
        7 (by unfold seekable; decide) fuel res h⟩

/-- C3 (as amended): in every reachable state over a stream of well-formed
records, for every logical offset `n` inside the payload of some record that
`seek` handles in that state (`seekable`), `seek(n)` returns with `tell() = n`
and leaves the underlying stream either on the physical byte that holds logical
byte `n` or, with the cursor exhausted, at the physical end of the record the
cursor is on; a following `readinto` of one byte returns the payload byte at
logical offset `n`, and `tell()` then equals `n + 1`. -/
theorem seek_then_read_byte (pre : List Nat) (rs : List (List Nat)) (hwf : wellformed rs)
    (st : rp66 cfile) (hreach : Reachable pre rs st) (n : Nat)
    (hn : n < (payload rs).length) (hs : seekable rs st n)
    (fuel : Nat) (hf : 2 * rs.length + 2 ≤ fuel) :
    ∃ st1 st2, rp66.seek cfile.io fuel st (n : Int) = some (.ok (), st1) ∧
      rp66.tell st1 = .ok (n : Int) ∧
      ((st1.fp.pos : Int) = st1.addr.physical (n : Int) (record_of rs n) ∨
        (st1.current.exhausted = .ok true ∧
          st1.current.tell st1.index = .ok (st1.fp.pos : Int))) ∧
      rp66.readinto cfile.io fuel st1 1
        = some (.ok ([(payload rs).get ⟨n, hn⟩], .LFP_OK), st2) ∧
      rp66.tell st2 = .ok ((n : Int) + 1) := by
  obtain ⟨t, hinv⟩ := reachable_Inv pre rs hwf st hreach
  obtain ⟨st1, h1, h2, _, _⟩ := seek_Inv pre rs hwf t st hinv n hs fuel (by omega)
  rw [Nat.min_eq_left (le_of_lt hn)] at h2
  obtain ⟨st2, h3, h4⟩ := readinto_Inv pre rs hwf n st1 h2 1 fuel hf
  rw [Nat.min_eq_left (by omega)] at h4
  refine ⟨st1, st2, h1, tell_Inv pre rs n st1 h2, ?_, ?_, ?_⟩
  · obtain ⟨k, it, r, e, rfl, q1, q2, q3, q4, q5⟩ := h2
    by_cases hr : r = 0
    · right
      subst hr
      refine ⟨exhausted_zero _ rfl, ?_⟩
      have := tell_cindex pre.length rs k it 0 q1
      simp only [sync, conc] at this ⊢
      rw [this]
      congr 1
    · left
      have hro := record_of_eq rs it r n (Nat.pos_of_ne_zero hr) q3 q4
      have hpl := pend_eq_lend rs it
      simp only [sync, conc, address_map.physical, header.size]
      omega
  · have h5 : ((1 : Nat) : Int) = 1 := rfl
    rw [h5] at h3
    rw [h3]
    have : n + 1 ≤ (payload rs).length := by omega
    simp only [this, if_true, take_one_drop _ n hn]
  · have := tell_Inv pre rs _ st2 h4
    rw [this]
    congr 1

/-- C3 witness (the scenario of the claim): records of length 12 and 16,
freshly attached; `seek(8)`, read 1 byte, `tell() = 9`. -/
theorem seek_then_read_byte_witness :
    ∃ st1 st2,
      rp66.seek cfile.io 6
        (attach [] [[1, 2, 3, 4, 5, 6, 7, 8], [9, 10, 11, 12, 13, 14, 15, 16, 17, 18, 19, 20]])
        ((8 : Nat) : Int) = some (.ok (), st1) ∧
      rp66.tell st1 = .ok ((8 : Nat) : Int) ∧
      ((st1.fp.pos : Int) = st1.addr.physical ((8 : Nat) : Int)
          (record_of [[1, 2, 3, 4, 5, 6, 7, 8], [9, 10, 11, 12, 13, 14, 15, 16, 17, 18, 19, 20]] 8) ∨
        (st1.current.exhausted = .ok true ∧
          st1.current.tell st1.index = .ok (st1.fp.pos : Int))) ∧
      rp66.readinto cfile.io 6 st1 1 = some (.ok ([9], .LFP_OK), st2) ∧
      rp66.tell st2 = .ok (((8 : Nat) : Int) + 1) :=
  seek_then_read_byte []
    [[1, 2, 3, 4, 5, 6, 7, 8], [9, 10, 11, 12, 13, 14, 15, 16, 17, 18, 19, 20]]
    (by simp [wellformed]) _ Reachable.attach 8 (by decide) (Or.inr (by decide)) 6 (by decide)

/-- C3 counterexample: on records of length 12 and 16, freshly attached,
`seek(8)` leaves the underlying stream at physical offset 12, the first byte of
the second record's header, while logical byte 8 is held by physical byte 16. -/
theorem seek_boundary_not_on_payload_byte :
    ∃ st1,
      rp66.seek cfile.io 6
        (attach [] [[1, 2, 3, 4, 5, 6, 7, 8], [9, 10, 11, 12, 13, 14, 15, 16, 17, 18, 19, 20]])
        8 = some (.ok (), st1) ∧
      st1.fp.pos = 12 ∧
      st1.addr.physical 8
        (record_of [[1, 2, 3, 4, 5, 6, 7, 8], [9, 10, 11, 12, 13, 14, 15, 16, 17, 18, 19, 20]] 8)
        = 16 ∧
      st1.fp.data.drop 12 = encode [9, 10, 11, 12, 13, 14, 15, 16, 17, 18, 19, 20] :=
  ⟨_, by rfl, by rfl, by rfl, by rfl⟩

/-- C4: inside `readinto`, when the underlying read reports end-of-data (having
returned no more bytes than the record has left): if after advancing the cursor
by the bytes obtained the cursor still has bytes remaining, `readinto` raises
unexpected-end-of-data; if the cursor is exhausted it returns the bytes
accumulated so far.  So on end-of-data the error is raised iff the stream ended
strictly inside the record's payload. -/
theorem readinto_eof_mid_record {σ : Type} (io : lfp_protocol σ) (fuel : Nat) (self : rp66 σ)
    (len : Int) (dst b : List Nat) (fp1 : σ)
    (hne : rp66.eof io self = false) (hrem : 0 < self.current.remaining)
    (hrd : io.readinto self.fp (min len self.current.remaining) = (b, .LFP_EOF, fp1))
    (hle : (b.length : Int) ≤ self.current.remaining) :
    ((b.length : Int) < self.current.remaining →
      ∃ st1, rp66.readinto_loop io (fuel + 1) self len dst = some (.error .unexpected_eof, st1)
        ∧ 0 < st1.current.remaining) ∧
    ((b.length : Int) = self.current.remaining →
      ∃ st1, rp66.readinto_loop io (fuel + 1) self len dst = some (.ok (dst ++ b), st1)
        ∧ st1.current.remaining = 0) ∧
    ((∃ st1, rp66.readinto_loop io (fuel + 1) self len dst = some (.error .unexpected_eof, st1))
      ↔ (b.length : Int) < self.current.remaining) := by
  have h := readinto_loop_eof io fuel self len dst b fp1 hne hrem hrd hle
  refine ⟨?_, ?_, ?_⟩
  · intro hlt
    rw [h, if_pos hlt]
    exact ⟨_, rfl, by show 0 < self.current.remaining - (b.length : Int); omega⟩
  · intro heq
    have : ¬ ((b.length : Int) < self.current.remaining) := by omega
    rw [h, if_neg this]
    exact ⟨_, rfl, by show self.current.remaining - (b.length : Int) = 0; omega⟩
  · rw [h]
    constructor
    · rintro ⟨st1, h1⟩
      by_contra hc
      rw [if_neg hc] at h1
      simp at h1
    · intro hlt
      rw [if_pos hlt]
      exact ⟨_, rfl⟩

/-- C4 witness: a record declaring 12 payload bytes on a stream that holds only
5 of them (unexpected end-of-data after 5 bytes). -/
theorem readinto_eof_mid_record_witness :
    ∃ st1, rp66.readinto_loop cfile.io 1
        { fp := { data := [0, 16, 255, 1, 1, 2, 3, 4, 5], pos := 4, eofbit := false }
          addr := { zero := 0 }
          index := { base := [⟨4, 0, 255, -4⟩, ⟨16, 255, 1, 0⟩], addr := { zero := 0 } }
          current := { it := 1, remaining := 12 } } 100 []
      = some (.error .unexpected_eof, st1) ∧ 0 < st1.current.remaining :=
  (readinto_eof_mid_record cfile.io 0
    { fp := { data := [0, 16, 255, 1, 1, 2, 3, 4, 5], pos := 4, eofbit := false }
      addr := { zero := 0 }
      index := { base := [⟨4, 0, 255, -4⟩, ⟨16, 255, 1, 0⟩], addr := { zero := 0 } }
      current := { it := 1, remaining := 12 } } 100 [] [1, 2, 3, 4, 5]
    { data := [0, 16, 255, 1, 1, 2, 3, 4, 5], pos := 9, eofbit := true }
    rfl (by decide) (by decide) (by decide)).1 (by decide)

/-- C5: when the 4-byte read of `read_header_from_disk` reports end-of-data,
with 0 bytes obtained the function returns normally and leaves the record index
unchanged; with 1, 2 or 3 bytes obtained it raises the fatal protocol error and
appends nothing. -/
theorem read_header_eof {σ : Type} (io : lfp_protocol σ) (self : rp66 σ) (b : List Nat)
    (fp1 : σ) (hcur : self.current.it = self.index.last) (hex : self.current.remaining = 0)
    (hrd : io.readinto self.fp header.size = (b, .LFP_EOF, fp1)) :
    (b.length = 0 → (rp66.read_header_from_disk io self).1 = .ok ()) ∧
    (1 ≤ b.length ∧ b.length ≤ 3 →
      (rp66.read_header_from_disk io self).1 = .error .protocol_fatal) ∧
    (rp66.read_header_from_disk io self).2.index = self.index := by
  rw [rhfd_eof io self b fp1 hcur hex hrd]
  refine ⟨?_, ?_, rfl⟩
  · intro h; simp [h]
  · intro h
    have : ¬ b.length = 0 := by omega
    simp [this]

/-- C5 witness: a stream truncated to 2 bytes of a pending header is a fatal
error, and nothing is appended. -/
theorem read_header_eof_witness :
    (rp66.read_header_from_disk cfile.io
        (rp66.create cfile.io { data := [0, 16], pos := 0, eofbit := false })).1
      = .error .protocol_fatal ∧
    (rp66.read_header_from_disk cfile.io
        (rp66.create cfile.io { data := [0, 16], pos := 0, eofbit := false })).2.index
      = (rp66.create cfile.io { data := [0, 16], pos := 0, eofbit := false }).index :=
  have h := read_header_eof cfile.io
    (rp66.create cfile.io { data := [0, 16], pos := 0, eofbit := false }) [0, 16]
    { data := [0, 16], pos := 2, eofbit := true } rfl rfl (by decide)
  ⟨h.2.1 (by decide), h.2.2⟩

/-- C6: for every index state and every 4 header bytes read successfully whose
(format, version) pair differs from (0xFF, 0x01), `read_header_from_disk` raises
the fatal protocol error and appends nothing to the index; the index changes
only when the pair equals (0xFF, 0x01). -/
theorem read_header_bad_tag {σ : Type} (io : lfp_protocol σ) (self : rp66 σ)
    (b0 b1 b2 b3 : Nat) (fp1 : σ)
    (hcur : self.current.it = self.index.last) (hex : self.current.remaining = 0)
    (hrd : io.readinto self.fp header.size = ([b0, b1, b2, b3], .LFP_OK, fp1))
    (hb2 : b2 < 256) (hb3 : b3 < 256) :
    ((b2, b3) ≠ (0xFF, 0x01) →
      (rp66.read_header_from_disk io self).1 = .error .protocol_fatal ∧
      (rp66.read_header_from_disk io self).2.index = self.index) ∧
    ((rp66.read_header_from_disk io self).2.index ≠ self.index → (b2, b3) = (0xFF, 0x01)) := by
  have e2 : header_byte [b0, b1, b2, b3] 2 = b2 := by
    simp only [header_byte, List.getD_cons_succ, List.getD_cons_zero]; omega
  have e3 : header_byte [b0, b1, b2, b3] 3 = b3 := by
    simp only [header_byte, List.getD_cons_succ, List.getD_cons_zero]; omega
  constructor
  · intro hne
    have hbad : ¬ (header_byte [b0, b1, b2, b3] 2 = 0xFF ∧ header_byte [b0, b1, b2, b3] 3 = 1) := by
      rw [e2, e3]
      rintro ⟨h1, h2⟩
      exact hne (by rw [h1, h2])
    rw [rhfd_ok io self _ fp1 hcur hex hrd hbad]
    exact ⟨rfl, rfl⟩
  · intro hch
    rcases rhfd_index io self with h | ⟨head, _, _, _, _, _, h2, h3⟩
    · exact absurd h hch
    · rw [hrd] at h2 h3
      simp only at h2 h3
      rw [e2] at h2; rw [e3] at h3
      rw [h2, h3]

/-- C6 witness: a second header carrying the tag (0xFF, 0x02) after one good
record is fatal and leaves the index as it was. -/
theorem read_header_bad_tag_witness :
    (rp66.read_header_from_disk cfile.io
        { fp := { data := [0, 4, 255, 1, 0, 4, 255, 2], pos := 4, eofbit := false }
          addr := { zero := 0 }
          index := { base := [⟨4, 0, 255, -4⟩, ⟨4, 255, 1, 0⟩], addr := { zero := 0 } }
          current := { it := 1, remaining := 0 } }).1 = .error .protocol_fatal ∧
    (rp66.read_header_from_disk cfile.io
        { fp := { data := [0, 4, 255, 1, 0, 4, 255, 2], pos := 4, eofbit := false }
          addr := { zero := 0 }
          index := { base := [⟨4, 0, 255, -4⟩, ⟨4, 255, 1, 0⟩], addr := { zero := 0 } }
          current := { it := 1, remaining := 0 } }).2.index
      = { base := [⟨4, 0, 255, -4⟩, ⟨4, 255, 1, 0⟩], addr := { zero := 0 } } :=
  (read_header_bad_tag cfile.io
    { fp := { data := [0, 4, 255, 1, 0, 4, 255, 2], pos := 4, eofbit := false }
      addr := { zero := 0 }
      index := { base := [⟨4, 0, 255, -4⟩, ⟨4, 255, 1, 0⟩], addr := { zero := 0 } }
      current := { it := 1, remaining := 0 } } 0 4 255 2
    { data := [0, 4, 255, 1, 0, 4, 255, 2], pos := 8, eofbit := false }
    rfl rfl (by decide) (by decide) (by decide)).1 (by decide)

/-- C7: every `readinto(dst, len)` call with `len ≥ 0` that returns normally,
over an underlying stream that never returns more bytes than asked, reports a
byte count `k` with `0 ≤ k ≤ len`, and its status is complete iff `k = len`,
otherwise end-of-data iff the underlying stream reports eof, otherwise
incomplete. -/
theorem readinto_count_status {σ : Type} (io : lfp_protocol σ)
    (hio : ∀ s l, 0 ≤ l → ((io.readinto s l).1.length : Int) ≤ l)
    (fuel : Nat) (self : rp66 σ) (len : Int) (hlen : 0 ≤ len)
    (dst : List Nat) (status : lfp_status) (st1 : rp66 σ)
    (h : rp66.readinto io fuel self len = some (.ok (dst, status), st1)) :
    0 ≤ (dst.length : Int) ∧ (dst.length : Int) ≤ len ∧
    (status = .LFP_OK ↔ (dst.length : Int) = len) ∧
    ((dst.length : Int) ≠ len → (status = .LFP_EOF ↔ rp66.eof io st1 = true)) ∧
    ((dst.length : Int) ≠ len → rp66.eof io st1 = false → status = .LFP_OKINCOMPLETE) := by
  unfold rp66.readinto at h
  cases hr : rp66.readinto_n io fuel self len with
  | none => rw [hr] at h; simp at h
  | some r =>
    obtain ⟨res, s2⟩ := r
    rw [hr] at h
    cases res with
    | error e => simp at h
    | ok out =>
      have hb : (out.length : Int) ≤ len := by
        unfold rp66.readinto_n at hr
        split at hr
        · simp at hr
        · have := readinto_loop_length io hio fuel self len [] out s2 hlen hr
          simpa using this
      have hnb : ¬ ¬ ((out.length : Int) ≤ len) := not_not.mpr hb
      simp only [hnb, if_false] at h
      by_cases h1 : (out.length : Int) = len
      · simp only [h1, if_true, Option.some.injEq, Prod.mk.injEq, Except.ok.injEq] at h
        obtain ⟨⟨rfl, rfl⟩, rfl⟩ := h
        refine ⟨Int.natCast_nonneg _, hb, ?_, ?_, ?_⟩
        · simp [h1]
        · intro hc; exact absurd h1 hc
        · intro hc; exact absurd h1 hc
      · simp only [h1, if_false] at h
        by_cases h2 : rp66.eof io s2 = true
        · simp only [h2, if_true, Option.some.injEq, Prod.mk.injEq, Except.ok.injEq] at h
          obtain ⟨⟨rfl, rfl⟩, rfl⟩ := h
          refine ⟨Int.natCast_nonneg _, hb, ?_, ?_, ?_⟩
          · simp [h1]
          · intro _; simp [h2]
          · intro _ hc; rw [h2] at hc; cases hc
        · simp only [h2, if_false, Option.some.injEq, Prod.mk.injEq, Except.ok.injEq] at h
          obtain ⟨⟨rfl, rfl⟩, rfl⟩ := h
          refine ⟨Int.natCast_nonneg _, hb, ?_, ?_, ?_⟩
          · simp [h1]
          · intro _; simp [h2]
          · intro _ _; rfl

/-- C7 witness: one record of 12 payload bytes, `readinto(buf, 100)` returns 12
bytes with end-of-data status. -/
theorem readinto_count_status_witness :
    rp66.readinto cfile.io 4 (attach [] [[1, 2, 3, 4, 5, 6, 7, 8, 9, 10, 11, 12]]) 100
      = some (.ok ([1, 2, 3, 4, 5, 6, 7, 8, 9, 10, 11, 12], .LFP_EOF),
          sync [] [[1, 2, 3, 4, 5, 6, 7, 8, 9, 10, 11, 12]] 1 1 0 true) ∧
    (([1, 2, 3, 4, 5, 6, 7, 8, 9, 10, 11, 12] : List Nat).length : Int) ≤ 100 ∧
    (lfp_status.LFP_EOF = .LFP_EOF ↔
      rp66.eof cfile.io (sync [] [[1, 2, 3, 4, 5, 6, 7, 8, 9, 10, 11, 12]] 1 1 0 true) = true) :=
  have h := readinto_count_status cfile.io cfile_readinto_le 4
    (attach [] [[1, 2, 3, 4, 5, 6, 7, 8, 9, 10, 11, 12]]) 100 (by decide)
    [1, 2, 3, 4, 5, 6, 7, 8, 9, 10, 11, 12] .LFP_EOF
    (sync [] [[1, 2, 3, 4, 5, 6, 7, 8, 9, 10, 11, 12]] 1 1 0 true) (by rfl)
  ⟨by rfl, h.2.1, h.2.2.2.1 (by decide)⟩

/-- C8: over a stream of well-formed records ending exactly at the end of its
last record, with `L` the total payload length, from every reachable state
`seek(L)` returns normally and a following `readinto` of any length `≥ 1`
returns 0 bytes with end-of-data status (no unexpected-end-of-data). -/
theorem seek_end_then_read (pre : List Nat) (rs : List (List Nat)) (hwf : wellformed rs)
    (st : rp66 cfile) (hreach : Reachable pre rs st) (len : Int) (hlen : 1 ≤ len)
    (fuel : Nat) (hf : 2 * rs.length + 2 ≤ fuel) :
    ∃ st1 st2, rp66.seek cfile.io fuel st ((payload rs).length : Int) = some (.ok (), st1) ∧
      rp66.readinto cfile.io fuel st1 len = some (.ok ([], .LFP_EOF), st2) := by
  obtain ⟨t, hinv⟩ := reachable_Inv pre rs hwf st hreach
  obtain ⟨st1, h1, h2, _, _⟩ := seek_Inv pre rs hwf t st hinv (payload rs).length
    (seekable_total pre rs t st hinv _ (le_refl _)) fuel (by omega)
  rw [Nat.min_self] at h2
  obtain ⟨l, rfl⟩ := Int.eq_ofNat_of_zero_le (by omega : 0 ≤ len)
  obtain ⟨st2, h3, _⟩ := readinto_Inv pre rs hwf _ st1 h2 l fuel hf
  refine ⟨st1, st2, h1, ?_⟩
  rw [h3]
  have : ¬ ((payload rs).length + l ≤ (payload rs).length) := by omega
  simp [this]

/-- C8 witness: records with payloads of 8 and 0 bytes, freshly attached;
`seek(8)` then `readinto(buf, 5)`. -/
theorem seek_end_then_read_witness :
    ∃ st1 st2, rp66.seek cfile.io 6 (attach [] [[1, 2, 3, 4, 5, 6, 7, 8], []])
        ((payload [[1, 2, 3, 4, 5, 6, 7, 8], []]).length : Int) = some (.ok (), st1) ∧
      rp66.readinto cfile.io 6 st1 5 = some (.ok ([], .LFP_EOF), st2) :=
  seek_end_then_read [] [[1, 2, 3, 4, 5, 6, 7, 8], []] (by simp [wellformed]) _
    Reachable.attach 5 (by decide) 6 (by decide)

/-- C10: for every protocol state and every `n < 0`, the public `seek(n)` is
rejected with an invalid-argument error and leaves the protocol state (index,
cursor and underlying stream) unchanged. -/
theorem lfp_seek_negative {σ : Type} (io : lfp_protocol σ) (fuel : Nat) (self : rp66 σ)
    (n : Int) (hn : n < 0) :
    lfp_seek io fuel self n = some (.error .invalid_args, self) := by
  unfold lfp_seek
  rw [if_pos hn]

/-- C10 witness: `seek(-1)` on a freshly attached protocol. -/
theorem lfp_seek_negative_witness :
    lfp_seek cfile.io 5 (attach [] [[1, 2, 3]]) (-1)
      = some (.error .invalid_args, attach [] [[1, 2, 3]]) :=
  lfp_seek_negative cfile.io 5 (attach [] [[1, 2, 3]]) (-1) (by decide)

/-- C11: for every base offset, physical address `p`, logical address `l` and
record position `r` (exact integer arithmetic), `physical (logical p r) r = p`
and `logical (physical l r) r = l`, and `logical p r = p - 4 * (1 + r) - zero`. -/
theorem address_map_roundtrip (m : address_map) (p l r : Int) :
    m.physical (m.logical p r) r = p ∧ m.logical (m.physical l r) r = l ∧
    m.logical p r = p - 4 * (1 + r) - m.zero := by
  simp only [address_map.physical, address_map.logical, header.size]
  exact ⟨by omega, by omega, trivial⟩

/-- C12 (failing input): records with payloads of 8 and 2 bytes; after
`readinto(buf, 10)` has indexed both records, `tell()` is 10 and the target 7
lies inside the data.  The first `seek(7)` trips the assertion `n >= 0` of
`read_head::move`, whatever the fuel, so there is no position after it for a
second `seek(7)` to keep.  For the neighbouring target 5 the two calls return
and `tell()` is 5 after each. -/
theorem seek_twice_stops_at_first :
    ∃ st st1 s5 s5b,
      rp66.readinto cfile.io 6 (attach [] [[1, 2, 3, 4, 5, 6, 7, 8], [9, 10]]) 10
        = some (.ok ([1, 2, 3, 4, 5, 6, 7, 8, 9, 10], .LFP_OK), st) ∧
      rp66.tell st = .ok 10 ∧
      rp66.seek cfile.io 6 st 7 = some (.error .assertion, st1) ∧
      rp66.seek64 cfile.io 6 st 7 = some (.error .assertion, st1) ∧
      (∀ fuel res, rp66.seek cfile.io fuel st 7 = some res → res.1 = .error .assertion) ∧
      rp66.seek cfile.io 6 st 5 = some (.ok (), s5) ∧ rp66.tell s5 = .ok 5 ∧
      rp66.seek cfile.io 6 s5 5 = some (.ok (), s5b) ∧ rp66.tell s5b = .ok 5 :=
  ⟨sync [] [[1, 2, 3, 4, 5, 6, 7, 8], [9, 10]] 2 2 0 false, _, _, _, by rfl, by rfl, by rfl,
    by rfl,
    fun fuel res h =>
      seek_slip [] [[1, 2, 3, 4, 5, 6, 7, 8], [9, 10]] 10 _
        (Inv_sync [] _ 2 2 0 false 10 (by decide) (by decide) (by decide) (by decide)
          (by decide))
        7 (by unfold seekable; decide) fuel res h,
    by rfl, by rfl, by rfl, by rfl⟩

/-- C13: in every reachable state over a stream of well-formed records, every
`readinto` call that returns normally with `k` bytes advances the logical
position by exactly `k` (`tell()` after equals `tell()` before plus `k`), however
many records the read spans; and for `len ≥ 0` the call does return normally,
given enough fuel. -/
theorem readinto_advances_tell (pre : List Nat) (rs : List (List Nat)) (hwf : wellformed rs)
    (st : rp66 cfile) (hreach : Reachable pre rs st) (len : Int) :
    (∀ fuel out status st1,
      rp66.readinto cfile.io fuel st len = some (.ok (out, status), st1) →
      ∃ t : Int, rp66.tell st = .ok t ∧ rp66.tell st1 = .ok (t + (out.length : Int))) ∧
    (0 ≤ len → ∀ fuel, 2 * rs.length + 2 ≤ fuel →
      ∃ out status st1, rp66.readinto cfile.io fuel st len = some (.ok (out, status), st1)) := by
  obtain ⟨t, hinv⟩ := reachable_Inv pre rs hwf st hreach
  constructor
  · intro fuel out status st1 h
    exact ⟨t, readinto_tell_Inv pre rs hwf t st hinv len fuel out status st1 h⟩
  · intro hlen fuel hf
    obtain ⟨m, rfl⟩ := Int.eq_ofNat_of_zero_le hlen
    obtain ⟨st1, h1, _⟩ := readinto_Inv pre rs hwf t st hinv m fuel hf
    exact ⟨_, _, st1, h1⟩

/-- C13 witness (the scenario of the claim): one record of total length 16, then
end of stream; `seek(0)`; `readinto(buf, 100)` returns 12 bytes with end-of-data
status and `tell()` goes from 0 to 12. -/
theorem readinto_advances_tell_witness :
    ∃ st0 st1,
      rp66.seek cfile.io 3 (attach [] [[1, 2, 3, 4, 5, 6, 7, 8, 9, 10, 11, 12]]) 0
        = some (.ok (), st0) ∧
      rp66.readinto cfile.io 4 st0 100
        = some (.ok ([1, 2, 3, 4, 5, 6, 7, 8, 9, 10, 11, 12], .LFP_EOF), st1) ∧
      rp66.tell st1 = .ok 12 ∧
      ∃ t : Int, rp66.tell st0 = .ok t ∧
        rp66.tell st1
          = .ok (t + (([1, 2, 3, 4, 5, 6, 7, 8, 9, 10, 11, 12] : List Nat).length : Int)) :=
  ⟨sync [] [[1, 2, 3, 4, 5, 6, 7, 8, 9, 10, 11, 12]] 0 0 0 false,
   sync [] [[1, 2, 3, 4, 5, 6, 7, 8, 9, 10, 11, 12]] 1 1 0 true, by rfl, by rfl, by rfl,
   (readinto_advances_tell [] [[1, 2, 3, 4, 5, 6, 7, 8, 9, 10, 11, 12]] (by simp [wellformed])
      (sync [] [[1, 2, 3, 4, 5, 6, 7, 8, 9, 10, 11, 12]] 0 0 0 false)
      (Reachable.seek 3 0 Reachable.attach (by decide) (by rfl)) 100).1 4 _ _ _ (by rfl)⟩

/-- C14: for every 4 bytes `b0 b1 b2 b3` read successfully with `b2 = 0xFF` and
`b3 = 0x01`, `read_header_from_disk` appends exactly one header, whose length is
`256 * b0 + b1` (a value in 0..65535), whose format is `b2` and version `b3`, and
whose physical offset is the previous last entry's offset + length (the address
map's base when no real record is indexed yet). -/
theorem read_header_appends {σ : Type} (io : lfp_protocol σ) (self : rp66 σ)
    (b0 b1 b2 b3 : Nat) (fp1 : σ) (last : header)
    (hcur : self.current.it = self.index.last) (hex : self.current.remaining = 0)
    (hrd : io.readinto self.fp header.size = ([b0, b1, b2, b3], .LFP_OK, fp1))
    (hb0 : b0 < 256) (hb1 : b1 < 256) (hb2 : b2 = 0xFF) (hb3 : b3 = 0x01)
    (hlast : self.index.deref self.index.last = some last) :
    ∃ head, (rp66.read_header_from_disk io self).1 = .ok () ∧
      (rp66.read_header_from_disk io self).2.index.base = self.index.base ++ [head] ∧
      head.length = 256 * b0 + b1 ∧ head.length ≤ 65535 ∧
      head.format = b2 ∧ head.major = b3 ∧
      head.offset = (if self.index.empty then self.addr.base
                     else last.offset + (last.length : Int)) := by
  have e0 : header_byte [b0, b1, b2, b3] 0 = b0 := by
    simp only [header_byte, List.getD_cons_zero]; omega
  have e1 : header_byte [b0, b1, b2, b3] 1 = b1 := by
    simp only [header_byte, List.getD_cons_succ, List.getD_cons_zero]; omega
  have e2 : header_byte [b0, b1, b2, b3] 2 = b2 := by
    simp only [header_byte, List.getD_cons_succ, List.getD_cons_zero]; omega
  have e3 : header_byte [b0, b1, b2, b3] 3 = b3 := by
    simp only [header_byte, List.getD_cons_succ, List.getD_cons_zero]; omega
  rw [rhfd_good io self _ fp1 last hcur hex hrd (by rw [e2, hb2]) (by rw [e3, hb3]) hlast]
  refine ⟨_, rfl, rfl, ?_, ?_, e2, e3, ?_⟩
  · show (256 * header_byte [b0, b1, b2, b3] 0 + header_byte [b0, b1, b2, b3] 1) % 65536 = _
    rw [e0, e1]; omega
  · show (256 * header_byte [b0, b1, b2, b3] 0 + header_byte [b0, b1, b2, b3] 1) % 65536 ≤ _
    omega
  · show (if ¬ self.index.empty = true then last.offset + (last.length : Int)
          else self.addr.base) = _
    by_cases hem : self.index.empty = true
    · simp [hem]
    · simp [hem]

/-- C14 witness: the header bytes `01 02 FF 01` read after one indexed record of
length 12 at offset 0: a header of length 258 is appended at offset 12. -/
theorem read_header_appends_witness :
    ∃ head,
      (rp66.read_header_from_disk cfile.io
        { fp := { data := [0, 12, 255, 1, 1, 2, 3, 4, 5, 6, 7, 8, 1, 2, 255, 1], pos := 12,
                  eofbit := false }
          addr := { zero := 0 }
          index := { base := [⟨4, 0, 255, -4⟩, ⟨12, 255, 1, 0⟩], addr := { zero := 0 } }
          current := { it := 1, remaining := 0 } }).1 = .ok () ∧
      (rp66.read_header_from_disk cfile.io
        { fp := { data := [0, 12, 255, 1, 1, 2, 3, 4, 5, 6, 7, 8, 1, 2, 255, 1], pos := 12,
                  eofbit := false }
          addr := { zero := 0 }
          index := { base := [⟨4, 0, 255, -4⟩, ⟨12, 255, 1, 0⟩], addr := { zero := 0 } }
          current := { it := 1, remaining := 0 } }).2.index.base
        = [⟨4, 0, 255, -4⟩, ⟨12, 255, 1, 0⟩] ++ [head] ∧
      head.length = 256 * 1 + 2 ∧ head.length ≤ 65535 ∧ head.format = 255 ∧ head.major = 1 ∧
      head.offset = (if (record_index.mk [⟨4, 0, 255, -4⟩, ⟨12, 255, 1, 0⟩] ⟨0⟩).empty
                     then (address_map.mk 0).base
                     else (⟨12, 255, 1, 0⟩ : header).offset + ((12 : Nat) : Int)) :=
  read_header_appends cfile.io
    { fp := { data := [0, 12, 255, 1, 1, 2, 3, 4, 5, 6, 7, 8, 1, 2, 255, 1], pos := 12,
              eofbit := false }
      addr := { zero := 0 }
      index := { base := [⟨4, 0, 255, -4⟩, ⟨12, 255, 1, 0⟩], addr := { zero := 0 } }
      current := { it := 1, remaining := 0 } } 1 2 255 1
    { data := [0, 12, 255, 1, 1, 2, 3, 4, 5, 6, 7, 8, 1, 2, 255, 1], pos := 16,
      eofbit := false } ⟨12, 255, 1, 0⟩
    rfl rfl (by decide) (by decide) (by decide) rfl rfl rfl

/-- C15 (failing input): one record with 8 payload bytes, indexed by
`readinto(buf, 8)`; the logical end of the last indexed record, computed as
`find()` computes it, is 8, yet `contains(5)` is false. -/
theorem contains_rejects_indexed_offset :
    ∃ st last,
      rp66.readinto cfile.io 4 (attach [] [[1, 2, 3, 4, 5, 6, 7, 8]]) 8
        = some (.ok ([1, 2, 3, 4, 5, 6, 7, 8], .LFP_OK), st) ∧
      st.index.deref st.index.last = some last ∧
      st.index.addr.logical (last.offset + last.length) (st.index.index_of st.index.last) = 8 ∧
      st.index.find_loop 5 (st.index.base.drop st.index.begin) st.index.begin = .ok 1 ∧
      st.index.contains 5 = .ok false ∧
      ∀ (z : Nat) (rs : List (List Nat)) (k : Nat) (n : Int),
        (cindex z rs k).contains n = .ok (decide (n < (lend rs k : Int) - 4)) :=
  ⟨sync [] [[1, 2, 3, 4, 5, 6, 7, 8]] 1 1 0 false, _, by rfl, by rfl, by rfl, by rfl, by rfl,
    contains_cindex⟩

/-- C16: for every record index that starts with the ghost and is contiguous,
and every `n ≥ 0` with `contains(n)` true, `find(n)` terminates without stepping
past the last indexed entry and returns the real record of lowest position whose
logical end exceeds `n`; `n` lies in the logical range [logical start, logical
end) of the returned record, and when every entry declares a length of at
least 4 no other real record has `n` in its logical range. -/
theorem find_returns_containing_record (idx : record_index) (n : Int) (g : header)
    (hg0 : idx.base[0]? = some g) (hg : g.offset + (g.length : Int) = idx.addr.zero)
    (hc : adjacent (fun a b => a.offset + (a.length : Int) = b.offset) idx.base)
    (hn : 0 ≤ n) (hcont : idx.contains n = .ok true) :
    ∃ cur h, idx.find n = .ok cur ∧ idx.begin ≤ cur ∧ cur ≤ idx.last ∧
      idx.deref cur = some h ∧
      idx.addr.logical (h.offset + header.size) (idx.index_of cur) ≤ n ∧
      n < idx.addr.logical (h.offset + h.length) (idx.index_of cur) ∧
      (∀ c h1, idx.begin ≤ c → c < cur → idx.deref c = some h1 →
        ¬ n < idx.addr.logical (h1.offset + h1.length) (idx.index_of c)) ∧
      ((∀ x ∈ idx.base, 4 ≤ x.length) →
        ∀ c h1, idx.begin ≤ c → idx.deref c = some h1 →
          idx.addr.logical (h1.offset + header.size) (idx.index_of c) ≤ n →
          n < idx.addr.logical (h1.offset + h1.length) (idx.index_of c) → c = cur) := by
  obtain ⟨cur, h, h1, h2, h3, h4, h5, h6, h7⟩ := find_general idx n g hg0 hg hc hn hcont
  refine ⟨cur, h, h1, h2, h3, h4, h5, h6, h7, ?_⟩
  intro hlen c hc1 hb hd hs he
  rcases Nat.lt_trichotomy c cur with hlt | heq | hgt
  · exact absurd he (h7 c hc1 hb hlt hd)
  · exact heq
  · obtain ⟨d, rfl⟩ : ∃ d, c = cur + 1 + d := ⟨c - (cur + 1), by omega⟩
    have := start_after idx cur h hc hlen h4 d hc1 hd
    omega

/-- C16 witness: the index holding records of length 12 and 16 (payloads of 8
and 12 bytes); `find(9)` returns the second record (iterator 2), whose logical
range is [8, 20). -/
theorem find_returns_containing_record_witness :
    ∃ cur h,
      record_index.find ⟨[⟨4, 0, 255, -4⟩, ⟨12, 255, 1, 0⟩, ⟨16, 255, 1, 12⟩], ⟨0⟩⟩ 9 = .ok cur ∧
      record_index.begin ⟨[⟨4, 0, 255, -4⟩, ⟨12, 255, 1, 0⟩, ⟨16, 255, 1, 12⟩], ⟨0⟩⟩ ≤ cur ∧
      cur ≤ record_index.last ⟨[⟨4, 0, 255, -4⟩, ⟨12, 255, 1, 0⟩, ⟨16, 255, 1, 12⟩], ⟨0⟩⟩ ∧
      record_index.deref ⟨[⟨4, 0, 255, -4⟩, ⟨12, 255, 1, 0⟩, ⟨16, 255, 1, 12⟩], ⟨0⟩⟩ cur
        = some h ∧
      (address_map.mk 0).logical (h.offset + header.size)
        (record_index.index_of ⟨[⟨4, 0, 255, -4⟩, ⟨12, 255, 1, 0⟩, ⟨16, 255, 1, 12⟩], ⟨0⟩⟩ cur)
        ≤ 9 ∧
      9 < (address_map.mk 0).logical (h.offset + h.length)
        (record_index.index_of ⟨[⟨4, 0, 255, -4⟩, ⟨12, 255, 1, 0⟩, ⟨16, 255, 1, 12⟩], ⟨0⟩⟩ cur) :=
  have h := find_returns_containing_record
    ⟨[⟨4, 0, 255, -4⟩, ⟨12, 255, 1, 0⟩, ⟨16, 255, 1, 12⟩], ⟨0⟩⟩ 9 ⟨4, 0, 255, -4⟩
    (by rfl) (by decide)
    (by
      intro i a b ha hb
      match i, ha, hb with
      | 0, ha, hb =>
        simp only [List.getElem?_cons_zero, List.getElem?_cons_succ, Option.some.injEq] at ha hb
        subst ha hb; decide
      | 1, ha, hb =>
        simp only [List.getElem?_cons_zero, List.getElem?_cons_succ, Option.some.injEq] at ha hb
        subst ha hb; decide
      | i + 2, ha, hb =>
        simp at hb)
    (by decide) (by rfl)
  match h with
  | ⟨cur, hd, h1, h2, h3, h4, h5, h6, _⟩ => ⟨cur, hd, h1, h2, h3, h4, h5, h6⟩

/-- C17: in every state reachable from construction through `seek(n ≥ 0)` and
`readinto(len ≥ 0)` calls that return normally, over a stream of records with a
valid tag and a declared length `≥ 4`, the cursor points at an indexed entry and
`0 ≤ remaining ≤ length - 4`, with `length` the declared length of that entry. -/
theorem cursor_within_record (pre : List Nat) (rs : List (List Nat)) (hwf : wellformed rs)
    (st : rp66 cfile) (hreach : Reachable pre rs st) :
    ∃ hd, st.index.deref st.current.it = some hd ∧ 0 ≤ st.current.remaining ∧
      st.current.remaining ≤ (hd.length : Int) - header.size := by
  obtain ⟨t, hinv⟩ := reachable_Inv pre rs hwf st hreach
  exact cursor_Inv pre rs t st hinv

/-- C17 witness: records with payloads of 8 and 2 bytes, after `readinto(buf, 3)`:
the cursor has 5 bytes left in a record of length 12. -/
theorem cursor_within_record_witness :
    ∃ hd, (sync [] [[1, 2, 3, 4, 5, 6, 7, 8], [9, 10]] 1 1 5 false).index.deref
        (sync [] [[1, 2, 3, 4, 5, 6, 7, 8], [9, 10]] 1 1 5 false).current.it = some hd ∧
      0 ≤ (sync [] [[1, 2, 3, 4, 5, 6, 7, 8], [9, 10]] 1 1 5 false).current.remaining ∧
      (sync [] [[1, 2, 3, 4, 5, 6, 7, 8], [9, 10]] 1 1 5 false).current.remaining
        ≤ (hd.length : Int) - header.size :=
  cursor_within_record [] [[1, 2, 3, 4, 5, 6, 7, 8], [9, 10]] (by simp [wellformed]) _
    (Reachable.readinto 4 3 ([1, 2, 3], .LFP_OK) Reachable.attach (by decide) (by rfl))

/-- C18: in every state reached over any stream, every pair of adjacent index
entries (the ghost included) is contiguous, `entry[i].offset + entry[i].length =
entry[i+1].offset`; in particular the first real record's offset equals the base
offset captured at construction. -/
theorem index_contiguous {σ : Type} (io : lfp_protocol σ) (f : σ) (st : rp66 σ)
    (hreach : Reached io f st) :
    (∀ i a b, st.index.deref i = some a → st.index.deref (i + 1) = some b →
      a.offset + (a.length : Int) = b.offset) ∧
    (∀ h, st.index.deref st.index.begin = some h → h.offset = st.addr.zero) ∧
    st.addr.zero = baseaddr io f := by
  obtain ⟨h1, ⟨g, hg1, hg2⟩, h3, _, _⟩ := reached_ok io f st hreach
  refine ⟨?_, ?_, h1⟩
  · intro i a b ha hb
    simp only [record_index.deref, List.get?_eq_getElem?] at ha hb
    exact h3 i a b ha hb
  · intro h hh
    simp only [record_index.deref, record_index.begin, List.get?_eq_getElem?] at hh
    have := h3 0 g h hg1 hh
    simp only at this
    rw [← this, hg2, h1]

/-- C18 witness: records with payloads of 8 and 2 bytes, after `readinto(buf, 10)`:
the first record (offset 0, length 12) is followed by the second at offset 12. -/
theorem index_contiguous_witness :
    (sync [] [[1, 2, 3, 4, 5, 6, 7, 8], [9, 10]] 2 2 0 false).index.deref 1
      = some ⟨12, 255, 1, 0⟩ ∧
    (sync [] [[1, 2, 3, 4, 5, 6, 7, 8], [9, 10]] 2 2 0 false).index.deref (1 + 1)
      = some ⟨6, 255, 1, 12⟩ ∧
    (⟨12, 255, 1, 0⟩ : header).offset + (((⟨12, 255, 1, 0⟩ : header).length : Nat) : Int)
      = (⟨6, 255, 1, 12⟩ : header).offset :=
  ⟨by rfl, by rfl,
    (index_contiguous cfile.io
      { data := [] ++ stream [[1, 2, 3, 4, 5, 6, 7, 8], [9, 10]], pos := 0, eofbit := false }
      (sync [] [[1, 2, 3, 4, 5, 6, 7, 8], [9, 10]] 2 2 0 false)
      (Reached.readinto 6 10 (.ok ([1, 2, 3, 4, 5, 6, 7, 8, 9, 10], .LFP_OK)) Reached.create
        (by rfl))).1 1 _ _ (by rfl) (by rfl)⟩

/-- C19: in every state reached over a stream of any byte content, the headers
held by the record index are strictly increasing by physical offset:
`entry[i].offset < entry[i+1].offset` for every adjacent pair. -/
theorem index_strictly_increasing {σ : Type} (io : lfp_protocol σ) (f : σ) (st : rp66 σ)
    (hreach : Reached io f st) :
    ∀ i a b, st.index.deref i = some a → st.index.deref (i + 1) = some b →
      a.offset < b.offset := by
  obtain ⟨_, _, _, h4, _⟩ := reached_ok io f st hreach
  intro i a b ha hb
  simp only [record_index.deref, List.get?_eq_getElem?] at ha hb
  exact h4 i a b ha hb

/-- C19 witness: a stream that starts with a header of declared length 0; the
`seek(100)` that discovers it stops on the assertion of `read_head::skip`, and
the ghost (offset -4) is followed by that header at offset 0. -/
theorem index_strictly_increasing_witness :
    ∃ st1, rp66.seek cfile.io 6
        (rp66.create cfile.io { data := [0, 0, 255, 1, 0, 0, 255, 1], pos := 0, eofbit := false })
        100 = some (.error .assertion, st1) ∧
      st1.index.deref 0 = some ⟨4, 0, 255, -4⟩ ∧
      st1.index.deref (0 + 1) = some ⟨0, 255, 1, 0⟩ ∧
      (⟨4, 0, 255, -4⟩ : header).offset < (⟨0, 255, 1, 0⟩ : header).offset :=
  ⟨{ fp := { data := [0, 0, 255, 1, 0, 0, 255, 1], pos := 4, eofbit := false }
     addr := { zero := 0 }
     index := { base := [⟨4, 0, 255, -4⟩, ⟨0, 255, 1, 0⟩], addr := { zero := 0 } }
     current := { it := 1, remaining := -4 } }, by rfl, by rfl, by rfl,
    index_strictly_increasing cfile.io
      { data := [0, 0, 255, 1, 0, 0, 255, 1], pos := 0, eofbit := false } _
      (Reached.seek 6 100 (.error .assertion) Reached.create (by rfl)) 0 _ _ (by rfl) (by rfl)⟩

/-- C20: for every protocol state and every `seek` or `readinto` call, whether
it returns normally or raises, the record index before the call is a prefix of
the record index after the call (nothing removed, reordered or modified; entries
are only added at the end), and the index keeps its address map. -/
theorem index_only_grows {σ : Type} (io : lfp_protocol σ) (fuel : Nat) (st st1 : rp66 σ) :
    (∀ n res, rp66.seek io fuel st n = some (res, st1) →
      st.index.base <+: st1.index.base ∧ st1.index.addr = st.index.addr) ∧
    (∀ len res, rp66.readinto io fuel st len = some (res, st1) →
      st.index.base <+: st1.index.base ∧ st1.index.addr = st.index.addr) :=
  ⟨fun n res h => seek_grows io fuel st n res st1 h,
   fun len res h => readinto_grows io fuel st len res st1 h⟩

/-- C20 witness: a `readinto` that raises on a bad tag after one good record
keeps the ghost and appends only the good record. -/
theorem index_only_grows_witness :
    (rp66.create cfile.io
        { data := [0, 5, 255, 1, 7, 0, 4, 255, 2], pos := 0, eofbit := false }).index.base
      <+: (record_index.mk [⟨4, 0, 255, -4⟩, ⟨5, 255, 1, 0⟩] ⟨0⟩).base :=
  ((index_only_grows cfile.io 6
    (rp66.create cfile.io { data := [0, 5, 255, 1, 7, 0, 4, 255, 2], pos := 0, eofbit := false })
    { fp := { data := [0, 5, 255, 1, 7, 0, 4, 255, 2], pos := 9, eofbit := false }
      addr := { zero := 0 }
      index := { base := [⟨4, 0, 255, -4⟩, ⟨5, 255, 1, 0⟩], addr := { zero := 0 } }
      current := { it := 1, remaining := 0 } }).2 10 (.error .protocol_fatal) (by rfl)).1

/-- C21: for every base offset `zero`, a freshly constructed record index holds
exactly one entry, the ghost, with length 4 and offset `zero - 4` (so offset +
length is `zero`) and a (format, version) pair of (0x00, 255), which the header
test of `read_header_from_disk` (format 0xFF and version 1) rejects: four bytes
carrying the ghost's pair raise the fatal protocol error.  `size()` is 0 and
`empty()` is true; `begin()` is the vector position after the ghost, has index 0
while the ghost has index -1, holds no record yet, and is where the first
appended header goes. -/
theorem fresh_index_holds_ghost (zero : Int) :
    ∃ g : header, (record_index.create ⟨zero⟩).base = [g] ∧
      (record_index.create ⟨zero⟩).addr = ⟨zero⟩ ∧
      g.length = 4 ∧ g.offset = zero - 4 ∧ g.offset + (g.length : Int) = zero ∧
      g.format = 0x00 ∧ g.major = 255 ∧ (g.format ≠ 0xFF ∨ g.major ≠ 1) ∧
      (∀ (σ : Type) (io : lfp_protocol σ) (self : rp66 σ) (b0 b1 : Nat) (fp1 : σ),
        self.current.it = self.index.last → self.current.remaining = 0 →
        io.readinto self.fp header.size = ([b0, b1, g.format, g.major], .LFP_OK, fp1) →
        rp66.read_header_from_disk io self
          = (.error .protocol_fatal, { self with fp := fp1 })) ∧
      (record_index.create ⟨zero⟩).size = 0 ∧
      (record_index.create ⟨zero⟩).empty = true ∧
      (record_index.create ⟨zero⟩).deref 0 = some g ∧
      (record_index.create ⟨zero⟩).last = 0 ∧
      (record_index.create ⟨zero⟩).begin = 1 ∧
      (record_index.create ⟨zero⟩).index_of (record_index.create ⟨zero⟩).begin = 0 ∧
      (record_index.create ⟨zero⟩).index_of 0 = -1 ∧
      (record_index.create ⟨zero⟩).deref (record_index.create ⟨zero⟩).begin = none ∧
      ∀ h : header,
        ((record_index.create ⟨zero⟩).append h).deref
            ((record_index.create ⟨zero⟩).append h).begin = some h ∧
          ((record_index.create ⟨zero⟩).append h).size = 1 := by
  refine ⟨⟨4, 0x00, 255, zero - 4⟩, rfl, rfl, rfl, rfl, ?_, rfl, rfl, ?_, ?_, rfl, rfl, rfl, rfl,
    rfl, rfl, rfl, rfl, ?_⟩
  · show zero - 4 + ((4 : Nat) : Int) = zero
    omega
  · exact Or.inl (by show (0x00 : Nat) ≠ 0xFF; decide)
  · intro σ io self b0 b1 fp1 hcur hex hrd
    refine rhfd_ok io self _ fp1 hcur hex hrd ?_
    rintro ⟨h2, _⟩
    revert h2
    show header_byte [b0, b1, 0, 255] 2 = 255 → False
    simp [header_byte]
  · intro h
    exact ⟨rfl, rfl⟩

/-- C21 witness: with base offset 1000 the ghost sits at offset 996 and the
index reports no real record. -/
theorem fresh_index_holds_ghost_witness :
    ∃ g : header, (record_index.create ⟨1000⟩).base = [g] ∧ g.length = 4 ∧ g.offset = 996 ∧
      (record_index.create ⟨1000⟩).size = 0 ∧ (record_index.create ⟨1000⟩).empty = true :=
  match fresh_index_holds_ghost 1000 with
  | ⟨g, h1, _, h3, h4, _, _, _, _, _, h9, h10, _⟩ => ⟨g, h1, h3, by rw [h4]; rfl, h9, h10⟩

/-- C22 (failing input): a stream whose first header declares length 0.
`readinto(1)` indexes it, moves the cursor across the boundary from the ghost
and stops on the assertion of `read_head::exhausted`.  The index it leaves is
contiguous and the ghost has a successor; the cursor exhausted at the ghost
reports position 0, and the position of the cursor `next_record()` yields
(remaining -4) is the same 0 by the arithmetic of `tell` and `logical`, but
`read_head::tell` fails its assertion there, and so does `rp66::tell()`, which
reported 0 before the call. -/
theorem tell_across_boundary_short_record :
    ∃ st1,
      rp66.readinto cfile.io 4
          (rp66.create cfile.io { data := [0, 0, 255, 1, 9], pos := 0, eofbit := false }) 1
        = some (.error .assertion, st1) ∧
      st1.index = ⟨[⟨4, 0, 255, -4⟩, ⟨0, 255, 1, 0⟩], ⟨0⟩⟩ ∧
      adjacent (fun a b => a.offset + (a.length : Int) = b.offset) st1.index.base ∧
      st1.index.deref 0 = some ⟨4, 0, 255, -4⟩ ∧
      st1.index.deref (0 + 1) = some ⟨0, 255, 1, 0⟩ ∧
      read_head.tell ⟨0, 0⟩ st1.index = .ok 0 ∧
      st1.addr.logical 0 (st1.index.index_of 0) = 0 ∧
      read_head.next_record ⟨0, 0⟩ st1.index = .ok ⟨1, -4⟩ ∧
      st1.current = ⟨1, -4⟩ ∧
      st1.addr.logical ((⟨0, 255, 1, 0⟩ : header).offset + ((0 : Nat) : Int) - (-4))
        (st1.index.index_of 0 + 1) = 0 ∧
      read_head.tell ⟨1, -4⟩ st1.index = .error .assertion ∧
      rp66.tell
          (rp66.create cfile.io { data := [0, 0, 255, 1, 9], pos := 0, eofbit := false })
        = .ok 0 ∧
      rp66.tell { st1 with current := ⟨0, 0⟩ } = .ok 0 ∧
      rp66.tell st1 = .error .assertion :=
  ⟨{ fp := { data := [0, 0, 255, 1, 9], pos := 4, eofbit := false }
     addr := { zero := 0 }
     index := { base := [⟨4, 0, 255, -4⟩, ⟨0, 255, 1, 0⟩], addr := { zero := 0 } }
     current := { it := 1, remaining := -4 } },
    by rfl, by rfl,
    (by
      intro i a b ha hb
      match i, ha, hb with
      | 0, ha, hb =>
        simp only [List.getElem?_cons_zero, List.getElem?_cons_succ, Option.some.injEq] at ha hb
        subst ha hb; decide
      | i + 1, ha, hb =>
        simp at hb),
    by rfl, by rfl, by rfl, by rfl, by rfl, by rfl, by rfl, by rfl, by rfl, by rfl, by rfl⟩

end lfp
